import Mathlib

/-!
# bem-css-react-wrapper: a verification development

Shallow embedding of `src/lib/index.js` and `src/lib/templates.js`.

* JavaScript objects are modelled by `JsObj`: the own properties in creation
  order, together with `JsObj.keys`, the order in which `Object.keys` lists
  them (array-index keys first, ascending; then the rest in creation order).
  An object is its own properties. This is the code's behaviour for keys
  that are own keys (`ownKey`): for a name that a plain object inherits from
  `Object.prototype` (`toString`, `valueOf`, ...), for a key that lodash
  refuses (`constructor`, `prototype`, `__proto__`) and for a numeral, before
  which lodash creates an array, `_.set` and `_.get` do something else, which
  is not modelled. Every property of the fold that depends on it is stated
  for own keys.
* Strings are Lean strings; the helpers work on their character lists by
  structural recursion so that every definition evaluates.
* The libraries the source calls (`@bem/sdk.naming.entity`, `lodash`, `path`,
  `glob`, `fs-extra`) are modelled on the inputs the program feeds them; each
  model says so in its doc comment. The naming parser is a parameter of the
  fold, and `bemNamingParse` is the model of the default one.
* A throw is an `Except.error`; the state of the output root is threaded
  through the run as a `World`.
-/

set_option autoImplicit false
set_option maxRecDepth 10000
set_option linter.unnecessarySeqFocus false
set_option linter.unusedVariables false

namespace BemCssReact

/-! ## Character-list helpers -/

/-- Structural prefix test on character lists. -/
def isPrefixChars : List Char → List Char → Bool
  | [], _ => true
  | _ :: _, [] => false
  | a :: as, b :: bs => a == b && isPrefixChars as bs

/-- Split a character list at every occurrence of `sep`. -/
def splitChars (sep : Char) : List Char → List (List Char)
  | [] => [[]]
  | c :: cs =>
    match splitChars sep cs with
    | [] => [[]]
    | w :: ws => if c == sep then [] :: w :: ws else (c :: w) :: ws

/-- Last element of a list of segments, or the empty segment. -/
def lastSeg : List (List Char) → List Char
  | [] => []
  | [w] => w
  | _ :: w :: ws => lastSeg (w :: ws)

/-- Value of a list of decimal digits, most significant first. -/
def digitsVal : List Char → Nat → Nat
  | [], acc => acc
  | c :: cs, acc => digitsVal cs (acc * 10 + (c.toNat - 48))

/-! ## JavaScript objects with `Object.keys` order -/

/-- The array index a property key denotes, if it is one: a canonical decimal
numeral (no leading zero, except `0` itself) of value at most `2^32 - 2`. -/
def arrayIndex? (k : String) : Option Nat :=
  match k.data with
  | [] => none
  | c :: cs =>
    if (c :: cs).all Char.isDigit && (c != '0' || cs.isEmpty)
        && decide (digitsVal (c :: cs) 0 ≤ 4294967294) then
      some (digitsVal (c :: cs) 0)
    else none

/-- Own properties of a JavaScript object, in creation order. -/
abbrev JsObj (α : Type) := List (String × α)

namespace JsObj

variable {α : Type}

/-- Property read `o[k]`. -/
def get? : JsObj α → String → Option α
  | [], _ => none
  | (k', v) :: o, k => if k' = k then some v else get? o k

/-- Property write `o[k] = v`: an existing key keeps its place, a new key is
created last. -/
def set : JsObj α → String → α → JsObj α
  | [], k, v => [(k, v)]
  | (k', v') :: o, k, v => if k' = k then (k', v) :: o else (k', v') :: set o k v

/-- Insert an index key into an ascending list of index keys. -/
def insertIdx (n : Nat) (k : String) : List (Nat × String) → List (Nat × String)
  | [] => [(n, k)]
  | (m, k') :: r => if n ≤ m then (n, k) :: (m, k') :: r else (m, k') :: insertIdx n k r

/-- The array-index keys of an object, ascending by value. -/
def indexKeys : JsObj α → List (Nat × String)
  | [] => []
  | (k, _) :: o =>
    match arrayIndex? k with
    | some n => insertIdx n k (indexKeys o)
    | none => indexKeys o

/-- The keys that are not array indices, in creation order. -/
def stringKeys : JsObj α → List String
  | [] => []
  | (k, _) :: o =>
    match arrayIndex? k with
    | some _ => stringKeys o
    | none => k :: stringKeys o

/-- The order of `Object.keys(o)`. -/
def keys (o : JsObj α) : List String :=
  (indexKeys o).map Prod.snd ++ stringKeys o

/-- The keys in creation order (the order in which they were first written). -/
def created (o : JsObj α) : List String := o.map Prod.fst

end JsObj

/-! ## Paths and file names (`path`, `String.prototype.replace`) -/

/-- Model of `path.basename(file)` for a slash-separated path that does not
end in a slash: the last segment. -/
def basename (file : String) : String :=
  String.mk (lastSeg (splitChars '/' file.data))

/-- Remove `suf` from the end of `s` when `s` ends with it. -/
def stripSuffixChars (suf s : List Char) : List Char :=
  if isPrefixChars suf.reverse s.reverse then (s.reverse.drop suf.length).reverse else s

/-- The source's `fileBaseName.replace(/\.post\.css$/, '')`. -/
def stripPostCss (fileBaseName : String) : String :=
  String.mk (stripSuffixChars ".post.css".data fileBaseName.data)

/-- Model of `path.relative(dir, file)` for a file below `dir` (what the glob
under `dir` returns): the path with the leading `dir/` removed. -/
def pathRelative (dir file : String) : String :=
  if isPrefixChars (dir.data ++ ['/']) file.data then
    String.mk (file.data.drop (dir.data.length + 1))
  else file

/-- Model of `path.resolve(base, seg)` for an absolute, normalised `base` and a
segment without slashes or dots; an empty segment resolves to `base`. -/
def pathResolve (base seg : String) : String :=
  if seg = "" then base else base ++ "/" ++ seg

/-! ## The BEM naming parser (`@bem/sdk.naming.entity`, origin convention) -/

/-- A parsed BEM entity name. A modifier without a value has the value `true`,
which the source only ever uses interpolated into a string, hence `"true"`. -/
structure BemEntityName where
  block : String
  elem : Option String
  mod : Option (String × String)
deriving DecidableEq, Repr

/-- A single alphanumeric run is non-empty and made of ASCII letters and digits. -/
def isAlnumRun (w : List Char) : Bool :=
  !w.isEmpty && w.all Char.isAlphanum

/-- The library's word pattern `[a-zA-Z0-9]+(?:-[a-zA-Z0-9]+)*`. -/
def isBemWord (w : List Char) : Bool :=
  (splitChars '-' w).all isAlnumRun

/-- Model of the library's `parse` with its default (origin) convention:
`block[__elem][_modName[_modVal]]`, every name matching the word pattern.
Since words hold no underscore, the identifier is decided by its
underscore-separated tokens. -/
def bemNamingParse (bemName : String) : Option BemEntityName :=
  match splitChars '_' bemName.data with
  | [b] =>
    if isBemWord b then some ⟨String.mk b, none, none⟩ else none
  | [b, m] =>
    if isBemWord b && isBemWord m then
      some ⟨String.mk b, none, some (String.mk m, "true")⟩ else none
  | [b, [], e] =>
    if isBemWord b && isBemWord e then some ⟨String.mk b, some (String.mk e), none⟩ else none
  | [b, m, v] =>
    if isBemWord b && isBemWord m && isBemWord v then
      some ⟨String.mk b, none, some (String.mk m, String.mk v)⟩ else none
  | [b, [], e, m] =>
    if isBemWord b && isBemWord e && isBemWord m then
      some ⟨String.mk b, some (String.mk e), some (String.mk m, "true")⟩ else none
  | [b, [], e, m, v] =>
    if isBemWord b && isBemWord e && isBemWord m && isBemWord v then
      some ⟨String.mk b, some (String.mk e), some (String.mk m, String.mk v)⟩ else none
  | _ => none

/-! ## `convertBlockName` (`_.upperFirst(_.camelCase(name))`) -/

/-- Scanner state of the word splitter. -/
inductive WordMode where
  | idle
  | lower
  | upper
  | digits
deriving DecidableEq, Repr

/-- Whether `d`, followed by the two letters `a b`, is an ordinal the word
splitter keeps together (`1st`, `2nd`, `3rd`, `4th`, in one letter case). -/
def isOrdinal (d a b : Char) : Bool :=
  (d == '1' && a == 's' && b == 't') || (d == '2' && a == 'n' && b == 'd')
  || (d == '3' && a == 'r' && b == 'd')
  || (d.isDigit && d != '1' && d != '2' && d != '3' && a == 't' && b == 'h')
  || (d == '1' && a == 'S' && b == 'T') || (d == '2' && a == 'N' && b == 'D')
  || (d == '3' && a == 'R' && b == 'D')
  || (d.isDigit && d != '1' && d != '2' && d != '3' && a == 'T' && b == 'H')

/-- The lookahead after an ordinal whose suffix ends in `b`: the end, a
character that is not alphanumeric, or a letter of the other case. -/
def ordinalEnds (b : Char) : List Char → Bool
  | [] => true
  | c :: _ => !c.isDigit && !(b.isLower && c.isLower) && !(b.isUpper && c.isUpper)

/-- Close the current word. -/
def flushWord (cur : List Char) (rest : List (List Char)) : List (List Char) :=
  if cur.isEmpty then rest else cur.reverse :: rest

/-- Model of lodash `words` on ASCII text without apostrophes: the current
word is accumulated (reversed) in `cur`. A word is an optional capital
followed by lower-case letters, a run of capitals (leaving its last capital
to a following lower-case word), a run of digits with an ordinal suffix, or
a run of digits; every other character separates words. -/
def wordsAux : WordMode → List Char → List Char → List (List Char)
  | _, cur, [] => flushWord cur []
  | .digits, d :: cur, a :: b :: rest =>
    if isOrdinal d a b && ordinalEnds b rest then
      (b :: a :: d :: cur).reverse :: wordsAux .idle [] rest
    else if a.isDigit then wordsAux .digits (a :: d :: cur) (b :: rest)
    else if a.isLower then (d :: cur).reverse :: wordsAux .lower [a] (b :: rest)
    else if a.isUpper then (d :: cur).reverse :: wordsAux .upper [a] (b :: rest)
    else (d :: cur).reverse :: wordsAux .idle [] (b :: rest)
  | mode, cur, c :: rest =>
    if c.isLower then
      match mode with
      | .lower => wordsAux .lower (c :: cur) rest
      | .upper => wordsAux .lower (c :: cur) rest
      | _ => flushWord cur (wordsAux .lower [c] rest)
    else if c.isUpper then
      match mode, rest with
      | .upper, n :: _ =>
        if n.isLower then flushWord cur (wordsAux .upper [c] rest)
        else wordsAux .upper (c :: cur) rest
      | .upper, [] => wordsAux .upper (c :: cur) rest
      | _, _ => flushWord cur (wordsAux .upper [c] rest)
    else if c.isDigit then
      match mode with
      | .digits => wordsAux .digits (c :: cur) rest
      | _ => flushWord cur (wordsAux .digits [c] rest)
    else flushWord cur (wordsAux .idle [] rest)

/-- Model of lodash `words`. -/
def words (s : String) : List (List Char) := wordsAux .idle [] s.data

/-- Model of lodash `capitalize`: first character upper-cased, rest lower-cased. -/
def capitalize : List Char → List Char
  | [] => []
  | c :: cs => c.toUpper :: cs.map Char.toLower

/-- The source's `convertBlockName`, `_.upperFirst(_.camelCase(name))`, on
ASCII names without apostrophes: camelCase lower-cases every word and
capitalises all but the first, and `upperFirst` capitalises the first, so
every word ends up capitalised. -/
def convertBlockName (name : String) : String :=
  String.mk (((words name).map capitalize).foldr (fun w acc => w ++ acc) [])

/-! ## The descriptor model built by `getComponentsInfo` -/

/-- The source's `componentCssInfo`: `{className, cssPath}`. -/
structure StyleRef where
  className : String
  cssPath : String
deriving DecidableEq, Repr

/-- A `props` object: modifier name to modifier value to `StyleRef`. -/
abbrev PropsInfo := JsObj (JsObj StyleRef)

/-- The object stored at `children.<elem>`; a field that was never written is
`none` (JavaScript `undefined`). -/
structure ElemInfo where
  name : Option String
  className : Option String
  cssPath : Option String
  props : Option PropsInfo
deriving DecidableEq, Repr

/-- The source's `componentInfo`. -/
structure ComponentInfo where
  name : String
  dir : String
  className : Option String
  cssPath : Option String
  props : Option PropsInfo
  children : Option (JsObj ElemInfo)
deriving DecidableEq, Repr

/-- JavaScript truthiness of a string-or-undefined value. -/
def truthy : Option String → Bool
  | some s => s != ""
  | none => false

/-- The empty object `{}` as an element record. -/
def emptyElem : ElemInfo := ⟨none, none, none, none⟩

/-- Model of `_.set(obj, 'props.<n>.<v>', ref)` on the `props` field, for own
keys `n` and `v` (`ownKey`) and plain objects: a missing object on the path
is created, an existing key keeps its place. Each interpolated name is one
path segment. For a key that lodash refuses or a plain object inherits, and
for a numeral followed by the key `length`, the code does something else. -/
def setProp (props : Option PropsInfo) (n v : String) (ref : StyleRef) : Option PropsInfo :=
  let p := props.getD []
  some (p.set n (((p.get? n).getD []).set v ref))

/-- Model of `_.get(componentInfo, 'children.<elem>')` for an own key `elem`:
the own property; `_.get` also follows the prototype chain. -/
def getChild (ci : ComponentInfo) (elem : String) : Option ElemInfo :=
  (ci.children.getD []).get? elem

/-- Model of a `_.set` below `children.<elem>`, for an own key `elem` and
plain objects: `f` is the write applied to the element record, which is
created empty when missing. -/
def updChild (ci : ComponentInfo) (elem : String) (f : ElemInfo → ElemInfo) : ComponentInfo :=
  let ch := ci.children.getD []
  { ci with children := some (ch.set elem (f ((ch.get? elem).getD emptyElem))) }

/-- The message of the error thrown for a file whose name does not parse. -/
def namingError (file : String) : String :=
  "File \"" ++ file ++ "\" has incorrect name: not in BEM methodology"

/-- The four-way branch of the `forEach` body, for a file already parsed:
`!elem && !mod`, `!elem`, `mod`, and the final `else`. The three branches
that call `_.set` are the code's behaviour for own keys (`ownNames`). -/
def classify (ci : ComponentInfo) (bem : BemEntityName) (ref : StyleRef) : ComponentInfo :=
  let elem := bem.elem.getD ""
  match !truthy bem.elem, bem.mod with
  | true, none =>
    { ci with className := some ref.className, cssPath := some ref.cssPath }
  | true, some (n, v) =>
    { ci with props := setProp ci.props n v ref }
  | false, some (n, v) =>
    let ci1 := updChild ci elem (fun e => { e with props := setProp e.props n v ref })
    let ci2 :=
      if !truthy ((getChild ci1 elem).bind ElemInfo.name) then
        updChild ci1 elem (fun e => { e with name := some (convertBlockName elem) })
      else ci1
    if !truthy ((getChild ci2 elem).bind ElemInfo.className) then
      updChild ci2 elem (fun e => { e with className := some (bem.block ++ "__" ++ elem) })
    else ci2
  | false, none =>
    let existingObj := (getChild ci elem).getD emptyElem
    updChild ci elem (fun _ =>
      { existingObj with
        className := some ref.className
        cssPath := some ref.cssPath
        name := some (convertBlockName elem) })

/-- The body of `cssFilesPaths.forEach`: one discovered file folded into
`componentInfo`, or the thrown error. `parse` is the naming parser. The only
throw is the one of the source; for own keys `_.set` does not throw. -/
def processFile (parse : String → Option BemEntityName) (ci : ComponentInfo)
    (file : String) : Except String ComponentInfo :=
  let fileBaseName := basename file
  let bemName := stripPostCss fileBaseName
  match parse bemName with
  | none => .error (namingError file)
  | some parsedBemName =>
    let relativeCssPath := "./" ++ pathRelative ci.dir file
    .ok (classify ci parsedBemName ⟨bemName, relativeCssPath⟩)

/-- The `forEach` over the discovered files, in discovery order; it stops at
the first throw. -/
def processFiles (parse : String → Option BemEntityName) :
    ComponentInfo → List String → Except String ComponentInfo
  | ci, [] => .ok ci
  | ci, file :: files =>
    match processFile parse ci file with
    | .error e => .error e
    | .ok ci1 => processFiles parse ci1 files

/-- The default applied after the loop: `if (!componentInfo.className)`. -/
def finalize (blockName : String) (ci : ComponentInfo) : ComponentInfo :=
  if truthy ci.className then ci else { ci with className := some blockName }

/-- The record a block starts from: `{name: preparedBlockName, dir: componentPath}`. -/
def initInfo (blockName componentPath : String) : ComponentInfo :=
  ⟨convertBlockName blockName, componentPath, none, none, none, none⟩

/-- One iteration of the `reduce` in `getComponentsInfo`, after the copy and
the glob: the descriptor of the block `blockName` whose component directory
is `componentPath` and whose discovered files are `cssFilesPaths`. -/
def blockInfo (parse : String → Option BemEntityName) (blockName componentPath : String)
    (cssFilesPaths : List String) : Except String ComponentInfo :=
  match processFiles parse (initInfo blockName componentPath) cssFilesPaths with
  | .error e => .error e
  | .ok ci => .ok (finalize blockName ci)

/-! ## The templates (`src/lib/templates.js`) -/

/-- Interpolation of a string-or-undefined value into a template literal. -/
def jsStr : Option String → String
  | some s => s
  | none => "undefined"

/-- The source's `mainTemplate`. -/
def mainTemplate (componentName componentClassName : String) (componentsCssPath : Option String)
    (modsPart elemsPart : String) : String :=
  "import React from \x27react\x27;\n"
  ++ (if truthy componentsCssPath then "import \x27" ++ jsStr componentsCssPath ++ "\x27;\n" else "")
  ++ "\n/**\n * Компонент " ++ componentName
  ++ "\n * @param \x7bObject\x7d props Свойства компонента"
  ++ "\n * @returns \x7bReact.ComponentType<*>\x7d\n */\nconst " ++ componentName
  ++ " = (props) => \x7b\n\t" ++ (if modsPart != "" then "let" else "const")
  ++ " className = props.className ? `" ++ componentClassName ++ " $\x7bprops.className\x7d` : \x27"
  ++ componentClassName ++ "\x27;\n" ++ modsPart
  ++ "\n\treturn (\n\t\t<div className=\x7bclassName\x7d>\n\t\t\t\x7bprops.children\x7d\n\t\t</div>\n\t);\n\x7d;\n"
  ++ elemsPart ++ "\nexport default " ++ componentName ++ ";\n"

/-- One `case` branch appended by the `reduce` in `switchPropTemplate`. -/
def caseBranch (propVal : String) (propValInfo : StyleRef) : String :=
  "\n\t\tcase \x27" ++ propVal ++ "\x27: \x7b\n\t\t\timport \x27" ++ propValInfo.cssPath
  ++ "\x27;\n\t\t\tclassName += \x27 " ++ propValInfo.className ++ "\x27;\n\t\t\tbreak;\n\t\t\x7d"

/-- The `reduce` over `Object.keys(propInfo)` in `switchPropTemplate`. -/
def casePart (propInfo : JsObj StyleRef) : String :=
  (JsObj.keys propInfo).foldl
    (fun acc propVal =>
      match JsObj.get? propInfo propVal with
      | some propValInfo => acc ++ caseBranch propVal propValInfo
      | none => acc)
    ""

/-- The source's `switchPropTemplate`. -/
def switchPropTemplate (propInfo : JsObj StyleRef) (propName : String) : String :=
  "\tswitch (props[\x27" ++ propName ++ "\x27]) \x7b" ++ casePart propInfo
  ++ "\n\t\tdefault: break;\n\t\x7d\n"

/-- The source's `elemTemplate`. -/
def elemTemplate (ownerName elemName elemClassName : String) (elemCssPath : Option String)
    (modsPart : String) : String :=
  ownerName ++ "." ++ elemName ++ " = (props) => \x7b"
  ++ (if truthy elemCssPath then "\n\timport \x27" ++ jsStr elemCssPath ++ "\x27;\n" else "")
  ++ "\n\t" ++ (if modsPart != "" then "let" else "const")
  ++ " className = props.className ? `" ++ elemClassName ++ " $\x7bprops.className\x7d` : \x27"
  ++ elemClassName ++ "\x27;\n" ++ modsPart
  ++ "\n\treturn (\n\t\t<div className=\x7bclassName\x7d>\n\t\t\t\x7bprops.children\x7d\n\t\t</div>\n\t);\n\x7d;"

/-! ## The emitter (`generateModsPart`, `generateElemPart`) -/

/-- The source's `generateModsPart`. -/
def generateModsPart : Option PropsInfo → String
  | none => ""
  | some propsInfo =>
    (JsObj.keys propsInfo).foldl
      (fun generatedModsPart propName =>
        match JsObj.get? propsInfo propName with
        | some propInfo => generatedModsPart ++ "\n" ++ switchPropTemplate propInfo propName
        | none => generatedModsPart)
      ""

/-- The source's `generateElemPart`. -/
def generateElemPart : Option (JsObj ElemInfo) → String → String
  | none, _ => ""
  | some elemsInfo, ownerName =>
    (JsObj.keys elemsInfo).foldl
      (fun generatedElemPart elemName =>
        match JsObj.get? elemsInfo elemName with
        | some elemInfo =>
          let modsPart := generateModsPart elemInfo.props
          generatedElemPart ++ "\n"
            ++ elemTemplate ownerName (jsStr elemInfo.name) (jsStr elemInfo.className)
                elemInfo.cssPath modsPart
            ++ "\n"
        | none => generatedElemPart)
      ""

/-- The text `generateReactComponent` passes to `fs.writeFileSync`. -/
def reactVersion (componentInfo : ComponentInfo) : String :=
  mainTemplate componentInfo.name (jsStr componentInfo.className) componentInfo.cssPath
    (generateModsPart componentInfo.props)
    (generateElemPart componentInfo.children componentInfo.name)

/-! ## The run: file system effects, `getComponentsInfo`, `generateReactComponents` -/

/-- The content of the output root during a run: the files copied into it
(absolute paths, in the order the glob lists them) and the log of the
`fs.writeFileSync` calls (path and text, oldest first). -/
structure World where
  files : List String
  written : List (String × String)
deriving DecidableEq, Repr

/-- The source root as `fs.readdirSync` and the recursive copy see it: every
block directory name with the paths of the files below it, relative to it. -/
abbrev SourceTree := List (String × List String)

/-- Model of `fs.copySync(blockDir, reactVerCssPath)`: every file of the block
appears below the target; a file already there is overwritten in place. -/
def copySync (w : World) (reactVerCssPath : String) (rels : List String) : World :=
  { w with
    files := rels.foldl
      (fun fs rel =>
        let target := reactVerCssPath ++ "/" ++ rel
        if fs.contains target then fs else fs ++ [target])
      w.files }

/-- Whether a path segment is hidden (starts with a dot); the glob skips those. -/
def isHidden : List Char → Bool
  | '.' :: _ => true
  | _ => false

/-- Model of `glob.sync(componentPath + '/**/*.post.css')`: the files below
`componentPath` whose name ends in `.post.css`, hidden segments excluded, in
the order in which they were copied. The sorting of `glob` and a directory
whose name ends in `.post.css` are not modelled. -/
def globSync (w : World) (componentPath : String) : List String :=
  w.files.filter (fun file =>
    isPrefixChars (componentPath.data ++ ['/']) file.data
    && isPrefixChars ".post.css".data.reverse file.data.reverse
    && (splitChars '/' (file.data.drop (componentPath.data.length + 1))).all
        (fun seg => !isHidden seg))

/-- The `reduce` of `getComponentsInfo` over the block directories, with the
state of the output root threaded through; a throw leaves the state as it is. -/
def getComponentsInfoFrom (parse : String → Option BemEntityName) (outputDirPath : String) :
    World → SourceTree → List ComponentInfo → World × Except String (List ComponentInfo)
  | w, [], infoArr => (w, .ok infoArr)
  | w, (blockName, rels) :: blocks, infoArr =>
    let preparedBlockName := convertBlockName blockName
    let componentPath := pathResolve outputDirPath preparedBlockName
    let reactVerCssPath := pathResolve componentPath "css"
    let w1 := copySync w reactVerCssPath rels
    let cssFilesPaths := globSync w1 componentPath
    match blockInfo parse blockName componentPath cssFilesPaths with
    | .error e => (w1, .error e)
    | .ok componentInfo => getComponentsInfoFrom parse outputDirPath w1 blocks (infoArr ++ [componentInfo])

/-- The source's `getComponentsInfo`, run on the output root in state `w`. -/
def getComponentsInfo (parse : String → Option BemEntityName) (w : World)
    (cssSource : SourceTree) (outputDirPath : String) :
    World × Except String (List ComponentInfo) :=
  getComponentsInfoFrom parse outputDirPath w cssSource []

/-- The source's `generateReactComponent`: the text is written to
`<dir>/index.js`. -/
def generateReactComponent (w : World) (componentInfo : ComponentInfo) : World :=
  { w with
    written := w.written ++ [(pathResolve componentInfo.dir "index.js", reactVersion componentInfo)] }

/-- The source's `generateReactComponents`: the output root is removed and
recreated empty, all descriptors are collected, then each one is emitted. -/
def generateReactComponents (parse : String → Option BemEntityName)
    (cssSource : SourceTree) (outputDirPath : String) : World × Except String Unit :=
  match getComponentsInfo parse ⟨[], []⟩ cssSource outputDirPath with
  | (w, .error e) => (w, .error e)
  | (w, .ok infos) => (infos.foldl generateReactComponent w, .ok ())

/-! ## Auxiliary definitions used in the statements -/

/-- The name an element record has after the defaulting rule. -/
def defaultName (elem : String) (e : ElemInfo) : Option String :=
  if truthy e.name then e.name else some (convertBlockName elem)

/-- The class name an element record has after the defaulting rule. -/
def defaultClassName (block elem : String) (e : ElemInfo) : Option String :=
  if truthy e.className then e.className else some (block ++ "__" ++ elem)

/-- The read `props.<n>.<v>` of a `props` object that may be missing. -/
def propRef (props : Option PropsInfo) (n v : String) : Option StyleRef :=
  (props.bind (fun p => JsObj.get? p n)).bind (fun q => JsObj.get? q v)

/-- The files of the `my-block` scenario, relative to the component directory. -/
def scenarioFiles : List String :=
  ["css/my-block.post.css", "css/my-block_theme_red.post.css",
   "css/my-block__icon.post.css", "css/my-block__icon_size_big.post.css"]

/-- What the scenario fixes about the `icon` element: its name, class name,
style sheet and `size`/`big` entry. -/
structure IconView where
  name : Option String
  className : Option String
  cssPath : Option String
  sizeBig : Option StyleRef
deriving DecidableEq, Repr

/-- What the scenario fixes about the block descriptor: name, class name and
style sheet, the `theme`/`red` entry, and the `icon` element. -/
structure ScenarioView where
  name : String
  className : Option String
  cssPath : Option String
  themeRed : Option StyleRef
  icon : Option IconView
deriving DecidableEq, Repr

/-- The scenario's view of a descriptor. -/
def scenarioView (ci : ComponentInfo) : ScenarioView :=
  { name := ci.name
    className := ci.className
    cssPath := ci.cssPath
    themeRed := propRef ci.props "theme" "red"
    icon := (getChild ci "icon").map (fun e =>
      { name := e.name, className := e.className, cssPath := e.cssPath
        sizeBig := propRef e.props "size" "big" }) }

/-- The view the scenario expects. -/
def scenarioExpected : ScenarioView :=
  { name := "MyBlock"
    className := some "my-block"
    cssPath := some "./css/my-block.post.css"
    themeRed := some ⟨"my-block_theme_red", "./css/my-block_theme_red.post.css"⟩
    icon := some
      { name := some "Icon"
        className := some "my-block__icon"
        cssPath := some "./css/my-block__icon.post.css"
        sizeBig := some ⟨"my-block__icon_size_big", "./css/my-block__icon_size_big.post.css"⟩ } }

/-- All ways of inserting `x` into a list. -/
def insertions {α : Type} (x : α) : List α → List (List α)
  | [] => [[x]]
  | y :: l => (x :: y :: l) :: (insertions x l).map (fun r => y :: r)

/-- All orders of a list, by structural recursion. -/
def orders {α : Type} : List α → List (List α)
  | [] => [[]]
  | x :: t => (orders t).foldr (fun l acc => insertions x l ++ acc) []

/-- The distinct entries of a list, each at the place of its first occurrence. -/
def firstOcc (l : List String) : List String :=
  l.foldl (fun acc k => if k ∈ acc then acc else acc ++ [k]) []

/-- The identifiers the parser returns for the discovered files, in discovery
order (files it rejects give none). -/
def parsedOf (parse : String → Option BemEntityName) (files : List String) :
    List BemEntityName :=
  files.filterMap (fun f => parse (stripPostCss (basename f)))

/-- The modifiers written on the block itself: the `(name, value)` pairs of the
identifiers without an element, in order. -/
def blockMods (bs : List BemEntityName) : List (String × String) :=
  bs.filterMap (fun b => if truthy b.elem then none else b.mod)

/-- The modifiers written on the element `e`, in order. -/
def elemMods (e : String) (bs : List BemEntityName) : List (String × String) :=
  bs.filterMap (fun b => if truthy b.elem && b.elem == some e then b.mod else none)

/-- The elements the identifiers name, in order. -/
def elemNames (bs : List BemEntityName) : List String :=
  bs.filterMap (fun b => if truthy b.elem then b.elem else none)

/-- The values written for the modifier `n`, in order. -/
def valsOf (n : String) (ms : List (String × String)) : List String :=
  ms.filterMap (fun m => if m.1 = n then some m.2 else none)

/-- No element name, modifier name or modifier value of the identifier is an
array index. -/
def noIndexNames (b : BemEntityName) : Bool :=
  b.elem.all (fun e => (arrayIndex? e).isNone)
  && b.mod.all (fun m => (arrayIndex? m.1).isNone && (arrayIndex? m.2).isNone)

/-- The element record at `children.<e>`, empty when missing. -/
def childOf (ci : ComponentInfo) (e : String) : ElemInfo :=
  (getChild ci e).getD emptyElem

/-- The object at `<props>.<n>`, empty when missing. -/
def valuesAt (props : Option PropsInfo) (n : String) : JsObj StyleRef :=
  ((props.getD []).get? n).getD []

/-- A `props` object records the modifier writes `ms`: its names and, under
each name, its values are in first-written order. -/
def PropsTrace (props : Option PropsInfo) (ms : List (String × String)) : Prop :=
  JsObj.created (props.getD []) = firstOcc (ms.map Prod.fst)
  ∧ ∀ n, JsObj.created (valuesAt props n) = firstOcc (valsOf n ms)


/-- The descriptor records the identifiers `bs`: the block's modifiers, the
elements, and each element's modifiers are in first-written order. -/
def OrderInv (ci : ComponentInfo) (bs : List BemEntityName) : Prop :=
  PropsTrace ci.props (blockMods bs)
  ∧ JsObj.created (ci.children.getD []) = firstOcc (elemNames bs)
  ∧ ∀ e, PropsTrace (childOf ci e).props (elemMods e bs)

/-- The classification records of the discovered files, in discovery order:
the parsed identifier of each file with the `StyleRef` written for it, for a
component directory `dir` (files the parser rejects give none). -/
def classifiedOf (parse : String → Option BemEntityName) (dir : String)
    (files : List String) : List (BemEntityName × StyleRef) :=
  files.filterMap (fun f =>
    (parse (stripPostCss (basename f))).map (fun b =>
      (b, (⟨stripPostCss (basename f), "./" ++ pathRelative dir f⟩ : StyleRef))))

/-- The first identifier of a list that names the element `elem`. -/
def firstOfElem (elem : String) (bs : List BemEntityName) : Option BemEntityName :=
  bs.find? (fun b => b.elem == some elem)

/-- What holds of the element `elem` as long as only element-with-modifier
records name it: it is missing before the first such record, and afterwards
it has the defaulted name and class name (with the block name of the first
record), no cssPath, and an entry for every modifier pair written. -/
def ElemOnlyMods (elem : String) (ci : ComponentInfo)
    (tr : List (BemEntityName × StyleRef)) : Prop :=
  (∀ x ∈ tr, x.1.elem = some elem → x.1.mod ≠ none) →
  match firstOfElem elem (tr.map Prod.fst) with
  | none => getChild ci elem = none
  | some b0 =>
    ∃ e, getChild ci elem = some e
      ∧ e.name = some (convertBlockName elem)
      ∧ e.className = some (b0.block ++ "__" ++ elem)
      ∧ e.cssPath = none
      ∧ ∀ m ∈ elemMods elem (tr.map Prod.fst), (propRef e.props m.1 m.2).isSome = true

/-- The class names written by the block-root records (no elem, no mod), in
order. -/
def rootClassNames (tr : List (BemEntityName × StyleRef)) : List String :=
  tr.filterMap (fun x => if truthy x.1.elem || x.1.mod.isSome then none else some x.2.className)

/-- The `StyleRef`s written for the modifier pair `(n, v)` on the block
itself, in order. -/
def blockRefs (n v : String) (tr : List (BemEntityName × StyleRef)) : List StyleRef :=
  tr.filterMap (fun x =>
    if !truthy x.1.elem && x.1.mod == some (n, v) then some x.2 else none)

/-- The `StyleRef`s written for the modifier pair `(n, v)` on the element
`elem`, in order. -/
def elemRefs (elem n v : String) (tr : List (BemEntityName × StyleRef)) : List StyleRef :=
  tr.filterMap (fun x =>
    if truthy x.1.elem && x.1.elem == some elem && x.1.mod == some (n, v) then some x.2
    else none)

/-- Every props entry, of the block and of every element, is the last
`StyleRef` written for its owner and modifier pair. -/
def LastWrite (ci : ComponentInfo) (tr : List (BemEntityName × StyleRef)) : Prop :=
  (∀ n v, propRef ci.props n v = (blockRefs n v tr).getLast?)
  ∧ ∀ e n v, propRef (childOf ci e).props n v = (elemRefs e n v tr).getLast?

/-- The file names of the `my-block` scenario, as they lie in the block's
source directory. -/
def scenarioNames : List String :=
  ["my-block.post.css", "my-block_theme_red.post.css",
   "my-block__icon.post.css", "my-block__icon_size_big.post.css"]

/-- The further runs of a name, each with the delimiter before it. -/
def tailRuns : List (Char × List Char) → List Char
  | [] => []
  | (d, r) :: rest => d :: (r ++ tailRuns rest)

/-- The text of runs of letters joined by single delimiters: the first run,
then each further run with the delimiter before it. -/
def joinRuns (first : List Char) (rest : List (Char × List Char)) : List Char :=
  first ++ tailRuns rest

/-- A run with its first letter upper-cased. -/
def upperFirstChars : List Char → List Char
  | [] => []
  | c :: cs => c.toUpper :: cs

/-- The runs concatenated, the first letter of each upper-cased. -/
def pascalTail : List (Char × List Char) → List Char
  | [] => []
  | (_, r) :: rest => upperFirstChars r ++ pascalTail rest

/-- The runs concatenated with the first letter of each upper-cased and the
delimiters removed. -/
def pascalRuns (first : List Char) (rest : List (Char × List Char)) : List Char :=
  upperFirstChars first ++ pascalTail rest

/-- A non-empty run of lower-case ASCII letters. -/
def isLowerRun (r : List Char) : Bool :=
  !r.isEmpty && r.all Char.isLower

/-- Where the class name `s` of the element `k` comes from: the defaulting rule
at an element-with-modifier record, or the identifier of an element-root
record. -/
def ClassNameOrigin (k s : String) (tr : List (BemEntityName × StyleRef)) : Prop :=
  (∃ x ∈ tr, x.1.elem = some k ∧ x.1.mod ≠ none ∧ s = x.1.block ++ "__" ++ k)
  ∨ (∃ x ∈ tr, x.1.elem = some k ∧ x.1.mod = none ∧ s = x.2.className)

/-- Every element of the descriptor is named after its key and has a
non-empty class name of one of the two origins, as long as the records
carry non-empty identifiers. -/
def ElemNamed (ci : ComponentInfo) (tr : List (BemEntityName × StyleRef)) : Prop :=
  (∀ x ∈ tr, x.2.className ≠ "") →
  ∀ k e, getChild ci k = some e →
    e.name = some (convertBlockName k)
    ∧ ∃ s, e.className = some s ∧ s ≠ "" ∧ ClassNameOrigin k s tr

/-- The own entries of an object in `Object.keys` order (`Object.entries`). -/
def JsObj.entries {α : Type} (o : JsObj α) : List (String × α) :=
  (JsObj.keys o).filterMap (fun k => (JsObj.get? o k).map (fun v => (k, v)))

/-- The text `needle` occurs in `text`. -/
def occursIn (needle text : List Char) : Prop :=
  ∃ pre post, text = pre ++ needle ++ post

/-- One step of a left-to-right search for `needle`: with `s` characters of it
matched, the next character either extends the match, restarts it, or drops
it; a complete match is kept. -/
def scanStep (needle : List Char) (s : Nat) (c : Char) : Nat :=
  if needle.length ≤ s then s
  else if needle.get? s = some c then s + 1
  else if needle.head? = some c then 1
  else 0

/-- The search state after reading `text` from the state `s`. -/
def scan (needle : List Char) (s : Nat) (text : List Char) : Nat :=
  text.foldl (scanStep needle) s

/-- Reading `piece` from a state of at most `k` matched characters ends in
such a state. -/
def Safe (needle : List Char) (k : Nat) (piece : List Char) : Prop :=
  ∀ s, s ≤ k → scan needle s piece ≤ k

/-- A value record of a `props` object as the template receives it: either
field may be missing. -/
structure RawStyle where
  className : Option String
  cssPath : Option String
deriving DecidableEq, Repr

/-- The record the template receives for a `StyleRef`. -/
def StyleRef.toRaw (r : StyleRef) : RawStyle := ⟨some r.className, some r.cssPath⟩

/-- One `case` branch of `switchPropTemplate` for a value record whose fields
may be missing: a missing field is interpolated as `undefined`. -/
def caseBranchRaw (propVal : String) (propValInfo : RawStyle) : String :=
  "\n\t\tcase \x27" ++ propVal ++ "\x27: \x7b\n\t\t\timport \x27" ++ jsStr propValInfo.cssPath
  ++ "\x27;\n\t\t\tclassName += \x27 " ++ jsStr propValInfo.className
  ++ "\x27;\n\t\t\tbreak;\n\t\t\x7d"

/-- The source's `switchPropTemplate` on value records whose fields may be
missing. -/
def switchPropTemplateRaw (propInfo : JsObj RawStyle) (propName : String) : String :=
  "\tswitch (props[\x27" ++ propName ++ "\x27]) \x7b"
  ++ (JsObj.keys propInfo).foldl
      (fun acc propVal =>
        match JsObj.get? propInfo propVal with
        | some propValInfo => acc ++ caseBranchRaw propVal propValInfo
        | none => acc)
      ""
  ++ "\n\t\tdefault: break;\n\t\x7d\n"

/-- The text that starts a stylesheet import statement. -/
def importNeedle : List Char := "import \x27".data

/-- `Safe` for the characters of a string. -/
structure SafeS (needle : List Char) (k : Nat) (piece : String) : Prop where
  safe : Safe needle k piece.data

/-- The text that declares `className` as a constant. -/
def constNeedle : List Char := "\tconst ".data

/-- The text that declares `className` as a variable. -/
def letNeedle : List Char := "\tlet ".data

/-- The text of a statement that appends to `className`. -/
def plusNeedle : List Char := "className +=".data

/-- The string holds no tab. -/
def noTab (s : String) : Prop := '\t' ∉ s.data

/-- The string holds no plus sign. -/
def noPlus (s : String) : Prop := '+' ∉ s.data

/-- No modifier name, modifier value, class name or path in the `props`
object holds a tab. -/
def noTabProps (props : Option PropsInfo) : Prop :=
  ∀ nq ∈ props.getD [], noTab nq.1
    ∧ ∀ vr ∈ nq.2, noTab vr.1 ∧ noTab vr.2.className ∧ noTab vr.2.cssPath

/-- The declaration of `className` as a constant. -/
def constDecl : List Char := "\tconst className = ".data

/-- The declaration of `className` as a variable. -/
def letDecl : List Char := "\tlet className = ".data

/-! ## The descriptor as a plain JavaScript object

The record types above fix which fields a descriptor can have. To state that
the fold never gives an element a field of another name, the same fold is
embedded a second time on untyped objects, with the paths of `_.set` and
`_.get` kept as the strings the source interpolates. -/

/-- A value stored in the descriptor tree: a string or a plain object. -/
inductive JsVal where
  | str (s : String)
  | obj (fields : List (String × JsVal))

/-- JavaScript truthiness of a string, an object or `undefined`. -/
def truthyJs : Option JsVal → Bool
  | some (.str s) => s != ""
  | some (.obj _) => true
  | none => false

/-- Model of lodash `stringToPath` on a path without brackets: the segments
between the dots. -/
def stringToPath (path : String) : List String :=
  (splitChars '.' path.data).map String.mk

/-- The object `baseSet` descends into, for a next key that is no numeral and
an own property: `isObject(objValue) ? objValue : {}`. -/
def nestedObject : Option JsVal → JsObj JsVal
  | some (.obj fields) => fields
  | _ => []

/-- Model of lodash `baseSet` along a path of own keys (`ownKey`): an
intermediate value that is not an object is replaced by a new object, an
existing key keeps its place. The refusal of the keys `constructor`,
`prototype` and `__proto__`, the array before a numeral and the read through
the prototype chain are not modelled. -/
def setAt : List String → JsVal → JsObj JsVal → JsObj JsVal
  | [], _, o => o
  | [key], value, o => o.set key value
  | key :: next :: rest, value, o =>
    o.set key (.obj (setAt (next :: rest) value (nestedObject (o.get? key))))

/-- Model of `_.set(object, path, value)` for a path string with a dot. -/
def lodashSet (object : JsObj JsVal) (path : String) (value : JsVal) : JsObj JsVal :=
  setAt (stringToPath path) value object

/-- Model of lodash `baseGet` along a path of own keys: the own properties;
the keys read from a string value are no property of a string. -/
def getAt : List String → JsVal → Option JsVal
  | [], v => some v
  | key :: rest, .obj fields => (JsObj.get? fields key).bind (getAt rest)
  | _ :: _, .str _ => none

/-- Model of `_.get(object, path)` for a path string with a dot. -/
def lodashGet (object : JsObj JsVal) (path : String) : Option JsVal :=
  getAt (stringToPath path) (.obj object)

/-- The own enumerable properties copied by `{...value}`, in `Object.keys`
order; for `undefined` there are none. -/
def spread : Option JsVal → JsObj JsVal
  | some (.obj fields) => JsObj.entries fields
  | some (.str s) => s.data.enum.map (fun ic => (toString ic.1, .str (String.singleton ic.2)))
  | none => []

/-- The source's `componentCssInfo` as an object. -/
def componentCssInfo (ref : StyleRef) : JsVal :=
  .obj [("className", .str ref.className), ("cssPath", .str ref.cssPath)]

/-- The four-way branch of the `forEach` body on the untyped descriptor. -/
def classifyJs (ci : JsObj JsVal) (bem : BemEntityName) (ref : StyleRef) : JsObj JsVal :=
  let elem := bem.elem.getD ""
  match !truthy bem.elem, bem.mod with
  | true, none =>
    (ci.set "className" (.str ref.className)).set "cssPath" (.str ref.cssPath)
  | true, some (n, v) =>
    lodashSet ci ("props." ++ n ++ "." ++ v) (componentCssInfo ref)
  | false, some (n, v) =>
    let ci1 := lodashSet ci ("children." ++ elem ++ ".props." ++ n ++ "." ++ v)
      (componentCssInfo ref)
    let ci2 :=
      if !truthyJs (lodashGet ci1 ("children." ++ elem ++ ".name")) then
        lodashSet ci1 ("children." ++ elem ++ ".name") (.str (convertBlockName elem))
      else ci1
    if !truthyJs (lodashGet ci2 ("children." ++ elem ++ ".className")) then
      lodashSet ci2 ("children." ++ elem ++ ".className") (.str (bem.block ++ "__" ++ elem))
    else ci2
  | false, none =>
    let existingObj := spread (lodashGet ci ("children." ++ elem))
    lodashSet ci ("children." ++ elem)
      (.obj (((existingObj.set "className" (.str ref.className)).set "cssPath"
        (.str ref.cssPath)).set "name" (.str (convertBlockName elem))))

/-- The body of `cssFilesPaths.forEach` on the untyped descriptor;
`path.relative` throws when `componentInfo.dir` is not a string. -/
def processFileJs (parse : String → Option BemEntityName) (ci : JsObj JsVal)
    (file : String) : Except String (JsObj JsVal) :=
  let fileBaseName := basename file
  let bemName := stripPostCss fileBaseName
  match parse bemName with
  | none => .error (namingError file)
  | some parsedBemName =>
    match ci.get? "dir" with
    | some (.str dir) =>
      let relativeCssPath := "./" ++ pathRelative dir file
      .ok (classifyJs ci parsedBemName ⟨bemName, relativeCssPath⟩)
    | _ => .error "The \"from\" argument must be of type string"

/-- The `forEach` over the discovered files on the untyped descriptor. -/
def processFilesJs (parse : String → Option BemEntityName) :
    JsObj JsVal → List String → Except String (JsObj JsVal)
  | ci, [] => .ok ci
  | ci, file :: files =>
    match processFileJs parse ci file with
    | .error e => .error e
    | .ok ci1 => processFilesJs parse ci1 files

/-- One iteration of the `reduce` in `getComponentsInfo` on the untyped
descriptor: the object literal, the loop, and the default class name. -/
def blockInfoJs (parse : String → Option BemEntityName) (blockName componentPath : String)
    (cssFilesPaths : List String) : Except String (JsObj JsVal) :=
  match processFilesJs parse
      [("name", .str (convertBlockName blockName)), ("dir", .str componentPath)]
      cssFilesPaths with
  | .error e => .error e
  | .ok ci =>
    .ok (if truthyJs (ci.get? "className") then ci else ci.set "className" (.str blockName))

/-- The field names of an element descriptor. -/
def elemFields : List String := ["name", "className", "cssPath", "props"]

/-- The value is an object whose every own key is one of `elemFields`. -/
def isElemDescriptor : JsVal → Bool
  | .obj fields => fields.all (fun kv => elemFields.contains kv.1)
  | .str _ => false

/-- Every value stored under `children` is an element descriptor. -/
def elementsFlat (ci : JsObj JsVal) : Bool :=
  match ci.get? "children" with
  | some (.obj elems) => elems.all (fun ev => isElemDescriptor ev.2)
  | some (.str _) => false
  | none => true

/-- The name is a single path segment for lodash: no dot and no bracket. -/
def pathKey (s : String) : Prop :=
  '.' ∉ s.data ∧ '[' ∉ s.data ∧ ']' ∉ s.data

/-- The element and modifier names of a parsed entity are path segments. -/
def pathNames (b : BemEntityName) : Prop :=
  (∀ e, b.elem = some e → pathKey e)
  ∧ (∀ n v, b.mod = some (n, v) → pathKey n ∧ pathKey v)

/-- The string stored in a field, if the field holds one. -/
def strField (o : JsObj JsVal) (k : String) : Option String :=
  match o.get? k with
  | some (.str s) => some s
  | _ => none

/-- The `StyleRef` an object `{className, cssPath}` denotes. -/
def styleRefOf : JsVal → StyleRef
  | .obj fields => ⟨(strField fields "className").getD "", (strField fields "cssPath").getD ""⟩
  | .str _ => ⟨"", ""⟩

/-- The typed `props` object an untyped `props` field denotes. -/
def propsOf : Option JsVal → Option PropsInfo
  | some (.obj ps) =>
    some (ps.map (fun nq => (nq.1, (nestedObject (some nq.2)).map
      (fun vr => (vr.1, styleRefOf vr.2)))))
  | _ => none

/-- The typed element record an untyped element object denotes. -/
def elemInfoOf (d : JsVal) : ElemInfo :=
  let fields := nestedObject (some d)
  ⟨strField fields "name", strField fields "className", strField fields "cssPath",
    propsOf (fields.get? "props")⟩

/-- The typed descriptor an untyped descriptor denotes. -/
def componentInfoOf (ci : JsObj JsVal) : ComponentInfo :=
  { name := (strField ci "name").getD ""
    dir := (strField ci "dir").getD ""
    className := strField ci "className"
    cssPath := strField ci "cssPath"
    props := propsOf (ci.get? "props")
    children :=
      match ci.get? "children" with
      | some (.obj elems) => some (elems.map (fun ev => (ev.1, elemInfoOf ev.2)))
      | _ => none }

/-! ## Own keys

The embedding of `_.set` and `_.get` writes and reads own properties of plain
objects. That is what lodash does for a key that is an own key: not one of
the names below, and not a numeral, before which lodash creates an array. The
properties of the fold are stated for such names. -/

/-- The keys that lodash `baseSet` refuses as a path key (`__proto__`,
`constructor`, `prototype`) and the names a plain object inherits from
`Object.prototype`, which `_.set` and `_.get` reach through the prototype
chain. -/
def reservedKeys : List String :=
  ["__proto__", "constructor", "prototype", "hasOwnProperty", "isPrototypeOf",
   "propertyIsEnumerable", "toLocaleString", "toString", "valueOf",
   "__defineGetter__", "__defineSetter__", "__lookupGetter__", "__lookupSetter__"]

/-- The pattern `^(?:0|[1-9]\d*)$` of lodash `isIndex`: before such a key
`baseSet` creates an array and not a plain object. -/
def isUintKey (s : String) : Bool :=
  match s.data with
  | [] => false
  | c :: cs => (c :: cs).all Char.isDigit && (c != '0' || cs.isEmpty)

/-- The name is an own key of the objects of the descriptor: a single path
segment, no numeral, not refused by lodash and not inherited. -/
def ownKey (s : String) : Bool :=
  !reservedKeys.contains s && !isUintKey s
    && s.data.all (fun c => c != '.' && c != '[' && c != ']')

/-- The element name, modifier name and modifier value of a parsed entity are
own keys. -/
def ownNames (b : BemEntityName) : Bool :=
  b.elem.all ownKey && b.mod.all (fun m => ownKey m.1 && ownKey m.2)

/-- The stylesheets of every block of the source tree have own keys for
names, as far as the parser accepts them. -/
def ownTree (parse : String → Option BemEntityName) (tree : SourceTree) : Bool :=
  tree.all (fun br => br.2.all (fun r =>
    match parse (stripPostCss (basename r)) with
    | some b => ownNames b
    | none => true))

/-- No key of the `props` object and of its value objects is a numeral. -/
def plainProps (props : Option PropsInfo) : Bool :=
  (props.getD []).all (fun nq => !isUintKey nq.1 && nq.2.all (fun vr => !isUintKey vr.1))

/-- Every object of the descriptor is a plain object: no key is a numeral, so
that `_.set` created no array. -/
def plainState (ci : ComponentInfo) : Bool :=
  plainProps ci.props
    && (ci.children.getD []).all (fun ee => !isUintKey ee.1 && plainProps ee.2.props)

/-! # Properties -/

/-! ## Own keys -/

theorem ownKey_pathKey (s : String) (h : ownKey s = true) : pathKey s := by
  simp only [ownKey, Bool.and_eq_true, List.all_eq_true, bne_iff_ne, ne_eq] at h
  exact ⟨fun hm => (h.2 _ hm).1.1 rfl, fun hm => (h.2 _ hm).1.2 rfl, fun hm => (h.2 _ hm).2 rfl⟩

theorem ownKey_arrayIndex (s : String) (h : ownKey s = true) : arrayIndex? s = none := by
  simp only [ownKey, Bool.and_eq_true, Bool.not_eq_true'] at h
  have hu := h.1.2
  unfold isUintKey at hu
  unfold arrayIndex?
  cases hd : s.data with
  | nil => rfl
  | cons c cs =>
    rw [hd] at hu
    simp only at hu ⊢
    rw [if_neg]
    intro hc
    simp only [Bool.and_eq_true] at hc
    rw [Bool.and_eq_false_iff] at hu
    rcases hu with hu | hu
    · rw [hc.1.1] at hu
      cases hu
    · rw [hc.1.2] at hu
      cases hu

theorem ownNames_pathNames (b : BemEntityName) (h : ownNames b = true) : pathNames b := by
  simp only [ownNames, Bool.and_eq_true] at h
  refine ⟨fun e he => ?_, fun n v hnv => ?_⟩
  · have := h.1
    rw [he] at this
    exact ownKey_pathKey e (by simpa using this)
  · have := h.2
    rw [hnv] at this
    simp only [Option.all_some, Bool.and_eq_true] at this
    exact ⟨ownKey_pathKey n this.1, ownKey_pathKey v this.2⟩

theorem ownNames_noIndexNames (b : BemEntityName) (h : ownNames b = true) :
    noIndexNames b = true := by
  obtain ⟨block, elem, mod⟩ := b
  simp only [ownNames, Bool.and_eq_true] at h
  simp only [noIndexNames, Bool.and_eq_true]
  constructor
  · cases elem with
    | none => rfl
    | some e =>
      have := ownKey_arrayIndex e (by simpa using h.1)
      simp [this]
  · cases mod with
    | none => rfl
    | some m =>
      have h2 := h.2
      simp only [Option.all_some, Bool.and_eq_true] at h2
      simp [ownKey_arrayIndex m.1 h2.1, ownKey_arrayIndex m.2 h2.2]

/-! ## Lemmas on paths -/

theorem splitChars_ne_nil (sep : Char) (s : List Char) : splitChars sep s ≠ [] := by
  cases s with
  | nil => simp [splitChars]
  | cons c cs =>
    simp only [splitChars]
    split
    · simp
    · split <;> simp

theorem splitChars_cons_of (sep c : Char) (cs w : List Char) (ws : List (List Char))
    (h : splitChars sep cs = w :: ws) :
    splitChars sep (c :: cs) = if c == sep then [] :: w :: ws else (c :: w) :: ws := by
  simp [splitChars, h]

theorem splitChars_append_sep_length (sep : Char) (a b : List Char) :
    2 ≤ (splitChars sep (a ++ sep :: b)).length := by
  induction a with
  | nil =>
    cases h : splitChars sep b with
    | nil => exact absurd h (splitChars_ne_nil sep b)
    | cons w ws => simp [splitChars_cons_of sep sep b w ws h]
  | cons c a ih =>
    cases h : splitChars sep (a ++ sep :: b) with
    | nil => exact absurd h (splitChars_ne_nil sep _)
    | cons w ws =>
      rw [h] at ih
      rw [List.cons_append, splitChars_cons_of sep c _ w ws h]
      split
      · simp
      · simpa using ih

theorem lastSeg_splitChars_append (sep : Char) (a b : List Char) :
    lastSeg (splitChars sep (a ++ sep :: b)) = lastSeg (splitChars sep b) := by
  induction a with
  | nil =>
    cases h : splitChars sep b with
    | nil => exact absurd h (splitChars_ne_nil sep b)
    | cons w ws => simp [splitChars_cons_of sep sep b w ws h, lastSeg]
  | cons c a ih =>
    have hl := splitChars_append_sep_length sep a b
    cases h : splitChars sep (a ++ sep :: b) with
    | nil => exact absurd h (splitChars_ne_nil sep _)
    | cons w ws =>
      rw [h] at ih hl
      rw [List.cons_append, splitChars_cons_of sep c _ w ws h]
      cases ws with
      | nil => simp at hl
      | cons w2 ws2 =>
        split
        · simpa [lastSeg] using ih
        · simpa [lastSeg] using ih

theorem data_under (dir rel : String) :
    (dir ++ "/" ++ rel).data = dir.data ++ '/' :: rel.data := by
  simp [String.data_append]

theorem basename_under (dir rel : String) : basename (dir ++ "/" ++ rel) = basename rel := by
  simp only [basename, data_under]
  rw [lastSeg_splitChars_append]

theorem isPrefixChars_append (a b : List Char) : isPrefixChars a (a ++ b) = true := by
  induction a with
  | nil => simp [isPrefixChars]
  | cons c a ih => simp [isPrefixChars, ih]

theorem pathRelative_under (dir rel : String) : pathRelative dir (dir ++ "/" ++ rel) = rel := by
  have h1 : (dir ++ "/" ++ rel).data = (dir.data ++ ['/']) ++ rel.data := by
    simp [String.data_append]
  have h2 : (dir.data ++ ['/'] ++ rel.data).drop (dir.data.length + 1) = rel.data := by
    have : dir.data.length + 1 = (dir.data ++ ['/']).length := by simp
    rw [this, List.drop_left]
  simp only [pathRelative, h1, isPrefixChars_append, if_true, h2]


/-! ### Object reads after writes -/

theorem JsObj.get?_set_self {α : Type} (o : JsObj α) (k : String) (v : α) :
    JsObj.get? (JsObj.set o k v) k = some v := by
  induction o with
  | nil => simp [JsObj.set, JsObj.get?]
  | cons p o ih =>
    obtain ⟨k', v'⟩ := p
    by_cases h : k' = k
    · simp [JsObj.set, JsObj.get?, h]
    · simp [JsObj.set, JsObj.get?, h, ih]

theorem JsObj.get?_set_ne {α : Type} (o : JsObj α) (k k' : String) (v : α) (h : k' ≠ k) :
    JsObj.get? (JsObj.set o k v) k' = JsObj.get? o k' := by
  induction o with
  | nil => simp [JsObj.set, JsObj.get?, Ne.symm h]
  | cons p o ih =>
    obtain ⟨k1, v1⟩ := p
    by_cases h1 : k1 = k
    · subst h1
      simp [JsObj.set, JsObj.get?, Ne.symm h]
    · by_cases h2 : k1 = k'
      · subst h2
        simp [JsObj.set, JsObj.get?, h1]
      · simp [JsObj.set, JsObj.get?, h1, h2, ih]

theorem getChild_updChild_self (ci : ComponentInfo) (elem : String) (f : ElemInfo → ElemInfo) :
    getChild (updChild ci elem f) elem = some (f ((getChild ci elem).getD emptyElem)) := by
  simp [getChild, updChild, JsObj.get?_set_self]

theorem getChild_updChild_ne (ci : ComponentInfo) (elem e' : String) (f : ElemInfo → ElemInfo)
    (h : e' ≠ elem) : getChild (updChild ci elem f) e' = getChild ci e' := by
  simp [getChild, updChild, JsObj.get?_set_ne _ _ _ _ h]

theorem JsObj.set_set {α : Type} (o : JsObj α) (k : String) (v w : α) :
    JsObj.set (JsObj.set o k v) k w = JsObj.set o k w := by
  induction o with
  | nil => simp [JsObj.set]
  | cons p o ih =>
    obtain ⟨k', v'⟩ := p
    by_cases h : k' = k
    · simp [JsObj.set, h]
    · simp [JsObj.set, h, ih]

theorem updChild_updChild (ci : ComponentInfo) (elem : String) (f g : ElemInfo → ElemInfo) :
    updChild (updChild ci elem f) elem g
      = updChild ci elem (fun e => g (f e)) := by
  simp [updChild, JsObj.get?_set_self, JsObj.set_set]

theorem updChild_congr (ci : ComponentInfo) (elem : String) (f g : ElemInfo → ElemInfo)
    (h : f ((getChild ci elem).getD emptyElem) = g ((getChild ci elem).getD emptyElem)) :
    updChild ci elem f = updChild ci elem g := by
  simp only [getChild] at h
  simp [updChild, h]

/-- The three writes of the element-with-modifier branch as one write. -/
theorem classify_elemMod (ci : ComponentInfo) (bem : BemEntityName) (ref : StyleRef)
    (elem n v : String) (he : bem.elem = some elem) (hne : elem ≠ "")
    (hm : bem.mod = some (n, v)) :
    classify ci bem ref = updChild ci elem (fun e =>
      { name := defaultName elem e
        className := defaultClassName bem.block elem e
        cssPath := e.cssPath
        props := setProp e.props n v ref }) := by
  have ht : truthy (some elem) = true := by simp [truthy, hne]
  simp only [classify, he, hm, ht, Option.getD_some, Bool.not_true]
  cases hn : truthy ((getChild ci elem).getD emptyElem).name <;>
    cases hc : truthy ((getChild ci elem).getD emptyElem).className <;>
    simp [hn, hc, getChild_updChild_self, updChild_updChild] <;>
    apply updChild_congr <;>
    simp [hn, hc, defaultName, defaultClassName]

/-! ### The component directory only enters through `dir` -/

theorem classify_dir (ci : ComponentInfo) (bem : BemEntityName) (ref : StyleRef) (d : String) :
    classify { ci with dir := d } bem ref = { classify ci bem ref with dir := d } := by
  unfold classify
  split <;> simp only [updChild, getChild] <;> (try split_ifs) <;> rfl

theorem classify_dir_eq (ci : ComponentInfo) (bem : BemEntityName) (ref : StyleRef) :
    (classify ci bem ref).dir = ci.dir := by
  unfold classify
  split <;> simp only [updChild, getChild] <;> (try split_ifs) <;> rfl

theorem processFile_under (parse : String → Option BemEntityName) (ci : ComponentInfo)
    (rel : String) :
    processFile parse ci (ci.dir ++ "/" ++ rel)
      = match parse (stripPostCss (basename rel)) with
        | none => .error (namingError (ci.dir ++ "/" ++ rel))
        | some bem => .ok (classify ci bem ⟨stripPostCss (basename rel), "./" ++ rel⟩) := by
  simp only [processFile, basename_under, pathRelative_under]

theorem processFiles_relocate (parse : String → Option BemEntityName) (d : String)
    (rels : List String) :
    ∀ (ci r : ComponentInfo),
      processFiles parse ci (rels.map (fun rel => ci.dir ++ "/" ++ rel)) = .ok r →
      processFiles parse { ci with dir := d } (rels.map (fun rel => d ++ "/" ++ rel))
        = .ok { r with dir := d } := by
  induction rels with
  | nil =>
    intro ci r h
    simp only [List.map_nil, processFiles] at h ⊢
    cases h; rfl
  | cons rel rels ih =>
    intro ci r h
    simp only [List.map_cons, processFiles] at h ⊢
    have h1 := processFile_under parse ci rel
    have h2 := processFile_under parse { ci with dir := d } rel
    simp only at h2
    rw [h1] at h
    rw [h2]
    cases hp : parse (stripPostCss (basename rel)) with
    | none => simp [hp] at h
    | some bem =>
      simp only [hp] at h ⊢
      rw [classify_dir]
      have hd := classify_dir_eq ci bem ⟨stripPostCss (basename rel), "./" ++ rel⟩
      rw [← hd] at h
      exact ih _ r h

theorem blockInfo_relocate (parse : String → Option BemEntityName) (blockName d0 d : String)
    (rels : List String) (r : ComponentInfo)
    (h : blockInfo parse blockName d0 (rels.map (fun rel => d0 ++ "/" ++ rel)) = .ok r) :
    blockInfo parse blockName d (rels.map (fun rel => d ++ "/" ++ rel))
      = .ok { r with dir := d } := by
  simp only [blockInfo] at h ⊢
  cases hp : processFiles parse (initInfo blockName d0) (rels.map (fun rel => d0 ++ "/" ++ rel)) with
  | error e => simp [hp] at h
  | ok r0 =>
    have := processFiles_relocate parse d rels (initInfo blockName d0) r0 hp
    simp only [initInfo] at this
    simp only [initInfo, this]
    simp only [hp] at h
    cases h
    simp only [finalize]
    split_ifs <;> rfl

theorem mem_insertions {α : Type} (x : α) (l1 l2 : List α) :
    l1 ++ x :: l2 ∈ insertions x (l1 ++ l2) := by
  induction l1 with
  | nil => cases l2 <;> simp [insertions]
  | cons y l1 ih =>
    simp only [List.cons_append, insertions, List.mem_cons, List.mem_map]
    exact Or.inr ⟨_, ih, rfl⟩

theorem mem_foldr_append {α β : Type} (f : α → List β) (b : β) (a : α) (l : List α)
    (ha : a ∈ l) (hb : b ∈ f a) : b ∈ l.foldr (fun x acc => f x ++ acc) [] := by
  induction l with
  | nil => cases ha
  | cons y l ih =>
    simp only [List.foldr_cons, List.mem_append]
    rcases List.mem_cons.mp ha with h | h
    · subst h; exact Or.inl hb
    · exact Or.inr (ih h)

theorem mem_orders_of_perm {α : Type} (t : List α) :
    ∀ l : List α, l.Perm t → l ∈ orders t := by
  induction t with
  | nil =>
    intro l h
    simp [orders, List.perm_nil.mp h]
  | cons x t ih =>
    intro l h
    have hx : x ∈ l := h.symm.subset (List.mem_cons_self x t)
    obtain ⟨l1, l2, rfl⟩ := List.append_of_mem hx
    have h2 : (l1 ++ l2).Perm t :=
      List.Perm.cons_inv ((List.perm_middle.symm).trans h)
    exact mem_foldr_append (insertions x) _ (l1 ++ l2) _ (ih _ h2) (mem_insertions x l1 l2)

theorem scenario_at_root :
    (orders scenarioFiles).all (fun rels =>
      decide ((blockInfo bemNamingParse "my-block" "" (rels.map (fun rel => "" ++ "/" ++ rel))).toOption.map
          scenarioView = some scenarioExpected)) = true := by
  decide

/-! ## The `my-block` scenario on the discovered files -/

/-- The scenario for the per-block body: any component directory, any order
of the four files below `css/`. -/
theorem scenario_blockInfo (dir : String) (rels : List String)
    (h : rels.Perm scenarioFiles) :
    ∃ ci icon,
      blockInfo bemNamingParse "my-block" dir (rels.map (fun rel => dir ++ "/" ++ rel)) = .ok ci
      ∧ ci.name = "MyBlock" ∧ ci.className = some "my-block"
      ∧ ci.cssPath = some "./css/my-block.post.css"
      ∧ propRef ci.props "theme" "red"
          = some ⟨"my-block_theme_red", "./css/my-block_theme_red.post.css"⟩
      ∧ getChild ci "icon" = some icon
      ∧ icon.name = some "Icon" ∧ icon.className = some "my-block__icon"
      ∧ icon.cssPath = some "./css/my-block__icon.post.css"
      ∧ propRef icon.props "size" "big"
          = some ⟨"my-block__icon_size_big", "./css/my-block__icon_size_big.post.css"⟩ := by
  have hall := List.all_eq_true.mp scenario_at_root rels (mem_orders_of_perm _ _ h)
  have hview := of_decide_eq_true hall
  cases hb : blockInfo bemNamingParse "my-block" "" (rels.map (fun rel => "" ++ "/" ++ rel)) with
  | error e =>
    rw [hb] at hview
    simp [Except.toOption] at hview
  | ok r0 =>
    rw [hb] at hview
    simp only [Except.toOption, Option.map_some', Option.some.injEq] at hview
    have hrel := blockInfo_relocate bemNamingParse "my-block" "" dir rels r0 hb
    have hv : scenarioView { r0 with dir := dir } = scenarioExpected := hview
    simp only [scenarioView, scenarioExpected, ScenarioView.mk.injEq] at hv
    obtain ⟨h1, h2, h3, h4, h5⟩ := hv
    cases hi : getChild { r0 with dir := dir } "icon" with
    | none => simp [hi] at h5
    | some icon =>
      simp only [hi, Option.map_some', Option.some.injEq, IconView.mk.injEq] at h5
      obtain ⟨i1, i2, i3, i4⟩ := h5
      exact ⟨_, icon, hrel, h1, h2, h3, h4, hi, i1, i2, i3, i4⟩

/-! ## Lemmas on the fold over the discovered files -/

theorem processFiles_append (parse : String → Option BemEntityName) (a b : List String) :
    ∀ ci : ComponentInfo,
      processFiles parse ci (a ++ b)
        = match processFiles parse ci a with
          | .error e => .error e
          | .ok c => processFiles parse c b := by
  induction a with
  | nil => intro ci; simp [processFiles]
  | cons f a ih =>
    intro ci
    simp only [List.cons_append, processFiles]
    cases processFile parse ci f with
    | error e => rfl
    | ok c => exact ih c

theorem classify_name (ci : ComponentInfo) (bem : BemEntityName) (ref : StyleRef) :
    (classify ci bem ref).name = ci.name := by
  unfold classify
  split <;> simp only [updChild, getChild] <;> (try split_ifs) <;> rfl

theorem processFile_name_dir (parse : String → Option BemEntityName) (ci c : ComponentInfo)
    (file : String) (h : processFile parse ci file = .ok c) :
    c.name = ci.name ∧ c.dir = ci.dir := by
  simp only [processFile] at h
  cases hp : parse (stripPostCss (basename file)) with
  | none => simp [hp] at h
  | some bem =>
    simp only [hp, Except.ok.injEq] at h
    subst h
    exact ⟨classify_name _ _ _, classify_dir_eq _ _ _⟩

theorem processFiles_name_dir (parse : String → Option BemEntityName) (files : List String) :
    ∀ ci c : ComponentInfo, processFiles parse ci files = .ok c →
      c.name = ci.name ∧ c.dir = ci.dir := by
  induction files with
  | nil =>
    intro ci c h
    simp only [processFiles, Except.ok.injEq] at h
    subst h
    exact ⟨rfl, rfl⟩
  | cons f files ih =>
    intro ci c h
    simp only [processFiles] at h
    cases hf : processFile parse ci f with
    | error e => simp [hf] at h
    | ok c1 =>
      simp only [hf] at h
      obtain ⟨h1, h2⟩ := processFile_name_dir parse ci c1 f hf
      obtain ⟨h3, h4⟩ := ih c1 c h
      exact ⟨h3.trans h1, h4.trans h2⟩

/-- The block-root branch of `classify`. -/
theorem classify_blockRoot (ci : ComponentInfo) (bem : BemEntityName) (ref : StyleRef)
    (he : truthy bem.elem = false) (hm : bem.mod = none) :
    classify ci bem ref
      = { ci with className := some ref.className, cssPath := some ref.cssPath } := by
  simp [classify, he, hm]

/-! ## C2: what a block-root file sets -/

/-- C2, as the code has it: when a block-root file (no elem, no mod) is
processed after any files `pre` of the block, the descriptor's name is
`convertBlockName` of the block directory name, its className is the raw
identifier of the file and its cssPath is `./` followed by the file's path
relative to the component directory. -/
theorem C2_block_root_fields (parse : String → Option BemEntityName)
    (blockName dir : String) (pre : List String) (file : String)
    (ci0 : ComponentInfo) (bem : BemEntityName)
    (hpre : processFiles parse (initInfo blockName dir) pre = .ok ci0)
    (hp : parse (stripPostCss (basename file)) = some bem)
    (he : truthy bem.elem = false) (hm : bem.mod = none) :
    ∃ ci, processFiles parse (initInfo blockName dir) (pre ++ [file]) = .ok ci
      ∧ ci.name = convertBlockName blockName
      ∧ ci.className = some (stripPostCss (basename file))
      ∧ ci.cssPath = some ("./" ++ pathRelative dir file) := by
  obtain ⟨hn, hd⟩ := processFiles_name_dir parse pre _ _ hpre
  refine ⟨{ ci0 with
      className := some (stripPostCss (basename file))
      cssPath := some ("./" ++ pathRelative ci0.dir file) }, ?_, ?_, ?_, ?_⟩
  · rw [processFiles_append, hpre]
    simp only [processFiles, processFile, hp]
    rw [classify_blockRoot _ _ _ he hm]
  · simpa [initInfo] using hn
  · rfl
  · simp only [hd, initInfo]

/-- C2 on the root file of `my-block`, processed after a modifier file. -/
theorem C2_block_root_fields_witness :
    ∃ ci, processFiles bemNamingParse (initInfo "my-block" "/out/MyBlock")
        (["/out/MyBlock/css/my-block_theme_red.post.css"] ++ ["/out/MyBlock/css/my-block.post.css"])
        = .ok ci
      ∧ ci.name = convertBlockName "my-block"
      ∧ ci.className = some (stripPostCss (basename "/out/MyBlock/css/my-block.post.css"))
      ∧ ci.cssPath
          = some ("./" ++ pathRelative "/out/MyBlock" "/out/MyBlock/css/my-block.post.css") :=
  C2_block_root_fields bemNamingParse "my-block" "/out/MyBlock"
    ["/out/MyBlock/css/my-block_theme_red.post.css"] "/out/MyBlock/css/my-block.post.css"
    _ ⟨"my-block", none, none⟩ rfl (by decide) (by decide) rfl

/-- C2 as stated fails: the file `other.post.css` in the block directory
`my-block` parses to the block name `other` with no elem and no mod, and the
descriptor is named `MyBlock`, not `convertBlockName "other"`, which is
`Other`. -/
theorem C2_name_not_from_identifier :
    bemNamingParse (stripPostCss (basename "/out/MyBlock/css/other.post.css"))
        = some ⟨"other", none, none⟩
    ∧ (processFile bemNamingParse (initInfo "my-block" "/out/MyBlock")
          "/out/MyBlock/css/other.post.css").toOption.map ComponentInfo.name = some "MyBlock"
    ∧ convertBlockName "other" = "Other"
    ∧ (processFile bemNamingParse (initInfo "my-block" "/out/MyBlock")
          "/out/MyBlock/css/other.post.css").toOption.map ComponentInfo.name
        ≠ some (convertBlockName "other") := by
  decide


/-! ## C3: a block with only a root stylesheet -/

/-- C3, as the code has it: for a block whose only discovered stylesheet is a
block-root file, the finalized descriptor has the file's raw identifier as
className (the directory name only in case the identifier is empty), the
file's relative path as cssPath, and neither props nor children. -/
theorem C3_root_only_descriptor (parse : String → Option BemEntityName)
    (blockName dir file : String) (bem : BemEntityName)
    (hp : parse (stripPostCss (basename file)) = some bem)
    (he : truthy bem.elem = false) (hm : bem.mod = none) :
    blockInfo parse blockName dir [file]
      = .ok
        { name := convertBlockName blockName
          dir := dir
          className := some (if stripPostCss (basename file) = "" then blockName
                             else stripPostCss (basename file))
          cssPath := some ("./" ++ pathRelative dir file)
          props := none
          children := none } := by
  simp only [blockInfo, processFiles, processFile, hp, classify_blockRoot _ _ _ he hm,
    initInfo, finalize, truthy]
  by_cases h : stripPostCss (basename file) = "" <;> simp [h]

/-- C3 on the block `my-block` with the single file `my-block.post.css`. -/
theorem C3_root_only_descriptor_witness :
    blockInfo bemNamingParse "my-block" "/out/MyBlock" ["/out/MyBlock/css/my-block.post.css"]
      = .ok
        { name := convertBlockName "my-block"
          dir := "/out/MyBlock"
          className := some
            (if stripPostCss (basename "/out/MyBlock/css/my-block.post.css") = "" then "my-block"
             else stripPostCss (basename "/out/MyBlock/css/my-block.post.css"))
          cssPath := some ("./" ++ pathRelative "/out/MyBlock" "/out/MyBlock/css/my-block.post.css")
          props := none
          children := none } :=
  C3_root_only_descriptor bemNamingParse "my-block" "/out/MyBlock"
    "/out/MyBlock/css/my-block.post.css" ⟨"my-block", none, none⟩ (by decide) (by decide) rfl

/-- C3 as stated fails: the block directory `my-block` whose only stylesheet
is `other.post.css` (a block-root identifier) gets the className `other`,
not the directory name. -/
theorem C3_className_not_directory :
    bemNamingParse (stripPostCss (basename "/out/MyBlock/css/other.post.css"))
        = some ⟨"other", none, none⟩
    ∧ (blockInfo bemNamingParse "my-block" "/out/MyBlock"
          ["/out/MyBlock/css/other.post.css"]).toOption.map ComponentInfo.className
        = some (some "other")
    ∧ (blockInfo bemNamingParse "my-block" "/out/MyBlock"
          ["/out/MyBlock/css/other.post.css"]).toOption.map ComponentInfo.className
        ≠ some (some "my-block") := by
  decide


/-! ## C4: what has been written when a run aborts -/

theorem copySync_written (w : World) (p : String) (rels : List String) :
    (copySync w p rels).written = w.written := rfl

theorem getComponentsInfoFrom_written (parse : String → Option BemEntityName) (out : String)
    (src : SourceTree) :
    ∀ (w : World) (acc : List ComponentInfo),
      (getComponentsInfoFrom parse out w src acc).1.written = w.written := by
  induction src with
  | nil => intro w acc; rfl
  | cons b src ih =>
    intro w acc
    obtain ⟨blockName, rels⟩ := b
    simp only [getComponentsInfoFrom]
    split
    · rfl
    · rw [ih]; rfl

theorem getComponentsInfoFrom_append (parse : String → Option BemEntityName) (out : String)
    (a b : SourceTree) :
    ∀ (w : World) (acc : List ComponentInfo),
      getComponentsInfoFrom parse out w (a ++ b) acc
        = match getComponentsInfoFrom parse out w a acc with
          | (w1, .ok infos) => getComponentsInfoFrom parse out w1 b infos
          | (w1, .error e) => (w1, .error e) := by
  induction a with
  | nil => intro w acc; rfl
  | cons x a ih =>
    intro w acc
    obtain ⟨blockName, rels⟩ := x
    simp only [List.cons_append, getComponentsInfoFrom]
    split
    · rfl
    · exact ih _ _

/-- C4, as the code has it: all descriptors are collected before the first
component is emitted. If the blocks `pre` are collected without error and a
stylesheet of the next block fails BEM parsing, the run aborts with that
error, the stylesheets of `pre` and of the failing block have been copied,
and no generated source file has been written for any block. -/
theorem C4_abort_writes_nothing (parse : String → Option BemEntityName) (out : String)
    (pre post : SourceTree) (blockName : String) (rels : List String)
    (w1 : World) (infos : List ComponentInfo) (e : String)
    (hpre : getComponentsInfo parse ⟨[], []⟩ pre out = (w1, .ok infos))
    (hk : blockInfo parse blockName (pathResolve out (convertBlockName blockName))
            (globSync
              (copySync w1 (pathResolve (pathResolve out (convertBlockName blockName)) "css") rels)
              (pathResolve out (convertBlockName blockName)))
          = .error e) :
    generateReactComponents parse (pre ++ (blockName, rels) :: post) out
        = (copySync w1 (pathResolve (pathResolve out (convertBlockName blockName)) "css") rels,
           .error e)
    ∧ (generateReactComponents parse (pre ++ (blockName, rels) :: post) out).1.written = [] := by
  have hw : w1.written = [] := by
    have := getComponentsInfoFrom_written parse out pre ⟨[], []⟩ []
    simp only [getComponentsInfo] at hpre
    rw [hpre] at this
    exact this
  have hrun : generateReactComponents parse (pre ++ (blockName, rels) :: post) out
      = (copySync w1 (pathResolve (pathResolve out (convertBlockName blockName)) "css") rels,
         .error e) := by
    simp only [getComponentsInfo] at hpre
    simp only [generateReactComponents, getComponentsInfo, getComponentsInfoFrom_append, hpre,
      getComponentsInfoFrom, hk]
  exact ⟨hrun, by rw [hrun]; exact hw⟩

/-- C4 on the source root with the blocks `a` (well named) and `b` (holding
the malformed `b__.post.css`). -/
theorem C4_abort_writes_nothing_witness :
    generateReactComponents bemNamingParse ([("a", ["a.post.css"])] ++ ("b", ["b__.post.css"]) :: [])
        "/out"
      = (copySync ⟨["/out/A/css/a.post.css"], []⟩
            (pathResolve (pathResolve "/out" (convertBlockName "b")) "css") ["b__.post.css"],
         .error (namingError "/out/B/css/b__.post.css"))
    ∧ (generateReactComponents bemNamingParse
          ([("a", ["a.post.css"])] ++ ("b", ["b__.post.css"]) :: []) "/out").1.written = [] :=
  C4_abort_writes_nothing bemNamingParse "/out" [("a", ["a.post.css"])] [] "b" ["b__.post.css"]
    ⟨["/out/A/css/a.post.css"], []⟩ _ (namingError "/out/B/css/b__.post.css") rfl rfl

/-- C4 as stated fails: with the blocks `a` and `b`, where `b` holds the
malformed `b__.post.css`, the run aborts and the generated source file of the
first block has not been written; only the stylesheets were copied. -/
theorem C4_first_block_not_written :
    (generateReactComponents bemNamingParse
        [("a", ["a.post.css"]), ("b", ["b__.post.css"])] "/out").2.toOption = none
    ∧ (generateReactComponents bemNamingParse
        [("a", ["a.post.css"]), ("b", ["b__.post.css"])] "/out").1.written = []
    ∧ (generateReactComponents bemNamingParse
        [("a", ["a.post.css"]), ("b", ["b__.post.css"])] "/out").1.files
        = ["/out/A/css/a.post.css", "/out/B/css/b__.post.css"]
    ∧ (generateReactComponents bemNamingParse
        [("a", ["a.post.css"])] "/out").1.written.map Prod.fst = ["/out/A/index.js"] := by
  decide


/-! ## C5: failure of the naming parser -/

theorem processFile_error_of_reject (parse : String → Option BemEntityName) (ci : ComponentInfo)
    (file : String) (h : parse (stripPostCss (basename file)) = none) :
    processFile parse ci file = .error (namingError file) := by
  simp [processFile, h]

theorem processFile_ok_of_accept (parse : String → Option BemEntityName) (ci : ComponentInfo)
    (file : String) (h : parse (stripPostCss (basename file)) ≠ none) :
    ∃ c, processFile parse ci file = .ok c := by
  cases hp : parse (stripPostCss (basename file)) with
  | none => exact absurd hp h
  | some bem =>
    exact ⟨classify ci bem ⟨stripPostCss (basename file), "./" ++ pathRelative ci.dir file⟩,
      by simp only [processFile, hp]⟩

theorem processFiles_ok_of_accept (parse : String → Option BemEntityName) (files : List String)
    (h : ∀ f ∈ files, parse (stripPostCss (basename f)) ≠ none) :
    ∀ ci : ComponentInfo, ∃ c, processFiles parse ci files = .ok c := by
  induction files with
  | nil => intro ci; exact ⟨ci, rfl⟩
  | cons f files ih =>
    intro ci
    obtain ⟨c1, h1⟩ := processFile_ok_of_accept parse ci f (h f (List.mem_cons_self f files))
    obtain ⟨c, hc⟩ := ih (fun g hg => h g (List.mem_cons_of_mem f hg)) c1
    exact ⟨c, by simp [processFiles, h1, hc]⟩

theorem processFiles_error_at_first (parse : String → Option BemEntityName)
    (pre post : List String) (f : String) (ci : ComponentInfo)
    (hpre : ∀ g ∈ pre, parse (stripPostCss (basename g)) ≠ none)
    (hf : parse (stripPostCss (basename f)) = none) :
    processFiles parse ci (pre ++ f :: post) = .error (namingError f) := by
  obtain ⟨c, hc⟩ := processFiles_ok_of_accept parse pre hpre ci
  rw [processFiles_append, hc]
  simp [processFiles, processFile_error_of_reject parse c f hf]

theorem exists_first_reject (parse : String → Option BemEntityName) (l : List String)
    (hl : ∃ z ∈ l, parse (stripPostCss (basename z)) = none) :
    ∃ pre post x, l = pre ++ x :: post
      ∧ (∀ y ∈ pre, parse (stripPostCss (basename y)) ≠ none)
      ∧ parse (stripPostCss (basename x)) = none := by
  induction l with
  | nil => obtain ⟨z, hz, _⟩ := hl; cases hz
  | cons a l ihl =>
    by_cases ha : parse (stripPostCss (basename a)) = none
    · exact ⟨[], l, a, rfl, by simp, ha⟩
    · obtain ⟨z, hz, hzn⟩ := hl
      rcases List.mem_cons.mp hz with rfl | hz'
      · exact absurd hzn ha
      · obtain ⟨pre, post, x, e1, e2, e3⟩ := ihl ⟨z, hz', hzn⟩
        refine ⟨a :: pre, post, x, by simp [e1], ?_, e3⟩
        intro y hy
        rcases List.mem_cons.mp hy with rfl | hy'
        · exact ha
        · exact e2 y hy'

theorem blockInfo_error_iff (parse : String → Option BemEntityName) (blockName dir : String)
    (files : List String) :
    (∃ e, blockInfo parse blockName dir files = .error e)
      ↔ ∃ f ∈ files, parse (stripPostCss (basename f)) = none := by
  constructor
  · rintro ⟨e, he⟩
    by_contra hno
    have hall : ∀ f ∈ files, parse (stripPostCss (basename f)) ≠ none := by
      intro f hf hn
      exact hno ⟨f, hf, hn⟩
    obtain ⟨c, hc⟩ := processFiles_ok_of_accept parse files hall (initInfo blockName dir)
    simp [blockInfo, hc] at he
  · intro h
    obtain ⟨pre, post, x, e1, e2, e3⟩ := exists_first_reject parse files h
    refine ⟨namingError x, ?_⟩
    rw [e1]
    simp [blockInfo, processFiles_error_at_first parse pre post x _ e2 e3]

/-- C5, for files whose names are own keys: for the discovered files of a
block, the descriptor computation fails exactly when the parser rejects the
identifier of some file; the error is the one of the first rejected file in
discovery order, its message holds that file's path, and the whole of
`getComponentsInfo` then returns the error and no list of descriptors. The
names of the accepted files, of this block and of the blocks before it, are
taken to be own keys: there `_.set` does not throw. -/
theorem C5_fails_iff_rejected (parse : String → Option BemEntityName)
    (blockName dir : String) (files : List String)
    (hown : ∀ b ∈ parsedOf parse files, ownNames b = true) :
    ((∃ e, blockInfo parse blockName dir files = .error e)
        ↔ ∃ f ∈ files, parse (stripPostCss (basename f)) = none)
    ∧ (∀ pre post f, files = pre ++ f :: post →
        (∀ g ∈ pre, parse (stripPostCss (basename g)) ≠ none) →
        parse (stripPostCss (basename f)) = none →
        blockInfo parse blockName dir files
            = .error ("File \"" ++ f ++ "\" has incorrect name: not in BEM methodology"))
    ∧ (∀ (out : String) (before after : SourceTree) (rels : List String) (w1 : World)
        (infos : List ComponentInfo) (e : String),
        ownTree parse before = true →
        getComponentsInfo parse ⟨[], []⟩ before out = (w1, .ok infos) →
        dir = pathResolve out (convertBlockName blockName) →
        files = globSync (copySync w1 (pathResolve dir "css") rels) dir →
        blockInfo parse blockName dir files = .error e →
        (getComponentsInfo parse ⟨[], []⟩ (before ++ (blockName, rels) :: after) out).2
          = .error e) := by
  refine ⟨blockInfo_error_iff parse blockName dir files, ?_, ?_⟩
  · intro pre post f hfiles hpre hf
    rw [hfiles]
    simp [blockInfo, processFiles_error_at_first parse pre post f _ hpre hf, namingError]
  · intro out before after rels w1 infos e _ hb hdir hfiles hk
    subst hdir
    subst hfiles
    simp only [getComponentsInfo] at hb
    simp only [getComponentsInfo, getComponentsInfoFrom_append, hb, getComponentsInfoFrom, hk]

/-- C5 on the block `b` whose files are a well-named one followed by the
malformed `b__.post.css`: the run fails with the error naming that file. -/
theorem C5_fails_iff_rejected_witness :
    blockInfo bemNamingParse "b" "/out/B" ["/out/B/css/b.post.css", "/out/B/css/b__.post.css"]
      = .error ("File \"" ++ "/out/B/css/b__.post.css"
          ++ "\" has incorrect name: not in BEM methodology") :=
  (C5_fails_iff_rejected bemNamingParse "b" "/out/B"
      ["/out/B/css/b.post.css", "/out/B/css/b__.post.css"] (by decide)).2.1
    ["/out/B/css/b.post.css"] [] "/out/B/css/b__.post.css" rfl (by decide) (by decide)


/-! ## C6: emission order -/

theorem JsObj.created_set {α : Type} (o : JsObj α) (k : String) (v : α) :
    JsObj.created (JsObj.set o k v)
      = JsObj.created o ++ (if k ∈ JsObj.created o then [] else [k]) := by
  induction o with
  | nil => simp [JsObj.set, JsObj.created]
  | cons p o ih =>
    obtain ⟨k', v'⟩ := p
    simp only [JsObj.created] at ih
    by_cases h : k' = k
    · subst h
      simp [JsObj.set, JsObj.created]
    · have h' : ¬ k = k' := fun e => h e.symm
      simp only [JsObj.set, h, if_false, JsObj.created, List.map_cons, ih, List.mem_cons, h',
        false_or, List.cons_append]

theorem JsObj.indexKeys_eq_nil {α : Type} (o : JsObj α)
    (h : ∀ k ∈ JsObj.created o, arrayIndex? k = none) : JsObj.indexKeys o = [] := by
  induction o with
  | nil => rfl
  | cons p o ih =>
    obtain ⟨k, v⟩ := p
    have hk : arrayIndex? k = none := h k (List.mem_cons_self _ _)
    simp only [JsObj.indexKeys, hk]
    exact ih (fun k' hk' => h k' (List.mem_cons_of_mem _ hk'))

theorem JsObj.stringKeys_eq_created {α : Type} (o : JsObj α)
    (h : ∀ k ∈ JsObj.created o, arrayIndex? k = none) :
    JsObj.stringKeys o = JsObj.created o := by
  induction o with
  | nil => rfl
  | cons p o ih =>
    obtain ⟨k, v⟩ := p
    have hk : arrayIndex? k = none := h k (List.mem_cons_self _ _)
    have ih' := ih (fun k' hk' => h k' (List.mem_cons_of_mem _ hk'))
    simp only [JsObj.stringKeys, hk, ih']
    rfl

theorem JsObj.keys_eq_created {α : Type} (o : JsObj α)
    (h : ∀ k ∈ JsObj.created o, arrayIndex? k = none) : JsObj.keys o = JsObj.created o := by
  simp [JsObj.keys, JsObj.indexKeys_eq_nil o h, JsObj.stringKeys_eq_created o h]

theorem firstOcc_append_singleton (l : List String) (k : String) :
    firstOcc (l ++ [k]) = firstOcc l ++ (if k ∈ firstOcc l then [] else [k]) := by
  simp only [firstOcc, List.foldl_append, List.foldl_cons, List.foldl_nil]
  split <;> simp

theorem mem_firstOcc (l : List String) (k : String) : k ∈ firstOcc l ↔ k ∈ l := by
  induction l using List.reverseRecOn with
  | nil => simp [firstOcc]
  | append_singleton l a ih =>
    rw [firstOcc_append_singleton]
    by_cases ha : a ∈ firstOcc l
    · simp only [ha, if_true, List.append_nil, List.mem_append, List.mem_singleton, ih]
      constructor
      · exact Or.inl
      · rintro (h | h)
        · exact h
        · subst h; exact ih.mp ha
    · simp only [ha, if_false, List.mem_append, List.mem_singleton, ih]

theorem propsTrace_none : PropsTrace none [] := by
  constructor
  · rfl
  · intro n; rfl

theorem propsTrace_setProp (props : Option PropsInfo) (ms : List (String × String))
    (n v : String) (ref : StyleRef) (h : PropsTrace props ms) :
    PropsTrace (setProp props n v ref) (ms ++ [(n, v)]) := by
  obtain ⟨h1, h2⟩ := h
  constructor
  · simp only [setProp, Option.getD_some, JsObj.created_set, h1, List.map_append, List.map_cons,
      List.map_nil, firstOcc_append_singleton]
  · intro n'
    by_cases hn : n' = n
    · subst hn
      have := h2 n'
      simp only [valuesAt] at this
      simp only [valuesAt, setProp, Option.getD_some, JsObj.get?_set_self, JsObj.created_set,
        this, valsOf, List.filterMap_append, List.filterMap_cons, List.filterMap_nil, if_true]
      rw [show List.filterMap (fun m : String × String => if m.1 = n' then some m.2 else none) ms
            = valsOf n' ms from rfl, firstOcc_append_singleton]
    · have := h2 n'
      simp only [valuesAt] at this
      have hn2 : ¬ n = n' := fun e => hn e.symm
      simp only [valuesAt, setProp, Option.getD_some, JsObj.get?_set_ne _ _ _ _ hn, this, valsOf,
        List.filterMap_append, List.filterMap_cons, List.filterMap_nil, hn2, if_false,
        List.append_nil]

theorem truthy_some_iff (o : Option String) :
    truthy o = true ↔ ∃ e, o = some e ∧ e ≠ "" := by
  cases o with
  | none => simp [truthy]
  | some e => simp [truthy]

/-- The block-modifier branch of `classify`. -/
theorem classify_blockMod (ci : ComponentInfo) (bem : BemEntityName) (ref : StyleRef)
    (n v : String) (he : truthy bem.elem = false) (hm : bem.mod = some (n, v)) :
    classify ci bem ref = { ci with props := setProp ci.props n v ref } := by
  simp [classify, he, hm]

/-- The element-root branch of `classify`. -/
theorem classify_elemRoot (ci : ComponentInfo) (bem : BemEntityName) (ref : StyleRef)
    (elem : String) (he : bem.elem = some elem) (hne : elem ≠ "") (hm : bem.mod = none) :
    classify ci bem ref = updChild ci elem (fun e =>
      { name := some (convertBlockName elem)
        className := some ref.className
        cssPath := some ref.cssPath
        props := e.props }) := by
  have ht : truthy (some elem) = true := by simp [truthy, hne]
  simp only [classify, he, hm, ht, Option.getD_some, Bool.not_true]
  apply updChild_congr
  rfl

theorem childOf_updChild_self (ci : ComponentInfo) (elem : String) (f : ElemInfo → ElemInfo) :
    childOf (updChild ci elem f) elem = f (childOf ci elem) := by
  simp [childOf, getChild_updChild_self]

theorem childOf_updChild_ne (ci : ComponentInfo) (elem e' : String) (f : ElemInfo → ElemInfo)
    (h : e' ≠ elem) : childOf (updChild ci elem f) e' = childOf ci e' := by
  simp [childOf, getChild_updChild_ne _ _ _ _ h]

theorem created_children_updChild (ci : ComponentInfo) (elem : String) (f : ElemInfo → ElemInfo) :
    JsObj.created ((updChild ci elem f).children.getD [])
      = JsObj.created (ci.children.getD [])
          ++ (if elem ∈ JsObj.created (ci.children.getD []) then [] else [elem]) := by
  simp [updChild, JsObj.created_set]


theorem blockMods_snoc (bs : List BemEntityName) (b : BemEntityName) :
    blockMods (bs ++ [b])
      = blockMods bs ++ (if truthy b.elem then [] else b.mod.toList) := by
  simp only [blockMods, List.filterMap_append, List.filterMap_cons, List.filterMap_nil]
  cases truthy b.elem <;> cases b.mod <;> simp

theorem elemMods_snoc (e : String) (bs : List BemEntityName) (b : BemEntityName) :
    elemMods e (bs ++ [b])
      = elemMods e bs ++ (if truthy b.elem && b.elem == some e then b.mod.toList else []) := by
  simp only [elemMods, List.filterMap_append, List.filterMap_cons, List.filterMap_nil]
  cases truthy b.elem && b.elem == some e <;> cases b.mod <;> simp

theorem elemNames_snoc (bs : List BemEntityName) (b : BemEntityName) :
    elemNames (bs ++ [b])
      = elemNames bs ++ (if truthy b.elem then b.elem.toList else []) := by
  simp only [elemNames, List.filterMap_append, List.filterMap_cons, List.filterMap_nil]
  cases truthy b.elem <;> cases b.elem <;> simp

theorem orderInv_classify (ci : ComponentInfo) (bs : List BemEntityName) (b : BemEntityName)
    (ref : StyleRef) (h : OrderInv ci bs) : OrderInv (classify ci b ref) (bs ++ [b]) := by
  obtain ⟨hp, hc, he⟩ := h
  cases ht : truthy b.elem with
  | false =>
    cases hm : b.mod with
    | none =>
      rw [classify_blockRoot ci b ref ht hm]
      refine ⟨?_, ?_, ?_⟩
      · simpa [blockMods_snoc, ht, hm] using hp
      · simpa [elemNames_snoc, ht] using hc
      · intro e
        simpa [elemMods_snoc, ht, childOf, getChild] using he e
    | some m =>
      obtain ⟨n, v⟩ := m
      rw [classify_blockMod ci b ref n v ht hm]
      refine ⟨?_, ?_, ?_⟩
      · simpa [blockMods_snoc, ht, hm] using propsTrace_setProp _ _ n v ref hp
      · simpa [elemNames_snoc, ht] using hc
      · intro e
        simpa [elemMods_snoc, ht, childOf, getChild] using he e
  | true =>
    obtain ⟨e0, he0, hne⟩ := (truthy_some_iff b.elem).mp ht
    have ht0 : truthy (some e0) = true := by simp [truthy, hne]
    cases hm : b.mod with
    | none =>
      rw [classify_elemRoot ci b ref e0 he0 hne hm]
      refine ⟨?_, ?_, ?_⟩
      · simpa [blockMods_snoc, ht, updChild] using hp
      · rw [created_children_updChild, elemNames_snoc, hc]
        simp only [ht, he0, ht0, if_true, Option.toList_some]
        rw [firstOcc_append_singleton]
      · intro e
        by_cases hee : e = e0
        · subst hee
          rw [childOf_updChild_self]
          simpa [elemMods_snoc, ht, hm] using he e
        · rw [childOf_updChild_ne _ _ _ _ hee]
          simpa [elemMods_snoc, ht, hm] using he e
    | some m =>
      obtain ⟨n, v⟩ := m
      rw [classify_elemMod ci b ref e0 n v he0 hne hm]
      refine ⟨?_, ?_, ?_⟩
      · simpa [blockMods_snoc, ht, updChild] using hp
      · rw [created_children_updChild, elemNames_snoc, hc]
        simp only [ht, he0, ht0, if_true, Option.toList_some]
        rw [firstOcc_append_singleton]
      · intro e
        by_cases hee : e = e0
        · subst hee
          rw [childOf_updChild_self]
          simpa [elemMods_snoc, ht, hm, he0, ht0] using propsTrace_setProp _ _ n v ref (he e)
        · rw [childOf_updChild_ne _ _ _ _ hee]
          have hne2 : ¬ e0 = e := fun x => hee x.symm
          simpa [elemMods_snoc, ht, hm, he0, hne2, ht0] using he e

theorem orderInv_init (blockName dir : String) : OrderInv (initInfo blockName dir) [] := by
  refine ⟨propsTrace_none, rfl, ?_⟩
  intro e
  exact propsTrace_none

theorem parsedOf_cons_of_ok (parse : String → Option BemEntityName) (f : String)
    (files : List String) (bem : BemEntityName)
    (h : parse (stripPostCss (basename f)) = some bem) :
    parsedOf parse (f :: files) = bem :: parsedOf parse files := by
  simp [parsedOf, List.filterMap_cons, h]

theorem orderInv_processFiles (parse : String → Option BemEntityName) (files : List String) :
    ∀ (ci c : ComponentInfo) (bs : List BemEntityName),
      processFiles parse ci files = .ok c → OrderInv ci bs →
      OrderInv c (bs ++ parsedOf parse files) := by
  induction files with
  | nil =>
    intro ci c bs h hi
    simp only [processFiles, Except.ok.injEq] at h
    subst h
    simpa [parsedOf] using hi
  | cons f files ih =>
    intro ci c bs h hi
    simp only [processFiles, processFile] at h
    cases hp : parse (stripPostCss (basename f)) with
    | none => simp [hp] at h
    | some bem =>
      simp only [hp] at h
      have := ih _ c (bs ++ [bem]) h (orderInv_classify ci bs bem _ hi)
      rw [parsedOf_cons_of_ok parse f files bem hp]
      simpa using this


theorem mem_blockMods (bs : List BemEntityName) (m : String × String) (h : m ∈ blockMods bs) :
    ∃ b ∈ bs, b.mod = some m := by
  simp only [blockMods, List.mem_filterMap] at h
  obtain ⟨b, hb, hm⟩ := h
  refine ⟨b, hb, ?_⟩
  split at hm
  · cases hm
  · exact hm

theorem mem_elemMods (e : String) (bs : List BemEntityName) (m : String × String)
    (h : m ∈ elemMods e bs) : ∃ b ∈ bs, b.mod = some m := by
  simp only [elemMods, List.mem_filterMap] at h
  obtain ⟨b, hb, hm⟩ := h
  refine ⟨b, hb, ?_⟩
  split at hm
  · exact hm
  · cases hm

theorem mem_elemNames (bs : List BemEntityName) (e : String) (h : e ∈ elemNames bs) :
    ∃ b ∈ bs, b.elem = some e := by
  simp only [elemNames, List.mem_filterMap] at h
  obtain ⟨b, hb, hm⟩ := h
  refine ⟨b, hb, ?_⟩
  split at hm
  · exact hm
  · cases hm

theorem mem_valsOf (n v : String) (ms : List (String × String)) (h : v ∈ valsOf n ms) :
    (n, v) ∈ ms := by
  simp only [valsOf, List.mem_filterMap] at h
  obtain ⟨m, hm, hv⟩ := h
  obtain ⟨m1, m2⟩ := m
  split at hv
  · rename_i h1
    simp only [Option.some.injEq] at hv
    simp only at h1
    subst h1; subst hv
    exact hm
  · cases hv

/-- Under a `props` trace whose names and values are no array indices, the
`Object.keys` order is the first-written order. -/
theorem propsTrace_keys (props : Option PropsInfo) (ms : List (String × String))
    (h : PropsTrace props ms)
    (hidx : ∀ m ∈ ms, arrayIndex? m.1 = none ∧ arrayIndex? m.2 = none) :
    JsObj.keys (props.getD []) = firstOcc (ms.map Prod.fst)
    ∧ ∀ n, JsObj.keys (valuesAt props n) = firstOcc (valsOf n ms) := by
  obtain ⟨h1, h2⟩ := h
  constructor
  · rw [JsObj.keys_eq_created, h1]
    intro k hk
    rw [h1, mem_firstOcc, List.mem_map] at hk
    obtain ⟨m, hm, rfl⟩ := hk
    exact (hidx m hm).1
  · intro n
    rw [JsObj.keys_eq_created, h2 n]
    intro k hk
    rw [h2 n, mem_firstOcc] at hk
    exact (hidx (n, k) (mem_valsOf n k ms hk)).2

theorem finalize_props_children (blockName : String) (ci : ComponentInfo) :
    (finalize blockName ci).props = ci.props ∧ (finalize blockName ci).children = ci.children := by
  simp only [finalize]
  split <;> exact ⟨rfl, rfl⟩

theorem orderInv_blockInfo (parse : String → Option BemEntityName) (blockName dir : String)
    (files : List String) (ci : ComponentInfo)
    (hok : blockInfo parse blockName dir files = .ok ci) :
    OrderInv ci (parsedOf parse files) := by
  simp only [blockInfo] at hok
  cases hp : processFiles parse (initInfo blockName dir) files with
  | error e => simp [hp] at hok
  | ok c =>
    simp only [hp, Except.ok.injEq] at hok
    have hi := orderInv_processFiles parse files _ c [] hp (orderInv_init blockName dir)
    simp only [List.nil_append] at hi
    obtain ⟨h1, h2⟩ := finalize_props_children blockName c
    rw [hok] at h1 h2
    obtain ⟨a, b, d⟩ := hi
    refine ⟨by rw [h1]; exact a, by rw [h2]; exact b, ?_⟩
    intro e
    have : childOf ci e = childOf c e := by simp [childOf, getChild, h2]
    rw [this]
    exact d e

theorem noIndexNames_elem (b : BemEntityName) (e : String) (h : noIndexNames b = true)
    (he : b.elem = some e) : arrayIndex? e = none := by
  simp only [noIndexNames, he, Option.all_some, Bool.and_eq_true, Option.isNone_iff_eq_none] at h
  exact h.1

theorem noIndexNames_mod (b : BemEntityName) (m : String × String) (h : noIndexNames b = true)
    (hm : b.mod = some m) : arrayIndex? m.1 = none ∧ arrayIndex? m.2 = none := by
  simp only [noIndexNames, hm, Option.all_some, Bool.and_eq_true, Option.isNone_iff_eq_none] at h
  exact h.2

/-- C6, as the code has it: when every element name, modifier name and
modifier value of the block's files is an own key (no numeral such as `2` or
`10`, and no name that lodash refuses or a plain object inherits), the orders
in which `generateModsPart`, `switchPropTemplate` and `generateElemPart` run
over `Object.keys` are the orders in which the names and values were first
written while folding the files in discovery order, and the emitted text is
the reduce over those orders. -/
theorem C6_emission_order (parse : String → Option BemEntityName) (blockName dir : String)
    (files : List String) (ci : ComponentInfo)
    (hok : blockInfo parse blockName dir files = .ok ci)
    (hown : ∀ b ∈ parsedOf parse files, ownNames b = true) :
    JsObj.keys (ci.props.getD []) = firstOcc ((blockMods (parsedOf parse files)).map Prod.fst)
    ∧ (∀ n, JsObj.keys (valuesAt ci.props n)
          = firstOcc (valsOf n (blockMods (parsedOf parse files))))
    ∧ JsObj.keys (ci.children.getD []) = firstOcc (elemNames (parsedOf parse files))
    ∧ (∀ e, JsObj.keys ((childOf ci e).props.getD [])
          = firstOcc ((elemMods e (parsedOf parse files)).map Prod.fst))
    ∧ (∀ e n, JsObj.keys (valuesAt (childOf ci e).props n)
          = firstOcc (valsOf n (elemMods e (parsedOf parse files))))
    ∧ generateModsPart ci.props
        = (firstOcc ((blockMods (parsedOf parse files)).map Prod.fst)).foldl
            (fun acc n =>
              match JsObj.get? (ci.props.getD []) n with
              | some propInfo => acc ++ "\n" ++ switchPropTemplate propInfo n
              | none => acc)
            ""
    ∧ (∀ n, casePart (valuesAt ci.props n)
        = (firstOcc (valsOf n (blockMods (parsedOf parse files)))).foldl
            (fun acc v =>
              match JsObj.get? (valuesAt ci.props n) v with
              | some propValInfo => acc ++ caseBranch v propValInfo
              | none => acc)
            "")
    ∧ generateElemPart ci.children ci.name
        = (firstOcc (elemNames (parsedOf parse files))).foldl
            (fun acc elemName =>
              match JsObj.get? (ci.children.getD []) elemName with
              | some elemInfo =>
                acc ++ "\n"
                  ++ elemTemplate ci.name (jsStr elemInfo.name) (jsStr elemInfo.className)
                      elemInfo.cssPath (generateModsPart elemInfo.props)
                  ++ "\n"
              | none => acc)
            "" := by
  obtain ⟨hp, hc, he⟩ := orderInv_blockInfo parse blockName dir files ci hok
  have hidx : ∀ b ∈ parsedOf parse files, noIndexNames b = true :=
    fun b hb => ownNames_noIndexNames b (hown b hb)
  have hb : ∀ m ∈ blockMods (parsedOf parse files),
      arrayIndex? m.1 = none ∧ arrayIndex? m.2 = none := by
    intro m hm
    obtain ⟨b, hb, hbm⟩ := mem_blockMods _ m hm
    exact noIndexNames_mod b m (hidx b hb) hbm
  have hem : ∀ e, ∀ m ∈ elemMods e (parsedOf parse files),
      arrayIndex? m.1 = none ∧ arrayIndex? m.2 = none := by
    intro e m hm
    obtain ⟨b, hb, hbm⟩ := mem_elemMods e _ m hm
    exact noIndexNames_mod b m (hidx b hb) hbm
  obtain ⟨k1, k2⟩ := propsTrace_keys _ _ hp hb
  have k3 : JsObj.keys (ci.children.getD []) = firstOcc (elemNames (parsedOf parse files)) := by
    rw [JsObj.keys_eq_created, hc]
    intro k hk
    rw [hc, mem_firstOcc] at hk
    obtain ⟨b, hb, hbe⟩ := mem_elemNames _ k hk
    exact noIndexNames_elem b k (hidx b hb) hbe
  refine ⟨k1, k2, k3, fun e => (propsTrace_keys _ _ (he e) (hem e)).1,
    fun e n => (propsTrace_keys _ _ (he e) (hem e)).2 n, ?_, ?_, ?_⟩
  · rw [← k1]
    cases hprops : ci.props with
    | none => simp [generateModsPart, JsObj.keys, JsObj.indexKeys, JsObj.stringKeys]
    | some p => simp [generateModsPart]
  · intro n
    rw [← k2 n]
    rfl
  · rw [← k3]
    cases hch : ci.children with
    | none => simp [generateElemPart, JsObj.keys, JsObj.indexKeys, JsObj.stringKeys]
    | some ch => simp [generateElemPart]

/-- C6 on the block `b` with the files `b_size_big`, `b_size_small` and
`b__icon`: the case branches of `size` come in the order `big`, `small`. -/
theorem C6_emission_order_witness :
    casePart
        [("big", ⟨"b_size_big", "./css/b_size_big.post.css"⟩),
         ("small", ⟨"b_size_small", "./css/b_size_small.post.css"⟩)]
      = (["big", "small"]).foldl
          (fun acc v =>
            match JsObj.get?
                [("big", (⟨"b_size_big", "./css/b_size_big.post.css"⟩ : StyleRef)),
                 ("small", ⟨"b_size_small", "./css/b_size_small.post.css"⟩)] v with
            | some propValInfo => acc ++ caseBranch v propValInfo
            | none => acc)
          "" :=
  (C6_emission_order bemNamingParse "b" "/out/B"
      ["/out/B/css/b_size_big.post.css", "/out/B/css/b_size_small.post.css",
       "/out/B/css/b__icon.post.css"]
      { name := "B", dir := "/out/B", className := some "b", cssPath := none
        props := some [("size",
          [("big", ⟨"b_size_big", "./css/b_size_big.post.css"⟩),
           ("small", ⟨"b_size_small", "./css/b_size_small.post.css"⟩)])]
        children := some [("icon",
          ⟨some "Icon", some "b__icon", some "./css/b__icon.post.css", none⟩)] }
      rfl (by decide)).2.2.2.2.2.2.1 "size"

/-- C6 as stated fails for all-digit names: the block `b` with the files
`b_size_10.post.css` and `b_size_2.post.css`, discovered in this order, has
the values of `size` first written in the order `10`, `2`, and the case
branches are emitted in the order `2`, `10`. -/
theorem C6_digit_values_reordered :
    bemNamingParse "b_size_10" = some ⟨"b", none, some ("size", "10")⟩
    ∧ bemNamingParse "b_size_2" = some ⟨"b", none, some ("size", "2")⟩
    ∧ firstOcc (valsOf "size" (blockMods (parsedOf bemNamingParse
          ["/out/B/css/b_size_10.post.css", "/out/B/css/b_size_2.post.css"]))) = ["10", "2"]
    ∧ (blockInfo bemNamingParse "b" "/out/B"
          ["/out/B/css/b_size_10.post.css", "/out/B/css/b_size_2.post.css"]).toOption.map
          (fun ci => JsObj.keys (valuesAt ci.props "size")) = some ["2", "10"]
    ∧ (blockInfo bemNamingParse "b" "/out/B"
          ["/out/B/css/b_size_10.post.css", "/out/B/css/b_size_2.post.css"]).toOption.map
          (fun ci => casePart (valuesAt ci.props "size"))
        = some (caseBranch "2" ⟨"b_size_2", "./css/b_size_2.post.css"⟩
            ++ caseBranch "10" ⟨"b_size_10", "./css/b_size_10.post.css"⟩) := by
  decide


/-! ## Induction over the fold, with the classification records -/

theorem classifiedOf_cons_of_ok (parse : String → Option BemEntityName) (dir f : String)
    (files : List String) (bem : BemEntityName)
    (h : parse (stripPostCss (basename f)) = some bem) :
    classifiedOf parse dir (f :: files)
      = (bem, ⟨stripPostCss (basename f), "./" ++ pathRelative dir f⟩)
          :: classifiedOf parse dir files := by
  simp [classifiedOf, List.filterMap_cons, h]

theorem classifiedOf_fst (parse : String → Option BemEntityName) (dir : String)
    (files : List String) :
    (classifiedOf parse dir files).map Prod.fst = parsedOf parse files := by
  induction files with
  | nil => rfl
  | cons f files ih =>
    cases hp : parse (stripPostCss (basename f)) with
    | none =>
      have h1 : classifiedOf parse dir (f :: files) = classifiedOf parse dir files := by
        simp [classifiedOf, List.filterMap_cons, hp]
      have h2 : parsedOf parse (f :: files) = parsedOf parse files := by
        simp [parsedOf, List.filterMap_cons, hp]
      rw [h1, h2, ih]
    | some bem =>
      rw [classifiedOf_cons_of_ok parse dir f files bem hp,
        parsedOf_cons_of_ok parse f files bem hp, List.map_cons, ih]

/-- A property of the descriptor and the records folded so far that every
classification step preserves holds after the fold. -/
theorem processFiles_induction (parse : String → Option BemEntityName)
    (P : ComponentInfo → List (BemEntityName × StyleRef) → Prop)
    (step : ∀ ci tr b ref, P ci tr → P (classify ci b ref) (tr ++ [(b, ref)]))
    (files : List String) :
    ∀ (ci c : ComponentInfo) (tr : List (BemEntityName × StyleRef)),
      processFiles parse ci files = .ok c → P ci tr →
      P c (tr ++ classifiedOf parse ci.dir files) := by
  induction files with
  | nil =>
    intro ci c tr h hi
    simp only [processFiles, Except.ok.injEq] at h
    subst h
    simpa [classifiedOf] using hi
  | cons f files ih =>
    intro ci c tr h hi
    simp only [processFiles, processFile] at h
    cases hp : parse (stripPostCss (basename f)) with
    | none => simp [hp] at h
    | some bem =>
      simp only [hp] at h
      have := ih _ c _ h (step ci tr bem ⟨stripPostCss (basename f), "./" ++ pathRelative ci.dir f⟩ hi)
      rw [classify_dir_eq] at this
      rw [classifiedOf_cons_of_ok parse ci.dir f files bem hp]
      simpa using this

theorem blockInfo_induction (parse : String → Option BemEntityName)
    (P : ComponentInfo → List (BemEntityName × StyleRef) → Prop)
    (step : ∀ ci tr b ref, P ci tr → P (classify ci b ref) (tr ++ [(b, ref)]))
    (blockName dir : String) (files : List String) (ci : ComponentInfo)
    (hok : blockInfo parse blockName dir files = .ok ci)
    (h0 : P (initInfo blockName dir) []) :
    ∃ c, processFiles parse (initInfo blockName dir) files = .ok c
      ∧ ci = finalize blockName c ∧ P c (classifiedOf parse dir files) := by
  simp only [blockInfo] at hok
  cases hp : processFiles parse (initInfo blockName dir) files with
  | error e => simp [hp] at hok
  | ok c =>
    simp only [hp, Except.ok.injEq] at hok
    have := processFiles_induction parse P step files _ c [] hp h0
    exact ⟨c, rfl, hok.symm, by simpa [initInfo] using this⟩

theorem propRef_eq_valuesAt (props : Option PropsInfo) (n v : String) :
    propRef props n v = JsObj.get? (valuesAt props n) v := by
  cases props with
  | none => simp [propRef, valuesAt, JsObj.get?]
  | some p =>
    cases hg : JsObj.get? p n with
    | none => simp [propRef, valuesAt, hg, JsObj.get?]
    | some q => simp [propRef, valuesAt, hg]

theorem valuesAt_setProp_self (props : Option PropsInfo) (n v : String) (ref : StyleRef) :
    valuesAt (setProp props n v ref) n = JsObj.set (valuesAt props n) v ref := by
  simp [valuesAt, setProp, JsObj.get?_set_self]

theorem valuesAt_setProp_ne (props : Option PropsInfo) (n v n' : String) (ref : StyleRef)
    (h : n' ≠ n) : valuesAt (setProp props n v ref) n' = valuesAt props n' := by
  simp [valuesAt, setProp, JsObj.get?_set_ne _ _ _ _ h]

theorem propRef_setProp (props : Option PropsInfo) (n v n' v' : String) (ref : StyleRef) :
    propRef (setProp props n v ref) n' v'
      = if n' = n ∧ v' = v then some ref else propRef props n' v' := by
  rw [propRef_eq_valuesAt, propRef_eq_valuesAt]
  by_cases hn : n' = n
  · subst hn
    rw [valuesAt_setProp_self]
    by_cases hv : v' = v
    · subst hv
      simp [JsObj.get?_set_self]
    · simp [JsObj.get?_set_ne _ _ _ _ hv, hv]
  · rw [valuesAt_setProp_ne _ _ _ _ _ hn]
    simp [hn]


/-! ## C7: an element named only by modifier files -/

theorem truthy_default_className (block elem : String) :
    truthy (some (block ++ "__" ++ elem)) = true := by
  have h : (block ++ "__" ++ elem) ≠ "" := by
    intro h
    have := congrArg String.length h
    simp only [String.length_append] at this
    have h2 : ("__" : String).length = 2 := by decide
    have h0 : ("" : String).length = 0 := by decide
    omega
  simp [truthy, h]

theorem firstOfElem_snoc (elem : String) (bs : List BemEntityName) (b : BemEntityName) :
    firstOfElem elem (bs ++ [b])
      = match firstOfElem elem bs with
        | some b0 => some b0
        | none => if b.elem == some elem then some b else none := by
  simp only [firstOfElem, List.find?_append]
  cases List.find? (fun b => b.elem == some elem) bs with
  | some b0 => rfl
  | none =>
    simp only [Option.none_or, List.find?_cons, List.find?_nil]
    cases hb : b.elem == some elem <;> rfl

theorem elemMods_eq_nil_of_firstOfElem (elem : String) (bs : List BemEntityName)
    (h : firstOfElem elem bs = none) : elemMods elem bs = [] := by
  simp only [firstOfElem, List.find?_eq_none] at h
  simp only [elemMods, List.filterMap_eq_nil_iff]
  intro b hb
  have := h b hb
  simp only [Bool.not_eq_true] at this
  simp [this]

theorem getChild_classify_other (ci : ComponentInfo) (b : BemEntityName) (ref : StyleRef)
    (elem : String) (h : ¬ (truthy b.elem = true ∧ b.elem = some elem)) :
    getChild (classify ci b ref) elem = getChild ci elem := by
  cases ht : truthy b.elem with
  | false =>
    cases hm : b.mod with
    | none => rw [classify_blockRoot ci b ref ht hm]; rfl
    | some m =>
      obtain ⟨n, v⟩ := m
      rw [classify_blockMod ci b ref n v ht hm]; rfl
  | true =>
    obtain ⟨e0, he0, hne⟩ := (truthy_some_iff b.elem).mp ht
    have hee : elem ≠ e0 := by
      intro hx
      subst hx
      exact h ⟨ht, he0⟩
    cases hm : b.mod with
    | none =>
      rw [classify_elemRoot ci b ref e0 he0 hne hm, getChild_updChild_ne _ _ _ _ hee]
    | some m =>
      obtain ⟨n, v⟩ := m
      rw [classify_elemMod ci b ref e0 n v he0 hne hm, getChild_updChild_ne _ _ _ _ hee]

theorem elemOnlyMods_step (elem : String) (hne : elem ≠ "") (ci : ComponentInfo)
    (tr : List (BemEntityName × StyleRef)) (b : BemEntityName) (ref : StyleRef)
    (h : ElemOnlyMods elem ci tr) : ElemOnlyMods elem (classify ci b ref) (tr ++ [(b, ref)]) := by
  intro hno
  have hno0 : ∀ x ∈ tr, x.1.elem = some elem → x.1.mod ≠ none := fun x hx =>
    hno x (List.mem_append_left _ hx)
  have hR := h hno0
  have hte : truthy (some elem) = true := by simp [truthy, hne]
  simp only [List.map_append, List.map_cons, List.map_nil, firstOfElem_snoc, elemMods_snoc]
  by_cases hb : b.elem = some elem
  · have hmod : b.mod ≠ none := hno (b, ref) (by simp) hb
    obtain ⟨m, hm⟩ := Option.ne_none_iff_exists'.mp hmod
    obtain ⟨n, v⟩ := m
    have hbeq : (b.elem == some elem) = true := by simp [hb]
    rw [classify_elemMod ci b ref elem n v hb hne hm, getChild_updChild_self]
    cases hf : firstOfElem elem (tr.map Prod.fst) with
    | none =>
      simp only [hf] at hR
      simp only [hbeq, if_true, hR, Option.getD_none]
      refine ⟨_, rfl, ?_, ?_, rfl, ?_⟩
      · simp [defaultName, emptyElem, truthy]
      · simp [defaultClassName, emptyElem, truthy]
      · intro m hmem
        rw [elemMods_eq_nil_of_firstOfElem elem _ hf] at hmem
        simp only [hb, hte, hbeq, Bool.and_self, if_true, hm, Option.toList_some,
          List.nil_append, List.mem_singleton] at hmem
        subst hmem
        simp [propRef_setProp]
    | some b0 =>
      simp only [hf] at hR
      obtain ⟨e, h1, h2, h3, h4, h5⟩ := hR
      simp only [h1, Option.getD_some]
      refine ⟨_, rfl, ?_, ?_, h4, ?_⟩
      · simp only [defaultName, h2]
        split <;> rfl
      · simp [defaultClassName, h3, truthy_default_className]
      · intro m hmem
        simp only [hb, hte, hbeq, Bool.and_self, if_true, hm, Option.toList_some,
          List.mem_append, List.mem_singleton] at hmem
        rw [propRef_setProp]
        split
        · rfl
        · rename_i hnm
          rcases hmem with hmem | hmem
          · exact h5 m hmem
          · simp only [Bool.true_and, beq_self_eq_true, if_true, List.mem_singleton] at hmem
            subst hmem
            exact absurd ⟨rfl, rfl⟩ hnm
  · have hbeq : (b.elem == some elem) = false := by simp [hb]
    have hother : ¬ (truthy b.elem = true ∧ b.elem = some elem) := fun x => hb x.2
    rw [getChild_classify_other ci b ref elem hother]
    simp only [hbeq, Bool.and_false, Bool.false_eq_true, if_false, List.append_nil]
    cases hf : firstOfElem elem (tr.map Prod.fst) with
    | none => simpa [hf] using hR
    | some b0 => simpa [hf] using hR

/-- C7, for files whose names are own keys: when every discovered file that
names the element `elem` is an element-with-modifier file, the finalized
`children.<elem>` has the name `convertBlockName elem`, the class name
`<block>__<elem>` (block of the first such file), no cssPath, and a props
entry for every modifier pair of those files. -/
theorem C7_element_only_modifiers (parse : String → Option BemEntityName)
    (blockName dir : String) (files : List String) (ci : ComponentInfo)
    (elem : String) (b0 : BemEntityName)
    (hown : ∀ b ∈ parsedOf parse files, ownNames b = true)
    (hok : blockInfo parse blockName dir files = .ok ci) (hne : elem ≠ "")
    (hno : ∀ b ∈ parsedOf parse files, b.elem = some elem → b.mod ≠ none)
    (hfirst : firstOfElem elem (parsedOf parse files) = some b0) :
    ∃ e, getChild ci elem = some e
      ∧ e.name = some (convertBlockName elem)
      ∧ e.className = some (b0.block ++ "__" ++ elem)
      ∧ e.cssPath = none
      ∧ ∀ m ∈ elemMods elem (parsedOf parse files), (propRef e.props m.1 m.2).isSome = true := by
  obtain ⟨c, _, hfin, hP⟩ := blockInfo_induction parse (ElemOnlyMods elem)
    (fun ci tr b ref => elemOnlyMods_step elem hne ci tr b ref) blockName dir files ci hok
    (by intro _; simp [firstOfElem, getChild, initInfo, JsObj.get?])
  have hno' : ∀ x ∈ classifiedOf parse dir files, x.1.elem = some elem → x.1.mod ≠ none := by
    intro x hx
    apply hno
    rw [← classifiedOf_fst parse dir files]
    exact List.mem_map_of_mem _ hx
  have hR := hP hno'
  rw [classifiedOf_fst, hfirst] at hR
  have hch : getChild ci elem = getChild c elem := by
    rw [hfin]
    simp [getChild, (finalize_props_children blockName c).2]
  rw [hch]
  exact hR

/-- C7 on `my-block__icon_size_big.post.css` alone: `children.icon` is named
`Icon` and has the class name `my-block__icon`. -/
theorem C7_element_only_modifiers_witness :
    ∃ e, getChild
          { name := "MyBlock", dir := "/out/MyBlock", className := some "my-block"
            cssPath := none, props := none
            children := some [("icon",
              ⟨some "Icon", some "my-block__icon", none,
               some [("size", [("big", ⟨"my-block__icon_size_big",
                  "./css/my-block__icon_size_big.post.css"⟩)])]⟩)] } "icon" = some e
      ∧ e.name = some (convertBlockName "icon")
      ∧ e.className = some ("my-block" ++ "__" ++ "icon")
      ∧ e.cssPath = none
      ∧ ∀ m ∈ elemMods "icon" (parsedOf bemNamingParse
            ["/out/MyBlock/css/my-block__icon_size_big.post.css"]),
          (propRef e.props m.1 m.2).isSome = true :=
  C7_element_only_modifiers bemNamingParse "my-block" "/out/MyBlock"
    ["/out/MyBlock/css/my-block__icon_size_big.post.css"] _ "icon"
    ⟨"my-block", some "icon", some ("size", "big")⟩ (by decide) rfl (by decide) (by decide)
    (by decide)


/-! ## C8: what an element-root file overwrites and what it keeps -/

/-- C8, for an element name that is an own key and a descriptor of plain
objects: processing an element-root file (elem, no mod) sets the name, class
name and cssPath of `children.<elem>`, whatever was there, keeps the `props`
of that element, and leaves every other element and the block's own fields
as they were. -/
theorem C8_element_root_merge (parse : String → Option BemEntityName) (ci : ComponentInfo)
    (file : String) (bem : BemEntityName) (elem : String)
    (hplain : plainState ci = true) (hown : ownNames bem = true)
    (hp : parse (stripPostCss (basename file)) = some bem)
    (he : bem.elem = some elem) (hne : elem ≠ "") (hm : bem.mod = none) :
    ∃ c, processFile parse ci file = .ok c
      ∧ getChild c elem = some
          { name := some (convertBlockName elem)
            className := some (stripPostCss (basename file))
            cssPath := some ("./" ++ pathRelative ci.dir file)
            props := (childOf ci elem).props }
      ∧ (∀ n v, propRef ((childOf c elem).props) n v = propRef ((childOf ci elem).props) n v)
      ∧ (∀ e, e ≠ elem → getChild c e = getChild ci e)
      ∧ c.name = ci.name ∧ c.dir = ci.dir ∧ c.className = ci.className
      ∧ c.cssPath = ci.cssPath ∧ c.props = ci.props := by
  refine ⟨classify ci bem ⟨stripPostCss (basename file), "./" ++ pathRelative ci.dir file⟩,
    by simp only [processFile, hp], ?_⟩
  rw [classify_elemRoot ci bem _ elem he hne hm]
  refine ⟨?_, ?_, ?_, rfl, rfl, rfl, rfl, rfl⟩
  · rw [getChild_updChild_self]
    rfl
  · intro n v
    rw [childOf_updChild_self]
  · intro e hee
    exact getChild_updChild_ne _ _ _ _ hee

/-- C8 on the file `my-block__icon.post.css` processed when `children.icon`
already holds a defaulted name and class name and the entry `size`/`big`, and
`children.text` exists. -/
theorem C8_element_root_merge_witness :
    ∃ c, processFile bemNamingParse
        { name := "MyBlock", dir := "/out/MyBlock", className := some "my-block"
          cssPath := some "./css/my-block.post.css"
          props := some [("theme", [("red", ⟨"my-block_theme_red", "./css/r.post.css"⟩)])]
          children := some
            [("icon", ⟨some "Icon", some "x__icon", none,
                some [("size", [("big", ⟨"my-block__icon_size_big", "./css/b.post.css"⟩)])]⟩),
             ("text", ⟨some "Text", some "my-block__text", none, none⟩)] }
        "/out/MyBlock/css/my-block__icon.post.css" = .ok c
      ∧ getChild c "icon" = some
          { name := some "Icon"
            className := some "my-block__icon"
            cssPath := some "./css/my-block__icon.post.css"
            props := some [("size", [("big", ⟨"my-block__icon_size_big", "./css/b.post.css"⟩)])] }
      ∧ getChild c "text" = some ⟨some "Text", some "my-block__text", none, none⟩
      ∧ c.className = some "my-block" := by
  obtain ⟨c, h1, h2, _, h4, _, _, h7, _, _⟩ :=
    C8_element_root_merge bemNamingParse
      { name := "MyBlock", dir := "/out/MyBlock", className := some "my-block"
        cssPath := some "./css/my-block.post.css"
        props := some [("theme", [("red", ⟨"my-block_theme_red", "./css/r.post.css"⟩)])]
        children := some
          [("icon", ⟨some "Icon", some "x__icon", none,
              some [("size", [("big", ⟨"my-block__icon_size_big", "./css/b.post.css"⟩)])]⟩),
           ("text", ⟨some "Text", some "my-block__text", none, none⟩)] }
      "/out/MyBlock/css/my-block__icon.post.css" ⟨"my-block", some "icon", none⟩ "icon"
      (by decide) (by decide) (by decide) rfl (by decide) rfl
  exact ⟨c, h1, h2, (h4 "text" (by decide)).trans rfl, h7⟩


/-! ## C9: the class name of a finalized block -/

theorem rootClassNames_snoc (tr : List (BemEntityName × StyleRef)) (b : BemEntityName)
    (ref : StyleRef) :
    rootClassNames (tr ++ [(b, ref)])
      = rootClassNames tr
          ++ (if truthy b.elem || b.mod.isSome then [] else [ref.className]) := by
  simp only [rootClassNames, List.filterMap_append, List.filterMap_cons, List.filterMap_nil]
  cases truthy b.elem || b.mod.isSome <;> simp

theorem className_step (ci : ComponentInfo) (tr : List (BemEntityName × StyleRef))
    (b : BemEntityName) (ref : StyleRef)
    (h : ci.className = (rootClassNames tr).getLast?) :
    (classify ci b ref).className = (rootClassNames (tr ++ [(b, ref)])).getLast? := by
  rw [rootClassNames_snoc]
  cases ht : truthy b.elem with
  | false =>
    cases hm : b.mod with
    | none =>
      rw [classify_blockRoot ci b ref ht hm]
      simp
    | some m =>
      obtain ⟨n, v⟩ := m
      rw [classify_blockMod ci b ref n v ht hm]
      simpa using h
  | true =>
    obtain ⟨e0, he0, hne⟩ := (truthy_some_iff b.elem).mp ht
    cases hm : b.mod with
    | none =>
      rw [classify_elemRoot ci b ref e0 he0 hne hm]
      simpa [updChild] using h
    | some m =>
      obtain ⟨n, v⟩ := m
      rw [classify_elemMod ci b ref e0 n v he0 hne hm]
      simpa [updChild] using h

theorem classifiedOf_className_ne (parse : String → Option BemEntityName) (dir : String)
    (files : List String) (hparse : ∀ s b, parse s = some b → s ≠ "") :
    ∀ x ∈ classifiedOf parse dir files, x.2.className ≠ "" := by
  intro x hx
  simp only [classifiedOf, List.mem_filterMap, Option.map_eq_some'] at hx
  obtain ⟨f, _, b, hb, rfl⟩ := hx
  exact hparse _ b hb

theorem mem_rootClassNames (tr : List (BemEntityName × StyleRef)) (s : String)
    (h : s ∈ rootClassNames tr) : ∃ x ∈ tr, x.2.className = s := by
  simp only [rootClassNames, List.mem_filterMap] at h
  obtain ⟨x, hx, hs⟩ := h
  refine ⟨x, hx, ?_⟩
  split at hs
  · cases hs
  · simpa using hs

/-- C9: for a block with a non-empty directory name whose files all parse
(the parser accepting only non-empty identifiers), the finalized descriptor
has a non-empty className: the raw identifier of the last block-root file
processed when there is one, and the raw block directory name otherwise. -/
theorem C9_className_nonempty (parse : String → Option BemEntityName)
    (blockName dir : String) (files : List String) (ci : ComponentInfo)
    (hbn : blockName ≠ "") (hparse : ∀ s b, parse s = some b → s ≠ "")
    (hok : blockInfo parse blockName dir files = .ok ci) :
    ci.className
        = some (((rootClassNames (classifiedOf parse dir files)).getLast?).getD blockName)
    ∧ ∃ s, ci.className = some s ∧ s ≠ "" := by
  obtain ⟨c, _, hfin, hP⟩ := blockInfo_induction parse
    (fun ci tr => ci.className = (rootClassNames tr).getLast?)
    (fun ci tr b ref h => className_step ci tr b ref h) blockName dir files ci hok rfl
  have hmain : ci.className
      = some (((rootClassNames (classifiedOf parse dir files)).getLast?).getD blockName) := by
    rw [hfin]
    simp only [finalize]
    cases hl : (rootClassNames (classifiedOf parse dir files)).getLast? with
    | none =>
      rw [hl] at hP
      simp [hP, truthy]
    | some s =>
      rw [hl] at hP
      have hs : s ∈ rootClassNames (classifiedOf parse dir files) :=
        List.mem_of_getLast?_eq_some hl
      obtain ⟨x, hx, hxs⟩ := mem_rootClassNames _ s hs
      have hne : s ≠ "" := hxs ▸ classifiedOf_className_ne parse dir files hparse x hx
      simp [hP, truthy, hne]
  refine ⟨hmain, _, hmain, ?_⟩
  cases hl : (rootClassNames (classifiedOf parse dir files)).getLast? with
  | none => simpa using hbn
  | some s =>
    have hs : s ∈ rootClassNames (classifiedOf parse dir files) :=
      List.mem_of_getLast?_eq_some hl
    obtain ⟨x, hx, hxs⟩ := mem_rootClassNames _ s hs
    have hne : s ≠ "" := hxs ▸ classifiedOf_className_ne parse dir files hparse x hx
    simpa using hne

theorem bemNamingParse_ne_empty (s : String) (b : BemEntityName)
    (h : bemNamingParse s = some b) : s ≠ "" := by
  intro hs
  subst hs
  have h0 : bemNamingParse "" = none := by decide
  rw [h0] at h
  cases h

/-- C9 on the block `my-block` whose only file is `my-block__icon.post.css`:
no root file sets the className, so it is the directory name. -/
theorem C9_className_nonempty_witness :
    (blockInfo bemNamingParse "my-block" "/out/MyBlock"
        ["/out/MyBlock/css/my-block__icon.post.css"]).toOption.map ComponentInfo.className
      = some (some "my-block")
    ∧ ∃ s, (some "my-block" : Option String) = some s ∧ s ≠ "" :=
  ⟨by decide,
   (C9_className_nonempty bemNamingParse "my-block" "/out/MyBlock"
      ["/out/MyBlock/css/my-block__icon.post.css"]
      { name := "MyBlock", dir := "/out/MyBlock", className := some "my-block", cssPath := none
        props := none
        children := some [("icon",
          ⟨some "Icon", some "my-block__icon", some "./css/my-block__icon.post.css", none⟩)] }
      (by decide) bemNamingParse_ne_empty rfl).2⟩


/-! ## C10: the later file wins -/

theorem blockRefs_snoc (n v : String) (tr : List (BemEntityName × StyleRef))
    (b : BemEntityName) (ref : StyleRef) :
    blockRefs n v (tr ++ [(b, ref)])
      = blockRefs n v tr
          ++ (if !truthy b.elem && b.mod == some (n, v) then [ref] else []) := by
  simp only [blockRefs, List.filterMap_append, List.filterMap_cons, List.filterMap_nil]
  cases !truthy b.elem && b.mod == some (n, v) <;> simp

theorem elemRefs_snoc (elem n v : String) (tr : List (BemEntityName × StyleRef))
    (b : BemEntityName) (ref : StyleRef) :
    elemRefs elem n v (tr ++ [(b, ref)])
      = elemRefs elem n v tr
          ++ (if truthy b.elem && b.elem == some elem && b.mod == some (n, v) then [ref]
              else []) := by
  simp only [elemRefs, List.filterMap_append, List.filterMap_cons, List.filterMap_nil]
  cases truthy b.elem && b.elem == some elem && b.mod == some (n, v) <;> simp

theorem lastWrite_step (ci : ComponentInfo) (tr : List (BemEntityName × StyleRef))
    (b : BemEntityName) (ref : StyleRef) (h : LastWrite ci tr) :
    LastWrite (classify ci b ref) (tr ++ [(b, ref)]) := by
  obtain ⟨hb, he⟩ := h
  cases ht : truthy b.elem with
  | false =>
    cases hm : b.mod with
    | none =>
      rw [classify_blockRoot ci b ref ht hm]
      constructor
      · intro n v
        simpa [blockRefs_snoc, ht, hm] using hb n v
      · intro e n v
        simpa [elemRefs_snoc, ht, childOf, getChild] using he e n v
    | some m =>
      obtain ⟨n0, v0⟩ := m
      rw [classify_blockMod ci b ref n0 v0 ht hm]
      constructor
      · intro n v
        simp only [propRef_setProp, blockRefs_snoc, ht, hm, Bool.not_false, Bool.true_and]
        by_cases hnv : n = n0 ∧ v = v0
        · obtain ⟨rfl, rfl⟩ := hnv
          simp
        · have hne : ¬ ((n0, v0) = (n, v)) := by
            intro hx
            simp only [Prod.mk.injEq] at hx
            exact hnv ⟨hx.1.symm, hx.2.symm⟩
          simp [hnv, hne, hb n v]
      · intro e n v
        simpa [elemRefs_snoc, ht, childOf, getChild] using he e n v
  | true =>
    obtain ⟨e0, he0, hne⟩ := (truthy_some_iff b.elem).mp ht
    have ht0 : truthy (some e0) = true := by simp [truthy, hne]
    cases hm : b.mod with
    | none =>
      rw [classify_elemRoot ci b ref e0 he0 hne hm]
      constructor
      · intro n v
        simpa [blockRefs_snoc, ht, updChild] using hb n v
      · intro e n v
        by_cases hee : e = e0
        · subst hee
          rw [childOf_updChild_self]
          simpa [elemRefs_snoc, hm] using he e n v
        · rw [childOf_updChild_ne _ _ _ _ hee]
          simpa [elemRefs_snoc, hm] using he e n v
    | some m =>
      obtain ⟨n0, v0⟩ := m
      rw [classify_elemMod ci b ref e0 n0 v0 he0 hne hm]
      constructor
      · intro n v
        simpa [blockRefs_snoc, ht, updChild] using hb n v
      · intro e n v
        by_cases hee : e = e0
        · subst hee
          rw [childOf_updChild_self]
          simp only [propRef_setProp, elemRefs_snoc, ht, he0, hm, ht0, Bool.true_and,
            beq_self_eq_true]
          by_cases hnv : n = n0 ∧ v = v0
          · obtain ⟨rfl, rfl⟩ := hnv
            simp
          · have hne2 : ¬ ((n0, v0) = (n, v)) := by
              intro hx
              simp only [Prod.mk.injEq] at hx
              exact hnv ⟨hx.1.symm, hx.2.symm⟩
            simp [hnv, hne2, he e n v]
        · rw [childOf_updChild_ne _ _ _ _ hee]
          have hne3 : ¬ e0 = e := fun x => hee x.symm
          simpa [elemRefs_snoc, ht, he0, hne3, ht0] using he e n v

/-- C10, for files whose names are own keys: in the finalized descriptor
every props entry, on the block and on every element, is the `StyleRef`
(className and cssPath) of the last file in discovery order that classifies
to its owner and modifier pair; and a write of one pair, into a descriptor of
plain objects, leaves every other entry of that owner, and every other owner,
as it was. -/
theorem C10_later_file_wins (parse : String → Option BemEntityName) (blockName dir : String)
    (files : List String) (ci : ComponentInfo)
    (hown : ∀ b ∈ parsedOf parse files, ownNames b = true)
    (hok : blockInfo parse blockName dir files = .ok ci) :
    (∀ n v, propRef ci.props n v = (blockRefs n v (classifiedOf parse dir files)).getLast?)
    ∧ (∀ e n v, propRef (childOf ci e).props n v
          = (elemRefs e n v (classifiedOf parse dir files)).getLast?)
    ∧ (∀ (ci0 : ComponentInfo) (b : BemEntityName) (ref : StyleRef) (n v : String),
        plainState ci0 = true → ownNames b = true →
        truthy b.elem = false → b.mod = some (n, v) →
        propRef (classify ci0 b ref).props n v = some ref
        ∧ (∀ n' v', ¬ (n' = n ∧ v' = v) →
            propRef (classify ci0 b ref).props n' v' = propRef ci0.props n' v')
        ∧ ∀ e, childOf (classify ci0 b ref) e = childOf ci0 e)
    ∧ (∀ (ci0 : ComponentInfo) (b : BemEntityName) (ref : StyleRef) (elem n v : String),
        plainState ci0 = true → ownNames b = true →
        b.elem = some elem → elem ≠ "" → b.mod = some (n, v) →
        propRef (childOf (classify ci0 b ref) elem).props n v = some ref
        ∧ (∀ n' v', ¬ (n' = n ∧ v' = v) →
            propRef (childOf (classify ci0 b ref) elem).props n' v'
              = propRef (childOf ci0 elem).props n' v')
        ∧ (∀ e, e ≠ elem → childOf (classify ci0 b ref) e = childOf ci0 e)
        ∧ (classify ci0 b ref).props = ci0.props) := by
  obtain ⟨c, _, hfin, hP⟩ := blockInfo_induction parse LastWrite
    (fun ci tr b ref h => lastWrite_step ci tr b ref h) blockName dir files ci hok
    (by
      constructor
      · intro n v; rfl
      · intro e n v; rfl)
  obtain ⟨h1, h2⟩ := hP
  obtain ⟨f1, f2⟩ := finalize_props_children blockName c
  refine ⟨?_, ?_, ?_, ?_⟩
  · intro n v
    rw [hfin, f1]
    exact h1 n v
  · intro e n v
    have : childOf ci e = childOf c e := by
      rw [hfin]
      simp [childOf, getChild, f2]
    rw [this]
    exact h2 e n v
  · intro ci0 b ref n v _ _ ht hm
    rw [classify_blockMod ci0 b ref n v ht hm]
    refine ⟨by simp [propRef_setProp], ?_, fun e => rfl⟩
    intro n' v' hnv
    simp [propRef_setProp, hnv]
  · intro ci0 b ref elem n v _ _ he hne hm
    rw [classify_elemMod ci0 b ref elem n v he hne hm, childOf_updChild_self]
    refine ⟨by simp [propRef_setProp], ?_, ?_, rfl⟩
    · intro n' v' hnv
      simp [propRef_setProp, hnv]
    · intro e hee
      exact childOf_updChild_ne _ _ _ _ hee

/-- C10 on the block `b` holding `b_size_big.post.css` twice, in `css/` and in
`css/sub/`: the entry `size`/`big` carries the path of the later file. -/
theorem C10_later_file_wins_witness :
    (blockInfo bemNamingParse "b" "/out/B"
        ["/out/B/css/b_size_big.post.css", "/out/B/css/sub/b_size_big.post.css"]).toOption.map
        (fun ci => propRef ci.props "size" "big")
      = some (some ⟨"b_size_big", "./css/sub/b_size_big.post.css"⟩)
    ∧ propRef (some [("size", [("big", ⟨"b_size_big", "./css/sub/b_size_big.post.css"⟩)])])
        "size" "big"
      = (blockRefs "size" "big" (classifiedOf bemNamingParse "/out/B"
          ["/out/B/css/b_size_big.post.css", "/out/B/css/sub/b_size_big.post.css"])).getLast? :=
  ⟨by decide,
   (C10_later_file_wins bemNamingParse "b" "/out/B"
      ["/out/B/css/b_size_big.post.css", "/out/B/css/sub/b_size_big.post.css"]
      { name := "B", dir := "/out/B", className := some "b", cssPath := none
        props := some [("size", [("big", ⟨"b_size_big", "./css/sub/b_size_big.post.css"⟩)])]
        children := none }
      (by decide) rfl).1 "size" "big"⟩


/-! ## The run on a single block -/

theorem isPrefixChars_append_right (p a b : List Char) (h : isPrefixChars p a = true) :
    isPrefixChars p (a ++ b) = true := by
  induction p generalizing a with
  | nil => simp [isPrefixChars]
  | cons c p ih =>
    cases a with
    | nil => simp [isPrefixChars] at h
    | cons d a =>
      simp only [isPrefixChars, Bool.and_eq_true] at h
      simp only [List.cons_append, isPrefixChars, Bool.and_eq_true]
      exact ⟨h.1, ih a h.2⟩

theorem copySync_fresh (p : String) (rels : List String) :
    ∀ acc : List String, rels.Nodup → (∀ r ∈ rels, p ++ "/" ++ r ∉ acc) →
      rels.foldl
          (fun fs rel => if fs.contains (p ++ "/" ++ rel) then fs else fs ++ [p ++ "/" ++ rel])
          acc
        = acc ++ rels.map (fun rel => p ++ "/" ++ rel) := by
  induction rels with
  | nil => intro acc _ _; simp
  | cons r rels ih =>
    intro acc hnd hfresh
    have hr : p ++ "/" ++ r ∉ acc := hfresh r (List.mem_cons_self _ _)
    have hc : acc.contains (p ++ "/" ++ r) = false := by
      simpa [List.contains_iff_exists_mem_beq] using hr
    simp only [List.foldl_cons, hc, Bool.false_eq_true, if_false]
    rw [ih (acc ++ [p ++ "/" ++ r]) (List.nodup_cons.mp hnd).2]
    · simp
    · intro r' hr' hmem
      rcases List.mem_append.mp hmem with h1 | h1
      · exact hfresh r' (List.mem_cons_of_mem _ hr') h1
      · simp only [List.mem_singleton] at h1
        have : r' = r := by
          have := congrArg String.data h1
          simp only [String.data_append, List.append_assoc] at this
          have := List.append_cancel_left this
          have := List.append_cancel_left this
          exact String.ext this
        subst this
        exact (List.nodup_cons.mp hnd).1 hr'

theorem getComponentsInfo_single (parse : String → Option BemEntityName) (w : World)
    (blockName : String) (rels : List String) (out : String) :
    getComponentsInfo parse w [(blockName, rels)] out
      = match blockInfo parse blockName (pathResolve out (convertBlockName blockName))
            (globSync
              (copySync w (pathResolve (pathResolve out (convertBlockName blockName)) "css") rels)
              (pathResolve out (convertBlockName blockName))) with
        | .error e =>
          (copySync w (pathResolve (pathResolve out (convertBlockName blockName)) "css") rels,
            .error e)
        | .ok ci =>
          (copySync w (pathResolve (pathResolve out (convertBlockName blockName)) "css") rels,
            .ok [ci]) := by
  simp only [getComponentsInfo, getComponentsInfoFrom]
  split <;> simp_all [getComponentsInfoFrom]

theorem glob_accepts (cp r : String)
    (h2 : isPrefixChars ".post.css".data.reverse r.data.reverse = true)
    (h3 : (splitChars '/' ("css".data ++ '/' :: r.data)).all (fun seg => !isHidden seg) = true) :
    (isPrefixChars (cp.data ++ ['/']) (cp ++ "/" ++ "css" ++ "/" ++ r).data
      && isPrefixChars ".post.css".data.reverse (cp ++ "/" ++ "css" ++ "/" ++ r).data.reverse
      && (splitChars '/' ((cp ++ "/" ++ "css" ++ "/" ++ r).data.drop (cp.data.length + 1))).all
          (fun seg => !isHidden seg)) = true := by
  have hd : (cp ++ "/" ++ "css" ++ "/" ++ r).data
      = (cp.data ++ ['/']) ++ ("css".data ++ '/' :: r.data) := by
    simp [String.data_append]
  have hdrop : ((cp.data ++ ['/']) ++ ("css".data ++ '/' :: r.data)).drop (cp.data.length + 1)
      = "css".data ++ '/' :: r.data := by
    have : cp.data.length + 1 = (cp.data ++ ['/']).length := by simp
    rw [this, List.drop_left]
  have hrev : ((cp.data ++ ['/']) ++ ("css".data ++ '/' :: r.data)).reverse
      = r.data.reverse ++ ('/' :: "css".data.reverse ++ (cp.data ++ ['/']).reverse) := by
    simp
  rw [hd, hdrop, hrev, isPrefixChars_append, isPrefixChars_append_right _ _ _ h2, h3]
  rfl

theorem glob_scenario (cp : String) (rels : List String) (h : rels.Perm scenarioNames) :
    globSync ⟨rels.map (fun rel => cp ++ "/" ++ "css" ++ "/" ++ rel), []⟩ cp
      = rels.map (fun rel => cp ++ "/" ++ "css" ++ "/" ++ rel) := by
  simp only [globSync]
  rw [List.filter_eq_self]
  intro file hfile
  obtain ⟨r, hr, rfl⟩ := List.mem_map.mp hfile
  have hr' : r ∈ scenarioNames := h.subset hr
  simp only [scenarioNames, List.mem_cons, List.mem_singleton, List.not_mem_nil, or_false] at hr'
  rcases hr' with rfl | rfl | rfl | rfl <;> exact glob_accepts cp _ (by decide) (by decide)

theorem scenario_paths (cp : String) (rels : List String) :
    rels.map (fun rel => cp ++ "/" ++ "css" ++ "/" ++ rel)
      = (rels.map (fun r => "css/" ++ r)).map (fun rel => cp ++ "/" ++ rel) := by
  simp only [List.map_map]
  apply List.map_congr_left
  intro r _
  apply String.ext
  simp only [Function.comp, String.data_append, List.append_assoc]
  rfl

/-! ## C1: the `my-block` scenario -/

/-- C1: for the block directory `my-block` holding the four scenario files, in
any listing order and for any output root, `getComponentsInfo` returns one
descriptor with name `MyBlock`, class name `my-block`, the entry
`props.theme.red` and the element `icon` named `Icon` with class name
`my-block__icon` and the entry `props.size.big`; every `StyleRef` carries the
path of its own file. -/
theorem C1_scenario_descriptor (out : String) (rels : List String)
    (h : rels.Perm scenarioNames) :
    ∃ w ci icon,
      getComponentsInfo bemNamingParse ⟨[], []⟩ [("my-block", rels)] out = (w, .ok [ci])
      ∧ ci.name = "MyBlock" ∧ ci.className = some "my-block"
      ∧ ci.cssPath = some "./css/my-block.post.css"
      ∧ propRef ci.props "theme" "red"
          = some ⟨"my-block_theme_red", "./css/my-block_theme_red.post.css"⟩
      ∧ getChild ci "icon" = some icon
      ∧ icon.name = some "Icon" ∧ icon.className = some "my-block__icon"
      ∧ icon.cssPath = some "./css/my-block__icon.post.css"
      ∧ propRef icon.props "size" "big"
          = some ⟨"my-block__icon_size_big", "./css/my-block__icon_size_big.post.css"⟩ := by
  have hname : convertBlockName "my-block" = "MyBlock" := by decide
  have hcss : ∀ cp : String, pathResolve cp "css" = cp ++ "/" ++ "css" := by
    intro cp
    simp [pathResolve]
  have hnd : rels.Nodup := h.nodup_iff.mpr (by decide)
  have hcopy : ∀ cp : String,
      copySync ⟨[], []⟩ (cp ++ "/" ++ "css") rels
        = ⟨rels.map (fun rel => cp ++ "/" ++ "css" ++ "/" ++ rel), []⟩ := by
    intro cp
    simp only [copySync]
    rw [copySync_fresh (cp ++ "/" ++ "css") rels [] hnd (by simp)]
    simp
  have hperm : (rels.map (fun r => "css/" ++ r)).Perm scenarioFiles :=
    h.map (fun r => "css/" ++ r)
  obtain ⟨ci, icon, hb, rest⟩ :=
    scenario_blockInfo (pathResolve out "MyBlock") (rels.map (fun r => "css/" ++ r)) hperm
  refine ⟨⟨rels.map (fun rel => pathResolve out "MyBlock" ++ "/" ++ "css" ++ "/" ++ rel), []⟩,
    ci, icon, ?_, rest⟩
  rw [getComponentsInfo_single, hname, hcss, hcopy, glob_scenario _ rels h, scenario_paths, hb]

/-- C1 with the output root `/out` and the files in listing order. -/
theorem C1_scenario_descriptor_witness :
    ∃ w ci icon,
      getComponentsInfo bemNamingParse ⟨[], []⟩ [("my-block", scenarioNames)] "/out"
        = (w, .ok [ci])
      ∧ ci.name = "MyBlock" ∧ ci.className = some "my-block"
      ∧ ci.cssPath = some "./css/my-block.post.css"
      ∧ propRef ci.props "theme" "red"
          = some ⟨"my-block_theme_red", "./css/my-block_theme_red.post.css"⟩
      ∧ getChild ci "icon" = some icon
      ∧ icon.name = some "Icon" ∧ icon.className = some "my-block__icon"
      ∧ icon.cssPath = some "./css/my-block__icon.post.css"
      ∧ propRef icon.props "size" "big"
          = some ⟨"my-block__icon_size_big", "./css/my-block__icon_size_big.post.css"⟩ :=
  C1_scenario_descriptor "/out" scenarioNames (List.Perm.refl _)


/-! ## C11: blocks whose names convert to the same component name -/

theorem getComponentsInfoFrom_names (parse : String → Option BemEntityName) (out : String)
    (src : SourceTree) :
    ∀ (w w1 : World) (acc infos : List ComponentInfo),
      getComponentsInfoFrom parse out w src acc = (w1, .ok infos) →
      infos.map ComponentInfo.name
        = acc.map ComponentInfo.name ++ src.map (fun b => convertBlockName b.1) := by
  induction src with
  | nil =>
    intro w w1 acc infos h
    simp only [getComponentsInfoFrom, Prod.mk.injEq, Except.ok.injEq] at h
    simp [h.2]
  | cons b src ih =>
    intro w w1 acc infos h
    obtain ⟨blockName, rels⟩ := b
    simp only [getComponentsInfoFrom] at h
    cases hb : blockInfo parse blockName (pathResolve out (convertBlockName blockName))
        (globSync (copySync w (pathResolve (pathResolve out (convertBlockName blockName)) "css") rels)
          (pathResolve out (convertBlockName blockName))) with
    | error e => simp [hb] at h
    | ok ci =>
      simp only [hb] at h
      have hn : ci.name = convertBlockName blockName := by
        simp only [blockInfo] at hb
        cases hp : processFiles parse
            (initInfo blockName (pathResolve out (convertBlockName blockName)))
            (globSync (copySync w
              (pathResolve (pathResolve out (convertBlockName blockName)) "css") rels)
              (pathResolve out (convertBlockName blockName))) with
        | error e => simp [hp] at hb
        | ok c =>
          simp only [hp, Except.ok.injEq] at hb
          have := (processFiles_name_dir parse _ _ c hp).1
          rw [← hb]
          simp only [finalize]
          split <;> simpa [initInfo] using this
      rw [ih _ w1 _ infos h]
      simp [hn]

/-- C11 at the failing input: the source root holds the directories `my-block`
(with `my-block_theme_red.post.css`) and `my_block` (with `other.post.css`).
Both convert to `MyBlock`, so both are copied to and globbed from the same
component directory: one descriptor per directory is returned, in listing
order, but the descriptor of `my_block` carries `props.theme.red` from the file
of `my-block`; with `my-block` empty, the same directory `my_block` gets a
descriptor without it. -/
theorem C11_same_component_directory :
    convertBlockName "my-block" = convertBlockName "my_block"
    ∧ (getComponentsInfo bemNamingParse ⟨[], []⟩
          [("my-block", ["my-block_theme_red.post.css"]), ("my_block", ["other.post.css"])]
          "/out").2.toOption.map
          (fun infos => infos.map (fun ci => (ci.name, ci.className, propRef ci.props "theme" "red")))
        = some [("MyBlock", some "my-block", some ⟨"my-block_theme_red",
                    "./css/my-block_theme_red.post.css"⟩),
                ("MyBlock", some "other", some ⟨"my-block_theme_red",
                    "./css/my-block_theme_red.post.css"⟩)]
    ∧ (getComponentsInfo bemNamingParse ⟨[], []⟩
          [("my-block", []), ("my_block", ["other.post.css"])]
          "/out").2.toOption.map
          (fun infos => infos.map (fun ci => (ci.name, ci.className, propRef ci.props "theme" "red")))
        = some [("MyBlock", some "my-block", none), ("MyBlock", some "other", none)] := by
  decide


/-! ## C14: `convertBlockName` on hyphen- and underscore-separated names -/

theorem wordsAux_lower_cons (c : Char) (cur rest : List Char) :
    wordsAux .lower cur (c :: rest)
      = if c.isLower then wordsAux .lower (c :: cur) rest
        else if c.isUpper then flushWord cur (wordsAux .upper [c] rest)
        else if c.isDigit then flushWord cur (wordsAux .digits [c] rest)
        else flushWord cur (wordsAux .idle [] rest) := by
  cases rest <;> cases cur <;> rfl

theorem wordsAux_idle_cons (c : Char) (cur rest : List Char) :
    wordsAux .idle cur (c :: rest)
      = if c.isLower then flushWord cur (wordsAux .lower [c] rest)
        else if c.isUpper then flushWord cur (wordsAux .upper [c] rest)
        else if c.isDigit then flushWord cur (wordsAux .digits [c] rest)
        else flushWord cur (wordsAux .idle [] rest) := by
  cases rest <;> cases cur <;> rfl

theorem wordsAux_lower_run (r : List Char) (hr : ∀ c ∈ r, c.isLower = true) :
    ∀ (cur tail : List Char),
      wordsAux .lower cur (r ++ tail) = wordsAux .lower (r.reverse ++ cur) tail := by
  induction r with
  | nil => intro cur tail; rfl
  | cons c r ih =>
    intro cur tail
    have hc : c.isLower = true := hr c (List.mem_cons_self _ _)
    rw [List.cons_append, wordsAux_lower_cons, if_pos hc,
      ih (fun x hx => hr x (List.mem_cons_of_mem _ hx)) (c :: cur) tail]
    simp

theorem delim_not_alnum (d : Char) (hd : d = '-' ∨ d = '_') :
    d.isLower = false ∧ d.isUpper = false ∧ d.isDigit = false := by
  rcases hd with rfl | rfl <;> decide

theorem isLowerRun_spec (r : List Char) (h : isLowerRun r = true) :
    r ≠ [] ∧ ∀ c ∈ r, c.isLower = true := by
  simp only [isLowerRun, Bool.and_eq_true, Bool.not_eq_true', List.isEmpty_eq_false,
    List.all_eq_true] at h
  exact ⟨by simpa using h.1, h.2⟩

theorem wordsAux_runs (rest : List (Char × List Char))
    (hrest : ∀ dr ∈ rest, (dr.1 = '-' ∨ dr.1 = '_') ∧ isLowerRun dr.2 = true) :
    ∀ cur : List Char, cur ≠ [] →
      wordsAux .lower cur (tailRuns rest)
        = cur.reverse :: rest.map Prod.snd := by
  induction rest with
  | nil =>
    intro cur hcur
    cases cur with
    | nil => exact absurd rfl hcur
    | cons c cur => rfl
  | cons dr rest ih =>
    intro cur hcur
    obtain ⟨d, r⟩ := dr
    obtain ⟨hd, hrun⟩ := hrest (d, r) (List.mem_cons_self _ _)
    obtain ⟨hne, hlow⟩ := isLowerRun_spec r hrun
    obtain ⟨h1, h2, h3⟩ := delim_not_alnum d hd
    cases r with
    | nil => exact absurd rfl hne
    | cons c r =>
      have hc : c.isLower = true := hlow c (List.mem_cons_self _ _)
      simp only [tailRuns, List.cons_append, List.map_cons]
      rw [wordsAux_lower_cons, if_neg (by simp [h1]), if_neg (by simp [h2]),
        if_neg (by simp [h3]), wordsAux_idle_cons, if_pos hc,
        wordsAux_lower_run r (fun x hx => hlow x (List.mem_cons_of_mem _ hx)),
        ih (fun x hx => hrest x (List.mem_cons_of_mem _ hx)) _ (by simp)]
      cases cur with
      | nil => exact absurd rfl hcur
      | cons a cur => simp [flushWord]

theorem words_joinRuns (first : List Char) (rest : List (Char × List Char))
    (hfirst : isLowerRun first = true)
    (hrest : ∀ dr ∈ rest, (dr.1 = '-' ∨ dr.1 = '_') ∧ isLowerRun dr.2 = true) :
    words (String.mk (joinRuns first rest)) = first :: rest.map Prod.snd := by
  obtain ⟨hne, hlow⟩ := isLowerRun_spec first hfirst
  cases first with
  | nil => exact absurd rfl hne
  | cons c f =>
    have hc : c.isLower = true := hlow c (List.mem_cons_self _ _)
    simp only [words, joinRuns, List.cons_append]
    rw [wordsAux_idle_cons, if_pos hc,
      wordsAux_lower_run f (fun x hx => hlow x (List.mem_cons_of_mem _ hx)),
      wordsAux_runs rest hrest _ (by simp)]
    simp [flushWord]

theorem toLower_of_isLower (c : Char) (h : c.isLower = true) : c.toLower = c := by
  simp only [Char.isLower, Bool.and_eq_true, decide_eq_true_eq] at h
  simp only [Char.toLower]
  split
  · rename_i h2
    have h3 : (97 : UInt32).toBitVec.toNat ≤ c.val.toBitVec.toNat :=
      BitVec.le_def.mp (UInt32.le_def.mp h.1)
    have h4 : c.val.toBitVec.toNat ≤ 90 := h2.2
    have h5 : (97 : UInt32).toBitVec.toNat = 97 := by decide
    omega
  · rfl

theorem capitalize_lowerRun (r : List Char) (h : ∀ c ∈ r, c.isLower = true) :
    capitalize r = upperFirstChars r := by
  cases r with
  | nil => rfl
  | cons c r =>
    simp only [capitalize, upperFirstChars]
    congr 1
    have : ∀ l : List Char, (∀ x ∈ l, x.isLower = true) → l.map Char.toLower = l := by
      intro l hl
      induction l with
      | nil => rfl
      | cons a l ih =>
        simp only [List.map_cons]
        rw [toLower_of_isLower a (hl a (List.mem_cons_self _ _)),
          ih (fun x hx => hl x (List.mem_cons_of_mem _ hx))]
    exact this r (fun x hx => h x (List.mem_cons_of_mem _ hx))

theorem capitalize_runs (rest : List (Char × List Char))
    (hrest : ∀ dr ∈ rest, (dr.1 = '-' ∨ dr.1 = '_') ∧ isLowerRun dr.2 = true) :
    ((rest.map Prod.snd).map capitalize).foldr (fun w acc => w ++ acc) [] = pascalTail rest := by
  induction rest with
  | nil => rfl
  | cons dr rest ih =>
    obtain ⟨d, r⟩ := dr
    have hr := (isLowerRun_spec r (hrest (d, r) (List.mem_cons_self _ _)).2).2
    simp only [List.map_cons, List.foldr_cons, pascalTail]
    rw [capitalize_lowerRun r hr, ih (fun x hx => hrest x (List.mem_cons_of_mem _ hx))]

/-- C14: `convertBlockName` returns a string for every input, and on a name made
of non-empty runs of lower-case ASCII letters separated by single hyphens or
underscores it returns the runs concatenated, the first letter of each
upper-cased and the delimiters removed. -/
theorem C14_pascal_case :
    (∀ name : String, ∃ out : String, convertBlockName name = out)
    ∧ ∀ (first : List Char) (rest : List (Char × List Char)),
        isLowerRun first = true →
        (∀ dr ∈ rest, (dr.1 = '-' ∨ dr.1 = '_') ∧ isLowerRun dr.2 = true) →
        convertBlockName (String.mk (joinRuns first rest)) = String.mk (pascalRuns first rest) := by
  refine ⟨fun name => ⟨_, rfl⟩, ?_⟩
  intro first rest hfirst hrest
  simp only [convertBlockName, words_joinRuns first rest hfirst hrest, List.map_cons,
    List.foldr_cons, pascalRuns]
  rw [capitalize_lowerRun first (isLowerRun_spec first hfirst).2, capitalize_runs rest hrest]

/-- C14 on `my-block` and `icon`. -/
theorem C14_pascal_case_witness :
    convertBlockName "my-block" = "MyBlock" ∧ convertBlockName "icon" = "Icon" :=
  ⟨C14_pascal_case.2 ['m', 'y'] [('-', ['b', 'l', 'o', 'c', 'k'])]
      (by decide) (by decide),
   C14_pascal_case.2 ['i', 'c', 'o', 'n'] [] (by decide) (by decide)⟩


/-! ## C15: every element is named and has a class name -/

theorem classNameOrigin_mono (k s : String) (tr : List (BemEntityName × StyleRef))
    (x : BemEntityName × StyleRef) (h : ClassNameOrigin k s tr) :
    ClassNameOrigin k s (tr ++ [x]) := by
  rcases h with ⟨y, hy, h1⟩ | ⟨y, hy, h1⟩
  · exact Or.inl ⟨y, List.mem_append_left _ hy, h1⟩
  · exact Or.inr ⟨y, List.mem_append_left _ hy, h1⟩

theorem default_ne_empty (block elem : String) : block ++ "__" ++ elem ≠ "" := by
  intro h
  have := truthy_default_className block elem
  simp [truthy, h] at this

theorem elemNamed_step (ci : ComponentInfo) (tr : List (BemEntityName × StyleRef))
    (b : BemEntityName) (ref : StyleRef) (h : ElemNamed ci tr) :
    ElemNamed (classify ci b ref) (tr ++ [(b, ref)]) := by
  intro hne k e hk
  have hne0 : ∀ x ∈ tr, x.2.className ≠ "" := fun x hx => hne x (List.mem_append_left _ hx)
  have hold := h hne0
  by_cases hb : truthy b.elem = true ∧ b.elem = some k
  · obtain ⟨ht, hbk⟩ := hb
    obtain ⟨e0, he0, hne1⟩ := (truthy_some_iff b.elem).mp ht
    have hek : e0 = k := by rw [he0] at hbk; exact Option.some.inj hbk
    subst hek
    cases hm : b.mod with
    | none =>
      rw [classify_elemRoot ci b ref e0 he0 hne1 hm, getChild_updChild_self] at hk
      simp only [Option.some.injEq] at hk
      subst hk
      refine ⟨rfl, ref.className, rfl, hne (b, ref) (by simp), Or.inr ⟨(b, ref), by simp, he0, hm, rfl⟩⟩
    | some m =>
      obtain ⟨n, v⟩ := m
      rw [classify_elemMod ci b ref e0 n v he0 hne1 hm, getChild_updChild_self] at hk
      simp only [Option.some.injEq] at hk
      subst hk
      cases hg : getChild ci e0 with
      | none =>
        refine ⟨by simp [defaultName, emptyElem, truthy], b.block ++ "__" ++ e0,
          by simp [defaultClassName, emptyElem, truthy], default_ne_empty _ _,
          Or.inl ⟨(b, ref), by simp, he0, by simp [hm], rfl⟩⟩
      | some e1 =>
        obtain ⟨h1, s, h2, h3, h4⟩ := hold e0 e1 hg
        have hts : truthy (some s) = true := by simp [truthy, h3]
        refine ⟨?_, s, ?_, h3, classNameOrigin_mono _ _ _ _ h4⟩
        · simp only [Option.getD_some, defaultName, h1]
          split <;> rfl
        · simp [defaultClassName, h2, hts]
  · rw [getChild_classify_other ci b ref k hb] at hk
    obtain ⟨h1, s, h2, h3, h4⟩ := hold k e hk
    exact ⟨h1, s, h2, h3, classNameOrigin_mono _ _ _ _ h4⟩

/-- C15, for files whose names are own keys: for a block whose files all
parse (the parser accepting only non-empty identifiers), every element of
the finalized `children` has the name `convertBlockName` of its key and a
non-empty class name, which is either `<block>__<elem>` from the defaulting
rule or the raw identifier of an element-root file, whichever kind of file
named the element first. -/
theorem C15_elements_named (parse : String → Option BemEntityName) (blockName dir : String)
    (files : List String) (ci : ComponentInfo)
    (hown : ∀ b ∈ parsedOf parse files, ownNames b = true)
    (hparse : ∀ s b, parse s = some b → s ≠ "")
    (hok : blockInfo parse blockName dir files = .ok ci) :
    ∀ k e, getChild ci k = some e →
      e.name = some (convertBlockName k)
      ∧ ∃ s, e.className = some s ∧ s ≠ ""
          ∧ ClassNameOrigin k s (classifiedOf parse dir files) := by
  obtain ⟨c, _, hfin, hP⟩ := blockInfo_induction parse ElemNamed
    (fun ci tr b ref h => elemNamed_step ci tr b ref h) blockName dir files ci hok
    (by intro _ k e hk; simp [getChild, initInfo, JsObj.get?] at hk)
  intro k e hk
  have hch : getChild ci k = getChild c k := by
    rw [hfin]
    simp [getChild, (finalize_props_children blockName c).2]
  rw [hch] at hk
  exact hP (classifiedOf_className_ne parse dir files hparse) k e hk

/-- C15 on the block `b` whose files name the element `icon` first by a
modifier file and then by its root file: `children.icon` is named `Icon` and
its class name `b__icon` is the identifier of the root file. -/
theorem C15_elements_named_witness :
    (some "Icon" : Option String) = some (convertBlockName "icon")
    ∧ ∃ s, (some "b__icon" : Option String) = some s ∧ s ≠ ""
        ∧ ClassNameOrigin "icon" s (classifiedOf bemNamingParse "/out/B"
            ["/out/B/css/b__icon_size_big.post.css", "/out/B/css/b__icon.post.css"]) :=
  C15_elements_named bemNamingParse "b" "/out/B"
    ["/out/B/css/b__icon_size_big.post.css", "/out/B/css/b__icon.post.css"]
    { name := "B", dir := "/out/B", className := some "b", cssPath := none, props := none
      children := some [("icon",
        { name := some "Icon", className := some "b__icon"
          cssPath := some "./css/b__icon.post.css"
          props := some [("size", [("big", ⟨"b__icon_size_big",
            "./css/b__icon_size_big.post.css"⟩)])] })] }
    (by decide) bemNamingParse_ne_empty rfl "icon"
    { name := some "Icon", className := some "b__icon"
      cssPath := some "./css/b__icon.post.css"
      props := some [("size", [("big", ⟨"b__icon_size_big",
        "./css/b__icon_size_big.post.css"⟩)])] }
    rfl


/-! ## C18: an element-root file and a modifier file of one element commute -/

/-- C18, for names that are own keys and a descriptor of plain objects: for
an element `elem`, processing an element-root file and an
element-with-modifier file in either order gives the same descriptor; the
element then has the name `convertBlockName elem`, the root file's raw
identifier as class name, the root file's path as cssPath, and the
modifier's entry. -/
theorem C18_root_and_modifier_commute (parse : String → Option BemEntityName)
    (ci : ComponentInfo) (fRoot fMod : String) (bRoot bMod : BemEntityName)
    (elem n v : String)
    (hplain : plainState ci = true)
    (hownR : ownNames bRoot = true) (hownM : ownNames bMod = true)
    (hpR : parse (stripPostCss (basename fRoot)) = some bRoot)
    (hpM : parse (stripPostCss (basename fMod)) = some bMod)
    (heR : bRoot.elem = some elem) (hmR : bRoot.mod = none)
    (heM : bMod.elem = some elem) (hmM : bMod.mod = some (n, v))
    (hne : elem ≠ "") (hid : stripPostCss (basename fRoot) ≠ "") :
    processFiles parse ci [fRoot, fMod] = processFiles parse ci [fMod, fRoot]
    ∧ ∃ c e, processFiles parse ci [fRoot, fMod] = .ok c
        ∧ getChild c elem = some e
        ∧ e.name = some (convertBlockName elem)
        ∧ e.className = some (stripPostCss (basename fRoot))
        ∧ e.cssPath = some ("./" ++ pathRelative ci.dir fRoot)
        ∧ propRef e.props n v
            = some ⟨stripPostCss (basename fMod), "./" ++ pathRelative ci.dir fMod⟩ := by
  have hA : processFiles parse ci [fRoot, fMod]
      = .ok (updChild ci elem (fun e =>
          { name := some (convertBlockName elem)
            className := some (stripPostCss (basename fRoot))
            cssPath := some ("./" ++ pathRelative ci.dir fRoot)
            props := setProp e.props n v
              ⟨stripPostCss (basename fMod), "./" ++ pathRelative ci.dir fMod⟩ })) := by
    simp only [processFiles, processFile, hpR, hpM, classify_dir_eq]
    rw [classify_elemRoot ci bRoot _ elem heR hne hmR,
      classify_elemMod _ bMod _ elem n v heM hne hmM, updChild_updChild]
    congr 1
    apply updChild_congr
    simp [defaultName, defaultClassName, truthy, hid]
  have hB : processFiles parse ci [fMod, fRoot]
      = .ok (updChild ci elem (fun e =>
          { name := some (convertBlockName elem)
            className := some (stripPostCss (basename fRoot))
            cssPath := some ("./" ++ pathRelative ci.dir fRoot)
            props := setProp e.props n v
              ⟨stripPostCss (basename fMod), "./" ++ pathRelative ci.dir fMod⟩ })) := by
    simp only [processFiles, processFile, hpR, hpM, classify_dir_eq]
    rw [classify_elemMod ci bMod _ elem n v heM hne hmM,
      classify_elemRoot _ bRoot _ elem heR hne hmR, updChild_updChild]
  refine ⟨hA.trans hB.symm, _, _, hA, getChild_updChild_self _ _ _, rfl, rfl, rfl, ?_⟩
  simp [propRef_setProp]

/-- C18 on `b__icon.post.css` and `b__icon_size_big.post.css`, starting from
the fresh descriptor of the block `b`. -/
theorem C18_root_and_modifier_commute_witness :
    processFiles bemNamingParse (initInfo "b" "/out/B")
        ["/out/B/css/b__icon.post.css", "/out/B/css/b__icon_size_big.post.css"]
      = processFiles bemNamingParse (initInfo "b" "/out/B")
        ["/out/B/css/b__icon_size_big.post.css", "/out/B/css/b__icon.post.css"] :=
  (C18_root_and_modifier_commute bemNamingParse (initInfo "b" "/out/B")
    "/out/B/css/b__icon.post.css" "/out/B/css/b__icon_size_big.post.css"
    ⟨"b", some "icon", none⟩ ⟨"b", some "icon", some ("size", "big")⟩ "icon" "size" "big"
    (by decide) (by decide) (by decide)
    (by decide) (by decide) rfl rfl rfl rfl (by decide) (by decide)).1


/-! ## C17: the emitted text is a function of the descriptor -/

theorem foldl_generateReactComponent (infos : List ComponentInfo) :
    ∀ w : World,
      (infos.foldl generateReactComponent w).written
        = w.written
            ++ infos.map (fun ci => (pathResolve ci.dir "index.js", reactVersion ci)) := by
  induction infos with
  | nil => intro w; simp
  | cons ci infos ih =>
    intro w
    simp only [List.foldl_cons, ih, generateReactComponent, List.map_cons, List.append_assoc,
      List.singleton_append]

/-- C17: two descriptors that agree on name, className, cssPath, props and
children get the same text, whatever their `dir` and whatever was written
before; a run writes, for every block, the text of its descriptor; and the
descriptors of the same discovered files below two component directories
get the same text. -/
theorem C17_emission_deterministic :
    (∀ ci1 ci2 : ComponentInfo,
        ci1.name = ci2.name → ci1.className = ci2.className → ci1.cssPath = ci2.cssPath →
        ci1.props = ci2.props → ci1.children = ci2.children →
        reactVersion ci1 = reactVersion ci2
        ∧ ∀ w1 w2 : World,
            ((generateReactComponent w1 ci1).written.getLast?).map Prod.snd
              = ((generateReactComponent w2 ci2).written.getLast?).map Prod.snd)
    ∧ (∀ (parse : String → Option BemEntityName) (src : SourceTree) (out : String)
        (w : World) (infos : List ComponentInfo),
        getComponentsInfo parse ⟨[], []⟩ src out = (w, .ok infos) →
        (generateReactComponents parse src out).1.written.map Prod.snd
          = infos.map reactVersion)
    ∧ (∀ (parse : String → Option BemEntityName) (blockName d1 d2 : String)
        (rels : List String) (ci1 ci2 : ComponentInfo),
        blockInfo parse blockName d1 (rels.map (fun rel => d1 ++ "/" ++ rel)) = .ok ci1 →
        blockInfo parse blockName d2 (rels.map (fun rel => d2 ++ "/" ++ rel)) = .ok ci2 →
        reactVersion ci1 = reactVersion ci2) := by
  refine ⟨?_, ?_, ?_⟩
  · intro ci1 ci2 h1 h2 h3 h4 h5
    have hr : reactVersion ci1 = reactVersion ci2 := by
      simp only [reactVersion, h1, h2, h3, h4, h5]
    refine ⟨hr, ?_⟩
    intro w1 w2
    simp [generateReactComponent, hr]
  · intro parse src out w infos h
    have hw : w.written = [] := by
      have := getComponentsInfoFrom_written parse out src ⟨[], []⟩ []
      simp only [getComponentsInfo] at h
      rw [h] at this
      exact this
    simp only [generateReactComponents, h, foldl_generateReactComponent, hw, List.nil_append,
      List.map_map]
    rfl
  · intro parse blockName d1 d2 rels ci1 ci2 h1 h2
    have h := blockInfo_relocate parse blockName d1 d2 rels ci1 h1
    rw [h2] at h
    simp only [Except.ok.injEq] at h
    subst h
    rfl

/-- C17 on two descriptors of the block `b` that differ only in `dir`. -/
theorem C17_emission_deterministic_witness :
    reactVersion
        { name := "B", dir := "/out/B", className := some "b", cssPath := none
          props := some [("size", [("big", ⟨"b_size_big", "./css/b_size_big.post.css"⟩)])]
          children := none }
      = reactVersion
        { name := "B", dir := "/elsewhere/B", className := some "b", cssPath := none
          props := some [("size", [("big", ⟨"b_size_big", "./css/b_size_big.post.css"⟩)])]
          children := none } :=
  (C17_emission_deterministic.1 _ _ rfl rfl rfl rfl rfl).1


/-! ## C13: one switch per modifier name, one case per value -/

theorem JsObj.insertIdx_perm (n : Nat) (k : String) (l : List (Nat × String)) :
    (JsObj.insertIdx n k l).Perm ((n, k) :: l) := by
  induction l with
  | nil => exact List.Perm.refl _
  | cons p l ih =>
    obtain ⟨m, k'⟩ := p
    simp only [JsObj.insertIdx]
    split
    · exact List.Perm.refl _
    · exact (List.Perm.cons _ ih).trans (List.Perm.swap _ _ _)

theorem JsObj.keys_perm_created {α : Type} (o : JsObj α) :
    (JsObj.keys o).Perm (JsObj.created o) := by
  induction o with
  | nil => exact List.Perm.refl _
  | cons p o ih =>
    obtain ⟨k, v⟩ := p
    simp only [JsObj.keys] at ih
    cases h : arrayIndex? k with
    | some n =>
      simp only [JsObj.keys, JsObj.indexKeys, JsObj.stringKeys, h, JsObj.created, List.map_cons]
      have h1 := (JsObj.insertIdx_perm n k (JsObj.indexKeys o)).map Prod.snd
      exact (h1.append_right _).trans (List.Perm.cons _ ih)
    | none =>
      simp only [JsObj.keys, JsObj.indexKeys, JsObj.stringKeys, h, JsObj.created, List.map_cons]
      exact List.perm_middle.trans (List.Perm.cons _ ih)

theorem JsObj.get?_isSome_of_mem {α : Type} (o : JsObj α) (k : String)
    (h : k ∈ JsObj.created o) : ∃ v, JsObj.get? o k = some v := by
  induction o with
  | nil => cases h
  | cons p o ih =>
    obtain ⟨k', v'⟩ := p
    by_cases hk : k' = k
    · exact ⟨v', by simp [JsObj.get?, hk]⟩
    · simp only [JsObj.created, List.map_cons, List.mem_cons] at h
      rcases h with h | h
      · exact absurd h.symm hk
      · obtain ⟨v, hv⟩ := ih h
        exact ⟨v, by simp [JsObj.get?, hk, hv]⟩

theorem JsObj.entries_fst {α : Type} (o : JsObj α) :
    (JsObj.entries o).map Prod.fst = JsObj.keys o := by
  have hall : ∀ k ∈ JsObj.keys o, ∃ v, JsObj.get? o k = some v := fun k hk =>
    JsObj.get?_isSome_of_mem o k ((JsObj.keys_perm_created o).subset hk)
  simp only [JsObj.entries]
  generalize JsObj.keys o = ks at hall
  induction ks with
  | nil => rfl
  | cons k ks ih =>
    obtain ⟨v, hv⟩ := hall k (List.mem_cons_self _ _)
    simp only [List.filterMap_cons, hv, Option.map_some', List.map_cons]
    rw [ih (fun k' hk' => hall k' (List.mem_cons_of_mem _ hk'))]

theorem join_foldl_init (l : List String) (a : String) :
    l.foldl (fun r s => r ++ s) a = a ++ String.join l := by
  induction l generalizing a with
  | nil => simp [String.join]
  | cons s l ih =>
    simp only [List.foldl_cons, String.join]
    rw [ih (a ++ s), ih ("" ++ s)]
    simp [String.append_assoc]

theorem foldl_entries {α : Type} (o : JsObj α) (f : String → α → String)
    (F : String → String → String)
    (hF : ∀ acc k, F acc k = (JsObj.get? o k).elim acc (fun v => acc ++ f k v))
    (ks : List String) :
    ∀ init : String,
      ks.foldl F init
        = init ++ String.join
            ((ks.filterMap (fun k => (JsObj.get? o k).map (fun v => (k, v)))).map
              (fun kv => f kv.1 kv.2)) := by
  induction ks with
  | nil => intro init; simp [String.join]
  | cons k ks ih =>
    intro init
    simp only [List.foldl_cons, List.filterMap_cons, hF]
    cases hg : JsObj.get? o k with
    | none => simp only [Option.map_none', Option.elim]; exact ih init
    | some v =>
      simp only [Option.map_some', List.map_cons, String.join, List.foldl_cons, Option.elim]
      rw [ih (init ++ f k v), join_foldl_init _ ("" ++ f k v)]
      simp [String.append_assoc]

/-- C13: for absent props `generateModsPart` gives the empty string; otherwise
it gives one switch construct per own modifier name, in `Object.keys` order,
each selecting on `props['<name>']` and holding one case branch per own value
of the modifier (the branch imports the value's cssPath and appends a blank
and the value's className to `className`), closed by one `default: break;`
branch. Every own key is listed exactly once. -/
theorem C13_switch_per_name (p : PropsInfo) :
    generateModsPart none = ""
    ∧ generateModsPart (some p)
        = String.join ((JsObj.entries p).map (fun nq => "\n" ++ switchPropTemplate nq.2 nq.1))
    ∧ (∀ (q : JsObj StyleRef) (n : String),
        switchPropTemplate q n
          = "\tswitch (props[\x27" ++ n ++ "\x27]) \x7b"
            ++ String.join ((JsObj.entries q).map (fun vr =>
                "\n\t\tcase \x27" ++ vr.1 ++ "\x27: \x7b\n\t\t\timport \x27" ++ vr.2.cssPath
                ++ "\x27;\n\t\t\tclassName += \x27 " ++ vr.2.className
                ++ "\x27;\n\t\t\tbreak;\n\t\t\x7d"))
            ++ "\n\t\tdefault: break;\n\t\x7d\n")
    ∧ (∀ {α : Type} (o : JsObj α),
        (JsObj.entries o).map Prod.fst = JsObj.keys o
        ∧ (JsObj.keys o).Perm (JsObj.created o)
        ∧ ((JsObj.created o).Nodup → (JsObj.keys o).Nodup)) := by
  refine ⟨rfl, ?_, ?_, ?_⟩
  · simp only [generateModsPart]
    refine (foldl_entries p (fun n q => "\n" ++ switchPropTemplate q n) _ ?_ _ _).trans ?_
    · intro acc k
      cases JsObj.get? p k <;> simp [String.append_assoc]
    · simp [JsObj.entries]
  · intro q n
    have h : casePart q = String.join ((JsObj.entries q).map (fun vr => caseBranch vr.1 vr.2)) := by
      simp only [casePart]
      refine (foldl_entries q caseBranch _ ?_ _ _).trans ?_
      · intro acc k
        cases JsObj.get? q k <;> simp
      · simp [JsObj.entries]
    simp only [switchPropTemplate, h, caseBranch]
  · intro α o
    exact ⟨JsObj.entries_fst o, JsObj.keys_perm_created o,
      fun h => (JsObj.keys_perm_created o).nodup_iff.mpr h⟩

/-- C13 on the props object with the single modifier `size` and its value
`big`. -/
theorem C13_switch_per_name_witness :
    generateModsPart (some [("size", [("big", ⟨"b_size_big", "./css/b_size_big.post.css"⟩)])])
      = String.join ((JsObj.entries
            [("size", [("big", (⟨"b_size_big", "./css/b_size_big.post.css"⟩ : StyleRef))])]).map
          (fun nq => "\n" ++ switchPropTemplate nq.2 nq.1)) :=
  (C13_switch_per_name
    [("size", [("big", ⟨"b_size_big", "./css/b_size_big.post.css"⟩)])]).2.1


/-! ## Searching the emitted text -/

theorem scan_append (needle : List Char) (s : Nat) (a b : List Char) :
    scan needle s (a ++ b) = scan needle (scan needle s a) b := by
  simp [scan, List.foldl_append]

theorem scanStep_le (needle : List Char) (s : Nat) (c : Char) (h : s ≤ needle.length) :
    scanStep needle s c ≤ needle.length := by
  simp only [scanStep]
  split
  · exact h
  · split
    · omega
    · split <;> omega

theorem scan_le (needle : List Char) (text : List Char) :
    ∀ s, s ≤ needle.length → scan needle s text ≤ needle.length := by
  induction text with
  | nil => intro s h; exact h
  | cons c text ih =>
    intro s h
    exact ih _ (scanStep_le needle s c h)

theorem scan_complete (needle : List Char) (text : List Char) :
    scan needle needle.length text = needle.length := by
  induction text with
  | nil => rfl
  | cons c text ih =>
    simp only [scan, List.foldl_cons] at ih ⊢
    have : scanStep needle needle.length c = needle.length := by simp [scanStep]
    rw [this]
    exact ih

/-- The search finds every occurrence, for a needle that it matches from every
state. -/
theorem scan_of_occursIn (needle text : List Char)
    (hfull : ∀ s, s < needle.length → scan needle s needle = needle.length)
    (h : occursIn needle text) : scan needle 0 text = needle.length := by
  obtain ⟨pre, post, rfl⟩ := h
  rw [scan_append, scan_append]
  have h1 : scan needle 0 pre ≤ needle.length := scan_le needle pre 0 (Nat.zero_le _)
  have h2 : scan needle (scan needle 0 pre) needle = needle.length := by
    rcases Nat.lt_or_eq_of_le h1 with h | h
    · exact hfull _ h
    · rw [h]; exact scan_complete needle needle
  rw [h2]
  exact scan_complete needle post

theorem not_occursIn_of_safe (needle text : List Char) (k : Nat)
    (hfull : ∀ s, s < needle.length → scan needle s needle = needle.length)
    (hk : k < needle.length) (hs : Safe needle k text) : ¬ occursIn needle text := by
  intro h
  have h1 := scan_of_occursIn needle text hfull h
  have h2 := hs 0 (Nat.zero_le _)
  omega

theorem Safe.nil (needle : List Char) (k : Nat) : Safe needle k [] := fun _ h => h

theorem Safe.append {needle : List Char} {k : Nat} {a b : List Char}
    (ha : Safe needle k a) (hb : Safe needle k b) : Safe needle k (a ++ b) := by
  intro s hs
  rw [scan_append]
  exact hb _ (ha s hs)

/-- A piece without the character that the needle has at index `k` cannot
carry a match past `k` characters. -/
theorem safe_of_guard (needle : List Char) (k : Nat) (g : Char)
    (hk : needle.get? k = some g) (piece : List Char) (hg : g ∉ piece) :
    Safe needle k piece := by
  induction piece with
  | nil => exact Safe.nil needle k
  | cons c piece ih =>
    intro s hs
    have hc : c ≠ g := fun h => hg (h ▸ List.mem_cons_self _ _)
    have hrest : g ∉ piece := fun h => hg (List.mem_cons_of_mem _ h)
    refine ih hrest _ ?_
    simp only [scanStep]
    split
    · exact hs
    · split
      · rename_i h1 h2
        rcases Nat.lt_or_eq_of_le hs with h | h
        · omega
        · subst h
          rw [hk] at h2
          exact absurd (Option.some.inj h2).symm hc
      · split
        · rename_i h3
          rcases Nat.eq_zero_or_pos k with h0 | h0
          · subst h0
            have : needle.head? = needle.get? 0 := by cases needle <;> rfl
            rw [this, hk] at h3
            exact absurd (Option.some.inj h3).symm hc
          · exact h0
        · exact Nat.zero_le _

theorem join_data (l : List String) :
    (String.join l).data = (l.map String.data).foldr (fun a acc => a ++ acc) [] := by
  induction l with
  | nil => rfl
  | cons s l ih =>
    simp only [String.join, List.foldl_cons, List.map_cons, List.foldr_cons]
    rw [join_foldl_init, String.data_append, String.data_append, ih]
    rfl

theorem safe_join (needle : List Char) (k : Nat) (l : List String)
    (h : ∀ s ∈ l, Safe needle k s.data) : Safe needle k (String.join l).data := by
  rw [join_data]
  induction l with
  | nil => exact Safe.nil needle k
  | cons s l ih =>
    simp only [List.map_cons, List.foldr_cons]
    exact Safe.append (h s (List.mem_cons_self _ _))
      (ih (fun t ht => h t (List.mem_cons_of_mem _ ht)))


/-! ## C12: when a stylesheet import is emitted -/

theorem JsObj.get?_mapVal {α β : Type} (f : α → β) (o : JsObj α) (k : String) :
    JsObj.get? (o.map (fun kv => (kv.1, f kv.2))) k = (JsObj.get? o k).map f := by
  induction o with
  | nil => rfl
  | cons p o ih =>
    obtain ⟨k', v⟩ := p
    by_cases h : k' = k
    · simp [JsObj.get?, h]
    · simp only [List.map_cons, JsObj.get?, h, if_false]
      exact ih

theorem JsObj.indexKeys_mapVal {α β : Type} (f : α → β) (o : JsObj α) :
    JsObj.indexKeys (o.map (fun kv => (kv.1, f kv.2))) = JsObj.indexKeys o := by
  induction o with
  | nil => rfl
  | cons p o ih =>
    obtain ⟨k, v⟩ := p
    simp only [List.map_cons, JsObj.indexKeys, ih]

theorem JsObj.stringKeys_mapVal {α β : Type} (f : α → β) (o : JsObj α) :
    JsObj.stringKeys (o.map (fun kv => (kv.1, f kv.2))) = JsObj.stringKeys o := by
  induction o with
  | nil => rfl
  | cons p o ih =>
    obtain ⟨k, v⟩ := p
    simp only [List.map_cons, JsObj.stringKeys, ih]

theorem JsObj.keys_mapVal {α β : Type} (f : α → β) (o : JsObj α) :
    JsObj.keys (o.map (fun kv => (kv.1, f kv.2))) = JsObj.keys o := by
  simp only [JsObj.keys, JsObj.indexKeys_mapVal, JsObj.stringKeys_mapVal]

/-- The template on `StyleRef`s is the template on their records. -/
theorem switchPropTemplate_eq_raw (q : JsObj StyleRef) (n : String) :
    switchPropTemplate q n
      = switchPropTemplateRaw (q.map (fun kv => (kv.1, kv.2.toRaw))) n := by
  simp only [switchPropTemplate, casePart, switchPropTemplateRaw, JsObj.keys_mapVal]
  congr 2
  apply List.foldl_ext
  intro acc k _
  rw [JsObj.get?_mapVal]
  cases JsObj.get? q k <;> rfl

theorem importNeedle_full :
    ∀ s, s < importNeedle.length → scan importNeedle s importNeedle = importNeedle.length := by
  decide

theorem importNeedle_guard : importNeedle.get? 6 = some ' ' := by decide

theorem safeS_append {needle : List Char} {k : Nat} {a b : String}
    (ha : SafeS needle k a) (hb : SafeS needle k b) : SafeS needle k (a ++ b) := by
  constructor
  rw [String.data_append]
  exact Safe.append ha.safe hb.safe

theorem safeS_of_guard (needle : List Char) (k : Nat) (g : Char)
    (hk : needle.get? k = some g) (piece : String) (hg : g ∉ piece.data) :
    SafeS needle k piece :=
  ⟨safe_of_guard needle k g hk piece.data hg⟩

theorem mainTemplate_no_import (n c : String) (css : Option String)
    (hcss : truthy css = false) (hn : ' ' ∉ n.data) (hc : ' ' ∉ c.data) :
    ¬ occursIn importNeedle (mainTemplate n c css "" "").data := by
  have sn := safeS_of_guard importNeedle 6 ' ' importNeedle_guard n hn
  have sc := safeS_of_guard importNeedle 6 ' ' importNeedle_guard c hc
  have h : SafeS importNeedle 6 (mainTemplate n c css "" "") := by
    simp only [mainTemplate, hcss, Bool.false_eq_true, if_false, bne_self_eq_false]
    repeat' (first
      | (guard_target = SafeS _ _ (_ ++ _); apply safeS_append)
      | (guard_target = SafeS _ _ n; exact sn)
      | (guard_target = SafeS _ _ c; exact sc)
      | exact ⟨by unfold Safe; decide⟩)
  exact not_occursIn_of_safe importNeedle _ 6 importNeedle_full (by decide) h.safe

theorem elemTemplate_no_import (o n c : String) (css : Option String)
    (hcss : truthy css = false) (ho : ' ' ∉ o.data) (hn : ' ' ∉ n.data)
    (hc : ' ' ∉ c.data) :
    ¬ occursIn importNeedle (elemTemplate o n c css "").data := by
  have so := safeS_of_guard importNeedle 6 ' ' importNeedle_guard o ho
  have sn := safeS_of_guard importNeedle 6 ' ' importNeedle_guard n hn
  have sc := safeS_of_guard importNeedle 6 ' ' importNeedle_guard c hc
  have h : SafeS importNeedle 6 (elemTemplate o n c css "") := by
    simp only [elemTemplate, hcss, Bool.false_eq_true, if_false, bne_self_eq_false]
    repeat' (first
      | (guard_target = SafeS _ _ (_ ++ _); apply safeS_append)
      | (guard_target = SafeS _ _ o; exact so)
      | (guard_target = SafeS _ _ n; exact sn)
      | (guard_target = SafeS _ _ c; exact sc)
      | exact ⟨by unfold Safe; decide⟩)
  exact not_occursIn_of_safe importNeedle _ 6 importNeedle_full (by decide) h.safe

theorem occursIn_mid (a b c : String) : occursIn b.data (a ++ b ++ c).data :=
  ⟨a.data, c.data, by simp [String.data_append]⟩

theorem occursIn_append_right (needle : List Char) (a b : String)
    (h : occursIn needle a.data) : occursIn needle (a ++ b).data := by
  obtain ⟨pre, post, hp⟩ := h
  exact ⟨pre, post ++ b.data, by simp [String.data_append, hp]⟩

theorem occursIn_suffix (a b : String) : occursIn b.data (a ++ b).data :=
  ⟨a.data, [], by simp [String.data_append]⟩

theorem mainTemplate_import (n c p m e : String) (hp : p ≠ "") :
    occursIn ("import \x27" ++ p ++ "\x27;\n").data (mainTemplate n c (some p) m e).data := by
  have ht : truthy (some p) = true := by simp [truthy, hp]
  simp only [mainTemplate, ht, if_true, jsStr]
  repeat (first
    | (guard_target = occursIn _ (_ ++ ("import \x27" ++ p ++ "\x27;\n")).data
       exact occursIn_suffix _ _)
    | apply occursIn_append_right)

theorem elemTemplate_import (o n c p m : String) (hp : p ≠ "") :
    occursIn ("import \x27" ++ p ++ "\x27;\n").data (elemTemplate o n c (some p) m).data := by
  have ht : truthy (some p) = true := by simp [truthy, hp]
  simp only [elemTemplate, ht, if_true, jsStr]
  repeat (first
    | (guard_target = occursIn _ (_ ++ ("\n\timport \x27" ++ p ++ "\x27;\n")).data
       exact ⟨(o ++ "." ++ n ++ " = (props) => \x7b").data ++ "\n\t".data, [], by
        simp only [String.data_append, List.append_assoc, List.append_nil]
        rfl⟩)
    | apply occursIn_append_right)

theorem caseBranch_import (v : String) (r : StyleRef) :
    occursIn ("import \x27" ++ r.cssPath ++ "\x27;").data (caseBranch v r).data :=
  ⟨("\n\t\tcase \x27" ++ v ++ "\x27: \x7b\n\t\t\t").data,
   ("\n\t\t\tclassName += \x27 " ++ r.className ++ "\x27;\n\t\t\tbreak;\n\t\t\x7d").data, by
    simp only [caseBranch, String.data_append, List.append_assoc]
    rfl⟩

theorem occursIn_append_left (needle : List Char) (a b : String)
    (h : occursIn needle b.data) : occursIn needle (a ++ b).data := by
  obtain ⟨pre, post, hp⟩ := h
  exact ⟨a.data ++ pre, post, by simp [String.data_append, hp]⟩

theorem occursIn_join (needle : List Char) (l : List String) (s : String) (hs : s ∈ l)
    (h : occursIn needle s.data) : occursIn needle (String.join l).data := by
  induction l with
  | nil => cases hs
  | cons t l ih =>
    have hj : String.join (t :: l) = t ++ String.join l := by
      simp only [String.join, List.foldl_cons]
      rw [join_foldl_init]
      simp [String.join]
    rw [hj]
    rcases List.mem_cons.mp hs with rfl | hs'
    · exact occursIn_append_right needle _ _ h
    · exact occursIn_append_left needle _ _ (ih hs')

theorem switchPropTemplate_import (q : JsObj StyleRef) (n v : String) (r : StyleRef)
    (h : (v, r) ∈ JsObj.entries q) :
    occursIn ("import \x27" ++ r.cssPath ++ "\x27;").data (switchPropTemplate q n).data := by
  have hc : casePart q = String.join ((JsObj.entries q).map (fun vr => caseBranch vr.1 vr.2)) := by
    simp only [casePart]
    refine (foldl_entries q caseBranch _ ?_ _ _).trans ?_
    · intro acc k
      cases JsObj.get? q k <;> simp
    · simp [JsObj.entries]
  simp only [switchPropTemplate, hc]
  apply occursIn_append_right
  apply occursIn_append_left
  exact occursIn_join _ _ (caseBranch v r)
    (List.mem_map.mpr ⟨(v, r), h, rfl⟩) (caseBranch_import v r)

/-- C12, as the code has it: `mainTemplate` and `elemTemplate` emit a
stylesheet import exactly when the cssPath is present (non-empty): with an
absent cssPath and empty parts their text holds no `import '` (names without
blanks), and with a cssPath it holds the import of that path.
`switchPropTemplate` has no such test: it emits an import for every value,
with the cssPath of the value's `StyleRef`, which is always there. -/
theorem C12_import_only_with_cssPath :
    (∀ (n c : String) (css : Option String),
        truthy css = false → ' ' ∉ n.data → ' ' ∉ c.data →
        ¬ occursIn importNeedle (mainTemplate n c css "" "").data)
    ∧ (∀ (o n c : String) (css : Option String),
        truthy css = false → ' ' ∉ o.data → ' ' ∉ n.data → ' ' ∉ c.data →
        ¬ occursIn importNeedle (elemTemplate o n c css "").data)
    ∧ (∀ (n c p m e : String), p ≠ "" →
        occursIn ("import \x27" ++ p ++ "\x27;\n").data (mainTemplate n c (some p) m e).data)
    ∧ (∀ (o n c p m : String), p ≠ "" →
        occursIn ("import \x27" ++ p ++ "\x27;\n").data (elemTemplate o n c (some p) m).data)
    ∧ (∀ (q : JsObj StyleRef) (n v : String) (r : StyleRef), (v, r) ∈ JsObj.entries q →
        occursIn ("import \x27" ++ r.cssPath ++ "\x27;").data (switchPropTemplate q n).data)
    ∧ (∀ (q : JsObj StyleRef) (n : String),
        switchPropTemplate q n
          = switchPropTemplateRaw (q.map (fun kv => (kv.1, kv.2.toRaw))) n) :=
  ⟨mainTemplate_no_import, elemTemplate_no_import, mainTemplate_import, elemTemplate_import,
    switchPropTemplate_import, switchPropTemplate_eq_raw⟩

/-- C12 on the block `MyBlock` without a root stylesheet: no import is
emitted. -/
theorem C12_import_only_with_cssPath_witness :
    ¬ occursIn importNeedle (mainTemplate "MyBlock" "my-block" none "" "").data :=
  C12_import_only_with_cssPath.1 "MyBlock" "my-block" none rfl (by decide) (by decide)

/-- C12 as stated fails: called with a value whose record has no cssPath,
`switchPropTemplate` still emits an import line, for the path `undefined`. -/
theorem C12_switch_imports_without_cssPath :
    occursIn "import \x27undefined\x27;".data
        (switchPropTemplateRaw [("red", ⟨some "b_theme_red", none⟩)] "theme").data
    ∧ occursIn importNeedle
        (switchPropTemplateRaw [("red", ⟨some "b_theme_red", none⟩)] "theme").data :=
  ⟨⟨"\tswitch (props[\x27theme\x27]) \x7b\n\t\tcase \x27red\x27: \x7b\n\t\t\t".data,
     "\n\t\t\tclassName += \x27 b_theme_red\x27;\n\t\t\tbreak;\n\t\t\x7d\n\t\tdefault: break;\n\t\x7d\n".data,
     by decide⟩,
   ⟨"\tswitch (props[\x27theme\x27]) \x7b\n\t\tcase \x27red\x27: \x7b\n\t\t\t".data,
     "undefined\x27;\n\t\t\tclassName += \x27 b_theme_red\x27;\n\t\t\tbreak;\n\t\t\x7d\n\t\tdefault: break;\n\t\x7d\n".data,
     by decide⟩⟩


/-! ## C19: `let` or `const` for `className` -/

theorem JsObj.mem_of_get? {α : Type} (o : JsObj α) (k : String) (v : α)
    (h : JsObj.get? o k = some v) : (k, v) ∈ o := by
  induction o with
  | nil => simp [JsObj.get?] at h
  | cons p o ih =>
    obtain ⟨k', v'⟩ := p
    by_cases hk : k' = k
    · simp only [JsObj.get?, hk, if_true, Option.some.injEq] at h
      subst hk; subst h
      exact List.mem_cons_self _ _
    · simp only [JsObj.get?, hk, if_false] at h
      exact List.mem_cons_of_mem _ (ih h)

theorem JsObj.mem_of_mem_entries {α : Type} (o : JsObj α) (kv : String × α)
    (h : kv ∈ JsObj.entries o) : kv ∈ o := by
  simp only [JsObj.entries, List.mem_filterMap, Option.map_eq_some'] at h
  obtain ⟨k, _, v, hv, rfl⟩ := h
  exact JsObj.mem_of_get? o k v hv

theorem casePart_eq_join (q : JsObj StyleRef) :
    casePart q = String.join ((JsObj.entries q).map (fun vr => caseBranch vr.1 vr.2)) := by
  simp only [casePart]
  refine (foldl_entries q caseBranch _ ?_ _ _).trans ?_
  · intro acc k
    cases JsObj.get? q k <;> simp
  · simp [JsObj.entries]

theorem generateModsPart_eq_join (p : PropsInfo) :
    generateModsPart (some p)
      = String.join ((JsObj.entries p).map (fun nq => "\n" ++ switchPropTemplate nq.2 nq.1)) := by
  simp only [generateModsPart]
  refine (foldl_entries p (fun n q => "\n" ++ switchPropTemplate q n) _ ?_ _ _).trans ?_
  · intro acc k
    cases JsObj.get? p k <;> simp [String.append_assoc]
  · simp [JsObj.entries]

theorem safeS_join (needle : List Char) (k : Nat) (l : List String)
    (h : ∀ s ∈ l, SafeS needle k s) : SafeS needle k (String.join l) :=
  ⟨safe_join needle k l (fun s hs => (h s hs).safe)⟩

theorem constNeedle_full :
    ∀ s, s < constNeedle.length → scan constNeedle s constNeedle = constNeedle.length := by
  decide

theorem letNeedle_full :
    ∀ s, s < letNeedle.length → scan letNeedle s letNeedle = letNeedle.length := by
  decide

theorem plusNeedle_full :
    ∀ s, s < plusNeedle.length → scan plusNeedle s plusNeedle = plusNeedle.length := by
  decide

theorem safeS_caseBranch (v : String) (r : StyleRef) (hv : noTab v)
    (hc : noTab r.className) (hp : noTab r.cssPath) :
    SafeS constNeedle 0 (caseBranch v r) := by
  have sv := safeS_of_guard constNeedle 0 '\t' (by decide) v hv
  have sc := safeS_of_guard constNeedle 0 '\t' (by decide) r.className hc
  have sp := safeS_of_guard constNeedle 0 '\t' (by decide) r.cssPath hp
  simp only [caseBranch]
  repeat' (first
    | (guard_target = SafeS _ _ (_ ++ _); apply safeS_append)
    | (guard_target = SafeS _ _ v; exact sv)
    | (guard_target = SafeS _ _ r.className; exact sc)
    | (guard_target = SafeS _ _ r.cssPath; exact sp)
    | exact ⟨by unfold Safe; decide⟩)

theorem safeS_switchPropTemplate (q : JsObj StyleRef) (n : String) (hn : noTab n)
    (hq : ∀ vr ∈ q, noTab vr.1 ∧ noTab vr.2.className ∧ noTab vr.2.cssPath) :
    SafeS constNeedle 0 (switchPropTemplate q n) := by
  have sn := safeS_of_guard constNeedle 0 '\t' (by decide) n hn
  have sq : SafeS constNeedle 0 (casePart q) := by
    rw [casePart_eq_join]
    apply safeS_join
    intro s hs
    obtain ⟨vr, hvr, rfl⟩ := List.mem_map.mp hs
    obtain ⟨h1, h2, h3⟩ := hq vr (JsObj.mem_of_mem_entries q vr hvr)
    exact safeS_caseBranch vr.1 vr.2 h1 h2 h3
  simp only [switchPropTemplate]
  repeat' (first
    | (guard_target = SafeS _ _ (_ ++ _); apply safeS_append)
    | (guard_target = SafeS _ _ n; exact sn)
    | (guard_target = SafeS _ _ (casePart q); exact sq)
    | exact ⟨by unfold Safe; decide⟩)

theorem safeS_generateModsPart (props : Option PropsInfo) (h : noTabProps props) :
    SafeS constNeedle 0 (generateModsPart props) := by
  cases props with
  | none => exact ⟨by unfold Safe; decide⟩
  | some p =>
    rw [generateModsPart_eq_join]
    apply safeS_join
    intro s hs
    obtain ⟨nq, hnq, rfl⟩ := List.mem_map.mp hs
    obtain ⟨h1, h2⟩ := h nq (JsObj.mem_of_mem_entries p nq hnq)
    exact safeS_append ⟨by unfold Safe; decide⟩ (safeS_switchPropTemplate nq.2 nq.1 h1 h2)


theorem generateModsPart_eq_empty (props : Option PropsInfo) :
    generateModsPart props = "" ↔ JsObj.entries (props.getD []) = [] := by
  cases props with
  | none => simp [generateModsPart, JsObj.entries, JsObj.keys, JsObj.indexKeys, JsObj.stringKeys]
  | some p =>
    rw [generateModsPart_eq_join]
    simp only [Option.getD_some]
    cases h : JsObj.entries p with
    | nil => simp [String.join]
    | cons x xs =>
      simp only [List.map_cons, reduceCtorEq, iff_false]
      intro hj
      have hd := congrArg String.data hj
      rw [join_data] at hd
      simp [String.data_append] at hd

theorem occursIn_span (a b c d : String) (x needle y : List Char)
    (h : b.data ++ c.data ++ d.data = x ++ needle ++ y) :
    occursIn needle (a ++ b ++ c ++ d).data :=
  ⟨a.data ++ x, y, by
    simp only [String.data_append, List.append_assoc] at h ⊢
    rw [h]⟩

theorem occursIn_prefix (a b text : List Char) (h : occursIn (a ++ b) text) :
    occursIn a text := by
  obtain ⟨pre, post, hp⟩ := h
  exact ⟨pre, b ++ post, by simp [hp]⟩


theorem letNeedle_guard : letNeedle.get? 0 = some '\t' := by decide

theorem constNeedle_guard : constNeedle.get? 0 = some '\t' := by decide

theorem plusNeedle_guard : plusNeedle.get? 10 = some '+' := by decide

theorem safeS_append3 {needle : List Char} {k : Nat} {a x y : String}
    (ha : SafeS needle k a) (hxy : Safe needle k (x.data ++ y.data)) :
    SafeS needle k (a ++ x ++ y) :=
  ⟨by
    simp only [String.data_append, List.append_assoc]
    exact Safe.append ha.safe hxy⟩

theorem mainTemplate_const_no_let (n c : String) (css : Option String)
    (hn : noTab n) (hc : noTab c) (hp : noTab (jsStr css)) :
    ¬ occursIn letNeedle (mainTemplate n c css "" "").data := by
  have sn := safeS_of_guard letNeedle 0 '\t' letNeedle_guard n hn
  have sc := safeS_of_guard letNeedle 0 '\t' letNeedle_guard c hc
  have sp := safeS_of_guard letNeedle 0 '\t' letNeedle_guard (jsStr css) hp
  have h : SafeS letNeedle 0 (mainTemplate n c css "" "") := by
    cases hcss : truthy css <;>
    simp only [mainTemplate, hcss, Bool.false_eq_true, if_false, if_true, bne_self_eq_false] <;>
    repeat' (first
      | (guard_target = SafeS _ _ (_ ++ _ ++ "const"); apply safeS_append3)
      | (guard_target = Safe _ _ _; unfold Safe; decide)
      | (guard_target = SafeS _ _ (_ ++ _); apply safeS_append)
      | (guard_target = SafeS _ _ n; exact sn)
      | (guard_target = SafeS _ _ c; exact sc)
      | (guard_target = SafeS _ _ (jsStr css); exact sp)
      | exact ⟨by unfold Safe; decide⟩)
  exact not_occursIn_of_safe letNeedle _ 0 letNeedle_full (by decide) h.safe

theorem mainTemplate_const_no_plus (n c : String) (css : Option String)
    (hn : noPlus n) (hc : noPlus c) (hp : noPlus (jsStr css)) :
    ¬ occursIn plusNeedle (mainTemplate n c css "" "").data := by
  have sn := safeS_of_guard plusNeedle 10 '+' plusNeedle_guard n hn
  have sc := safeS_of_guard plusNeedle 10 '+' plusNeedle_guard c hc
  have sp := safeS_of_guard plusNeedle 10 '+' plusNeedle_guard (jsStr css) hp
  have h : SafeS plusNeedle 10 (mainTemplate n c css "" "") := by
    cases hcss : truthy css <;>
    simp only [mainTemplate, hcss, Bool.false_eq_true, if_false, if_true, bne_self_eq_false] <;>
    repeat' (first
      | (guard_target = SafeS _ _ (_ ++ _ ++ "const"); apply safeS_append3)
      | (guard_target = Safe _ _ _; unfold Safe; decide)
      | (guard_target = SafeS _ _ (_ ++ _); apply safeS_append)
      | (guard_target = SafeS _ _ n; exact sn)
      | (guard_target = SafeS _ _ c; exact sc)
      | (guard_target = SafeS _ _ (jsStr css); exact sp)
      | exact ⟨by unfold Safe; decide⟩)
  exact not_occursIn_of_safe plusNeedle _ 10 plusNeedle_full (by decide) h.safe

theorem mainTemplate_let_no_const (n c m : String) (css : Option String)
    (hm : m ≠ "") (hn : noTab n) (hc : noTab c) (hp : noTab (jsStr css))
    (sm : SafeS constNeedle 0 m) :
    ¬ occursIn constNeedle (mainTemplate n c css m "").data := by
  have sn := safeS_of_guard constNeedle 0 '\t' constNeedle_guard n hn
  have sc := safeS_of_guard constNeedle 0 '\t' constNeedle_guard c hc
  have sp := safeS_of_guard constNeedle 0 '\t' constNeedle_guard (jsStr css) hp
  have hb : (m != "") = true := by simpa using hm
  have h : SafeS constNeedle 0 (mainTemplate n c css m "") := by
    cases hcss : truthy css <;>
    simp only [mainTemplate, hcss, hb, Bool.false_eq_true, if_false, if_true] <;>
    repeat' (first
      | (guard_target = SafeS _ _ (_ ++ _ ++ "let"); apply safeS_append3)
      | (guard_target = Safe _ _ _; unfold Safe; decide)
      | (guard_target = SafeS _ _ (_ ++ _); apply safeS_append)
      | (guard_target = SafeS _ _ n; exact sn)
      | (guard_target = SafeS _ _ c; exact sc)
      | (guard_target = SafeS _ _ m; exact sm)
      | (guard_target = SafeS _ _ (jsStr css); exact sp)
      | exact ⟨by unfold Safe; decide⟩)
  exact not_occursIn_of_safe constNeedle _ 0 constNeedle_full (by decide) h.safe

theorem elemTemplate_const_no_let (o n c : String) (css : Option String)
    (ho : noTab o) (hn : noTab n) (hc : noTab c) (hp : noTab (jsStr css)) :
    ¬ occursIn letNeedle (elemTemplate o n c css "").data := by
  have so := safeS_of_guard letNeedle 0 '\t' letNeedle_guard o ho
  have sn := safeS_of_guard letNeedle 0 '\t' letNeedle_guard n hn
  have sc := safeS_of_guard letNeedle 0 '\t' letNeedle_guard c hc
  have sp := safeS_of_guard letNeedle 0 '\t' letNeedle_guard (jsStr css) hp
  have h : SafeS letNeedle 0 (elemTemplate o n c css "") := by
    cases hcss : truthy css <;>
    simp only [elemTemplate, hcss, Bool.false_eq_true, if_false, if_true, bne_self_eq_false] <;>
    repeat' (first
      | (guard_target = SafeS _ _ (_ ++ _ ++ "const"); apply safeS_append3)
      | (guard_target = Safe _ _ _; unfold Safe; decide)
      | (guard_target = SafeS _ _ (_ ++ _); apply safeS_append)
      | (guard_target = SafeS _ _ o; exact so)
      | (guard_target = SafeS _ _ n; exact sn)
      | (guard_target = SafeS _ _ c; exact sc)
      | (guard_target = SafeS _ _ (jsStr css); exact sp)
      | exact ⟨by unfold Safe; decide⟩)
  exact not_occursIn_of_safe letNeedle _ 0 letNeedle_full (by decide) h.safe

theorem elemTemplate_const_no_plus (o n c : String) (css : Option String)
    (ho : noPlus o) (hn : noPlus n) (hc : noPlus c) (hp : noPlus (jsStr css)) :
    ¬ occursIn plusNeedle (elemTemplate o n c css "").data := by
  have so := safeS_of_guard plusNeedle 10 '+' plusNeedle_guard o ho
  have sn := safeS_of_guard plusNeedle 10 '+' plusNeedle_guard n hn
  have sc := safeS_of_guard plusNeedle 10 '+' plusNeedle_guard c hc
  have sp := safeS_of_guard plusNeedle 10 '+' plusNeedle_guard (jsStr css) hp
  have h : SafeS plusNeedle 10 (elemTemplate o n c css "") := by
    cases hcss : truthy css <;>
    simp only [elemTemplate, hcss, Bool.false_eq_true, if_false, if_true, bne_self_eq_false] <;>
    repeat' (first
      | (guard_target = SafeS _ _ (_ ++ _ ++ "const"); apply safeS_append3)
      | (guard_target = Safe _ _ _; unfold Safe; decide)
      | (guard_target = SafeS _ _ (_ ++ _); apply safeS_append)
      | (guard_target = SafeS _ _ o; exact so)
      | (guard_target = SafeS _ _ n; exact sn)
      | (guard_target = SafeS _ _ c; exact sc)
      | (guard_target = SafeS _ _ (jsStr css); exact sp)
      | exact ⟨by unfold Safe; decide⟩)
  exact not_occursIn_of_safe plusNeedle _ 10 plusNeedle_full (by decide) h.safe

theorem elemTemplate_let_no_const (o n c m : String) (css : Option String)
    (hm : m ≠ "") (ho : noTab o) (hn : noTab n) (hc : noTab c) (hp : noTab (jsStr css))
    (sm : SafeS constNeedle 0 m) :
    ¬ occursIn constNeedle (elemTemplate o n c css m).data := by
  have so := safeS_of_guard constNeedle 0 '\t' constNeedle_guard o ho
  have sn := safeS_of_guard constNeedle 0 '\t' constNeedle_guard n hn
  have sc := safeS_of_guard constNeedle 0 '\t' constNeedle_guard c hc
  have sp := safeS_of_guard constNeedle 0 '\t' constNeedle_guard (jsStr css) hp
  have hb : (m != "") = true := by simpa using hm
  have h : SafeS constNeedle 0 (elemTemplate o n c css m) := by
    cases hcss : truthy css <;>
    simp only [elemTemplate, hcss, hb, Bool.false_eq_true, if_false, if_true] <;>
    repeat' (first
      | (guard_target = SafeS _ _ (_ ++ _ ++ "let"); apply safeS_append3)
      | (guard_target = Safe _ _ _; unfold Safe; decide)
      | (guard_target = SafeS _ _ (_ ++ _); apply safeS_append)
      | (guard_target = SafeS _ _ o; exact so)
      | (guard_target = SafeS _ _ n; exact sn)
      | (guard_target = SafeS _ _ c; exact sc)
      | (guard_target = SafeS _ _ m; exact sm)
      | (guard_target = SafeS _ _ (jsStr css); exact sp)
      | exact ⟨by unfold Safe; decide⟩)
  exact not_occursIn_of_safe constNeedle _ 0 constNeedle_full (by decide) h.safe


theorem mainTemplate_const_decl (n c : String) (css : Option String) :
    occursIn constDecl (mainTemplate n c css "" "").data := by
  simp only [mainTemplate, bne_self_eq_false, Bool.false_eq_true, if_false]
  repeat (first
    | (guard_target = occursIn _ (_ ++ _ ++ "const" ++ _).data
       exact occursIn_span _ _ _ _ " = (props) => \x7b\n".data _ "props.className ? `".data rfl)
    | apply occursIn_append_right)

theorem mainTemplate_let_decl (n c m : String) (css : Option String) (hm : m ≠ "") :
    occursIn letDecl (mainTemplate n c css m "").data := by
  have hb : (m != "") = true := by simpa using hm
  simp only [mainTemplate, hb, if_true]
  repeat (first
    | (guard_target = occursIn _ (_ ++ _ ++ "let" ++ _).data
       exact occursIn_span _ _ _ _ " = (props) => \x7b\n".data _ "props.className ? `".data rfl)
    | apply occursIn_append_right)

theorem elemTemplate_const_decl (o n c : String) (css : Option String) :
    occursIn constDecl (elemTemplate o n c css "").data := by
  simp only [elemTemplate, bne_self_eq_false, Bool.false_eq_true, if_false]
  repeat (first
    | (guard_target = occursIn _ (_ ++ _ ++ "const" ++ _).data
       exact occursIn_span _ _ _ _ "\n".data _ "props.className ? `".data rfl)
    | apply occursIn_append_right)

theorem elemTemplate_let_decl (o n c m : String) (css : Option String) (hm : m ≠ "") :
    occursIn letDecl (elemTemplate o n c css m).data := by
  have hb : (m != "") = true := by simpa using hm
  simp only [elemTemplate, hb, if_true]
  repeat (first
    | (guard_target = occursIn _ (_ ++ _ ++ "let" ++ _).data
       exact occursIn_span _ _ _ _ "\n".data _ "props.className ? `".data rfl)
    | apply occursIn_append_right)


/-- C19: in the text of a component, read as far as its own body (the block
component without the element part, or one element component), the keyword
that declares `className` follows the modifier part. With an empty modifier
part the declaration is `const`, no `let` and no `className +=` occurs; with
a non-empty one the declaration is `let` and no `const` declaration occurs.
The modifier part is empty exactly when the `props` object has no entry.
Names, class names and paths are taken without a tab, and for the `const`
case without a plus sign, so that an occurrence in the text is a statement of
the template and not part of a name. -/
theorem C19_let_or_const :
    (∀ (n c : String) (css : Option String) (props : Option PropsInfo),
        noTab n → noTab c → noTab (jsStr css) → noTabProps props →
        noPlus n → noPlus c → noPlus (jsStr css) →
        (generateModsPart props = "" ↔ JsObj.entries (props.getD []) = [])
        ∧ (generateModsPart props = "" →
            occursIn constDecl (mainTemplate n c css (generateModsPart props) "").data
            ∧ ¬ occursIn letNeedle (mainTemplate n c css (generateModsPart props) "").data
            ∧ ¬ occursIn plusNeedle (mainTemplate n c css (generateModsPart props) "").data)
        ∧ (generateModsPart props ≠ "" →
            occursIn letDecl (mainTemplate n c css (generateModsPart props) "").data
            ∧ ¬ occursIn constNeedle (mainTemplate n c css (generateModsPart props) "").data))
    ∧ (∀ (o n c : String) (css : Option String) (props : Option PropsInfo),
        noTab o → noTab n → noTab c → noTab (jsStr css) → noTabProps props →
        noPlus o → noPlus n → noPlus c → noPlus (jsStr css) →
        (generateModsPart props = "" →
            occursIn constDecl (elemTemplate o n c css (generateModsPart props)).data
            ∧ ¬ occursIn letNeedle (elemTemplate o n c css (generateModsPart props)).data
            ∧ ¬ occursIn plusNeedle (elemTemplate o n c css (generateModsPart props)).data)
        ∧ (generateModsPart props ≠ "" →
            occursIn letDecl (elemTemplate o n c css (generateModsPart props)).data
            ∧ ¬ occursIn constNeedle (elemTemplate o n c css (generateModsPart props)).data)) := by
  refine ⟨?_, ?_⟩
  · intro n c css props hn hc hp hprops pn pc pp
    refine ⟨generateModsPart_eq_empty props, ?_, ?_⟩
    · intro hm
      rw [hm]
      exact ⟨mainTemplate_const_decl n c css, mainTemplate_const_no_let n c css hn hc hp,
        mainTemplate_const_no_plus n c css pn pc pp⟩
    · intro hm
      exact ⟨mainTemplate_let_decl n c _ css hm,
        mainTemplate_let_no_const n c _ css hm hn hc hp (safeS_generateModsPart props hprops)⟩
  · intro o n c css props ho hn hc hp hprops po pn pc pp
    refine ⟨?_, ?_⟩
    · intro hm
      rw [hm]
      exact ⟨elemTemplate_const_decl o n c css, elemTemplate_const_no_let o n c css ho hn hc hp,
        elemTemplate_const_no_plus o n c css po pn pc pp⟩
    · intro hm
      exact ⟨elemTemplate_let_decl o n c _ css hm,
        elemTemplate_let_no_const o n c _ css hm ho hn hc hp
          (safeS_generateModsPart props hprops)⟩

theorem C19_let_or_const_witness :
    occursIn letDecl (mainTemplate "MyBlock" "my-block" (some "./my-block.css")
        (generateModsPart (some [("theme", [("red", ⟨"my-block_theme_red",
          "./my-block_theme_red.css"⟩)])])) "").data
    ∧ ¬ occursIn constNeedle (mainTemplate "MyBlock" "my-block" (some "./my-block.css")
        (generateModsPart (some [("theme", [("red", ⟨"my-block_theme_red",
          "./my-block_theme_red.css"⟩)])])) "").data :=
  (C19_let_or_const.1 "MyBlock" "my-block" (some "./my-block.css")
    (some [("theme", [("red", ⟨"my-block_theme_red", "./my-block_theme_red.css"⟩)])])
    (by unfold noTab; decide) (by unfold noTab; decide) (by unfold noTab; decide)
    (by unfold noTabProps noTab; decide)
    (by unfold noPlus; decide) (by unfold noPlus; decide) (by unfold noPlus; decide)).2.2
    (by decide)


/-! ## C16: elements carry no children -/

theorem splitChars_of_not_mem (sep : Char) (a : List Char) (h : sep ∉ a) :
    splitChars sep a = [a] := by
  induction a with
  | nil => rfl
  | cons c a ih =>
    have hc : c ≠ sep := fun e => h (e ▸ List.mem_cons_self _ _)
    have ha : sep ∉ a := fun e => h (List.mem_cons_of_mem _ e)
    rw [splitChars_cons_of sep c a a [] (ih ha)]
    simp [hc]

theorem splitChars_append_sep (sep : Char) (a b : List Char) (h : sep ∉ a) :
    splitChars sep (a ++ sep :: b) = a :: splitChars sep b := by
  induction a with
  | nil =>
    cases hb : splitChars sep b with
    | nil => exact absurd hb (splitChars_ne_nil sep b)
    | cons w ws => simp [splitChars_cons_of sep sep b w ws hb]
  | cons c a ih =>
    have hc : c ≠ sep := fun e => h (e ▸ List.mem_cons_self _ _)
    have ha : sep ∉ a := fun e => h (List.mem_cons_of_mem _ e)
    rw [List.cons_append, splitChars_cons_of sep c _ a (splitChars sep b) (ih ha)]
    simp [hc]

theorem stringToPath_two (a b : String) (ha : '.' ∉ a.data) (hb : '.' ∉ b.data) :
    stringToPath (a ++ "." ++ b) = [a, b] := by
  simp only [stringToPath, String.data_append, List.append_assoc]
  rw [show ".".data ++ b.data = '.' :: b.data from rfl,
    splitChars_append_sep '.' _ _ ha, splitChars_of_not_mem '.' _ hb]
  rfl

theorem stringToPath_cons (a r : String) (ha : '.' ∉ a.data) :
    stringToPath (a ++ "." ++ r) = a :: stringToPath r := by
  simp only [stringToPath, String.data_append, List.append_assoc]
  rw [show ".".data ++ r.data = '.' :: r.data from rfl, splitChars_append_sep '.' _ _ ha]
  rfl

theorem stringToPath_single (a : String) (ha : '.' ∉ a.data) : stringToPath a = [a] := by
  simp only [stringToPath]
  rw [splitChars_of_not_mem '.' _ ha]
  rfl


theorem JsObj.all_set {α : Type} (p : String × α → Bool) (o : JsObj α) (k : String) (v : α)
    (ho : o.all p = true) (hkv : p (k, v) = true) : (JsObj.set o k v).all p = true := by
  induction o with
  | nil => simpa [JsObj.set] using hkv
  | cons q o ih =>
    obtain ⟨k', v'⟩ := q
    simp only [List.all_cons, Bool.and_eq_true] at ho
    by_cases hk : k' = k
    · subst hk
      simp only [JsObj.set, if_true, List.all_cons, Bool.and_eq_true]
      exact ⟨hkv, ho.2⟩
    · simp only [JsObj.set, hk, if_false, List.all_cons, Bool.and_eq_true]
      exact ⟨ho.1, ih ho.2⟩

theorem setAt_cons (k : String) (rest : List String) (val : JsVal) (o : JsObj JsVal) :
    ∃ x, setAt (k :: rest) val o = JsObj.set o k x := by
  cases rest with
  | nil => exact ⟨val, rfl⟩
  | cons n r => exact ⟨_, rfl⟩

theorem get?_setAt_ne (k : String) (rest : List String) (val : JsVal) (o : JsObj JsVal)
    (k' : String) (h : k' ≠ k) :
    JsObj.get? (setAt (k :: rest) val o) k' = JsObj.get? o k' := by
  obtain ⟨x, hx⟩ := setAt_cons k rest val o
  rw [hx, JsObj.get?_set_ne o k k' x h]

theorem nestedObject_children (ci : JsObj JsVal) (h : elementsFlat ci = true) :
    (nestedObject (JsObj.get? ci "children")).all (fun ev => isElemDescriptor ev.2) = true := by
  unfold elementsFlat at h
  cases hc : JsObj.get? ci "children" with
  | none => rfl
  | some c =>
    rw [hc] at h
    cases c with
    | str s => simp at h
    | obj cs => simpa [nestedObject] using h

theorem nestedObject_elem (cs : JsObj JsVal) (e : String)
    (h : cs.all (fun ev => isElemDescriptor ev.2) = true) :
    (nestedObject (JsObj.get? cs e)).all (fun kv => elemFields.contains kv.1) = true := by
  cases hc : JsObj.get? cs e with
  | none => rfl
  | some c =>
    cases c with
    | str s => rfl
    | obj fs =>
      have hm := JsObj.mem_of_get? cs e _ hc
      have := (List.all_eq_true.mp h) _ hm
      simpa [nestedObject, isElemDescriptor] using this

theorem elementsFlat_set_children (ci cs : JsObj JsVal)
    (h : cs.all (fun ev => isElemDescriptor ev.2) = true) :
    elementsFlat (JsObj.set ci "children" (.obj cs)) = true := by
  unfold elementsFlat
  rw [JsObj.get?_set_self]
  exact h

theorem elementsFlat_set_ne (ci : JsObj JsVal) (k : String) (x : JsVal) (hk : k ≠ "children")
    (h : elementsFlat ci = true) : elementsFlat (JsObj.set ci k x) = true := by
  unfold elementsFlat at h ⊢
  rw [JsObj.get?_set_ne ci k "children" x (fun e => hk e.symm)]
  exact h

theorem elementsFlat_setAt_ne (ci : JsObj JsVal) (k : String) (rest : List String)
    (val : JsVal) (hk : k ≠ "children") (h : elementsFlat ci = true) :
    elementsFlat (setAt (k :: rest) val ci) = true := by
  obtain ⟨x, hx⟩ := setAt_cons k rest val ci
  rw [hx]
  exact elementsFlat_set_ne ci k x hk h

theorem elementsFlat_setAt_field (ci : JsObj JsVal) (e f : String) (rest : List String)
    (val : JsVal) (hf : elemFields.contains f = true) (h : elementsFlat ci = true) :
    elementsFlat (setAt ("children" :: e :: f :: rest) val ci) = true := by
  have hcs := nestedObject_children ci h
  have hfs := nestedObject_elem _ e hcs
  obtain ⟨x, hx⟩ := setAt_cons f rest val (nestedObject (JsObj.get?
    (nestedObject (JsObj.get? ci "children")) e))
  simp only [setAt]
  apply elementsFlat_set_children
  apply JsObj.all_set _ _ _ _ hcs
  rw [hx]
  exact JsObj.all_set _ _ _ _ hfs hf

theorem elementsFlat_setAt_elem (ci : JsObj JsVal) (e : String) (d : JsVal)
    (hd : isElemDescriptor d = true) (h : elementsFlat ci = true) :
    elementsFlat (setAt ["children", e] d ci) = true := by
  have hcs := nestedObject_children ci h
  simp only [setAt]
  apply elementsFlat_set_children
  exact JsObj.all_set _ _ _ _ hcs hd

theorem spread_existing (ci : JsObj JsVal) (e : String) (h : elementsFlat ci = true) :
    (spread (getAt ["children", e] (.obj ci))).all
      (fun kv => elemFields.contains kv.1) = true := by
  unfold elementsFlat at h
  simp only [getAt]
  cases hc : JsObj.get? ci "children" with
  | none => rfl
  | some c =>
    rw [hc] at h
    cases c with
    | str s => simp at h
    | obj cs =>
      simp only [Option.some_bind, getAt]
      cases he : JsObj.get? cs e with
      | none => rfl
      | some x =>
        have hm := JsObj.mem_of_get? cs e _ he
        have hx := (List.all_eq_true.mp h) _ hm
        cases x with
        | str s => simp [isElemDescriptor] at hx
        | obj fs =>
          simp only [Option.some_bind, getAt, spread]
          rw [List.all_eq_true]
          intro kv hkv
          exact (List.all_eq_true.mp hx) kv (JsObj.mem_of_mem_entries fs kv hkv)

theorem elementsFlat_read (ci : JsObj JsVal) (h : elementsFlat ci = true) (e : String)
    (d : JsVal) (hd : getAt ["children", e] (.obj ci) = some d) :
    isElemDescriptor d = true ∧ getAt ["children"] d = none := by
  unfold elementsFlat at h
  simp only [getAt] at hd
  cases hc : JsObj.get? ci "children" with
  | none => simp [hc] at hd
  | some c =>
    rw [hc] at h hd
    cases c with
    | str s => simp at h
    | obj cs =>
      simp only [Option.some_bind, getAt] at hd
      cases he : JsObj.get? cs e with
      | none => simp [he] at hd
      | some x =>
        rw [he] at hd
        simp only [Option.some_bind, getAt, Option.some.injEq] at hd
        subst hd
        have hm := JsObj.mem_of_get? cs e _ he
        have hx := (List.all_eq_true.mp h) _ hm
        refine ⟨hx, ?_⟩
        cases x with
        | str s => simp [isElemDescriptor] at hx
        | obj fs =>
          simp only [getAt]
          cases hf : JsObj.get? fs "children" with
          | none => rfl
          | some y =>
            have hy := (List.all_eq_true.mp hx) _ (JsObj.mem_of_get? fs _ _ hf)
            simp [elemFields] at hy


theorem stringToPath_cons_right (a r : String) (ha : '.' ∉ a.data) :
    stringToPath (a ++ ("." ++ r)) = a :: stringToPath r := by
  rw [← String.append_assoc]
  exact stringToPath_cons a r ha

theorem path_props (n v : String) (hn : pathKey n) (hv : pathKey v) :
    stringToPath ("props." ++ n ++ "." ++ v) = ["props", n, v] := by
  rw [show ("props." : String) = "props" ++ "." from rfl]
  simp only [String.append_assoc]
  rw [stringToPath_cons_right "props" _ (by decide), stringToPath_cons_right n _ hn.1,
    stringToPath_single v hv.1]

theorem path_elem (e : String) (he : pathKey e) :
    stringToPath ("children." ++ e) = ["children", e] := by
  rw [show ("children." : String) = "children" ++ "." from rfl]
  simp only [String.append_assoc]
  rw [stringToPath_cons_right "children" _ (by decide), stringToPath_single e he.1]

theorem path_elem_name (e : String) (he : pathKey e) :
    stringToPath ("children." ++ e ++ ".name") = ["children", e, "name"] := by
  rw [show ("children." : String) = "children" ++ "." from rfl,
    show (".name" : String) = "." ++ "name" from rfl]
  simp only [String.append_assoc]
  rw [stringToPath_cons_right "children" _ (by decide), stringToPath_cons_right e _ he.1,
    stringToPath_single "name" (by decide)]

theorem path_elem_className (e : String) (he : pathKey e) :
    stringToPath ("children." ++ e ++ ".className") = ["children", e, "className"] := by
  rw [show ("children." : String) = "children" ++ "." from rfl,
    show (".className" : String) = "." ++ "className" from rfl]
  simp only [String.append_assoc]
  rw [stringToPath_cons_right "children" _ (by decide), stringToPath_cons_right e _ he.1,
    stringToPath_single "className" (by decide)]

theorem path_elem_props (e n v : String) (he : pathKey e) (hn : pathKey n) (hv : pathKey v) :
    stringToPath ("children." ++ e ++ ".props." ++ n ++ "." ++ v)
      = ["children", e, "props", n, v] := by
  rw [show ("children." : String) = "children" ++ "." from rfl,
    show (".props." : String) = "." ++ ("props" ++ ".") from rfl]
  simp only [String.append_assoc]
  rw [stringToPath_cons_right "children" _ (by decide), stringToPath_cons_right e _ he.1,
    stringToPath_cons_right "props" _ (by decide), stringToPath_cons_right n _ hn.1,
    stringToPath_single v hv.1]


theorem isElemDescriptor_merged (existingObj : JsObj JsVal) (a b c : JsVal)
    (h : existingObj.all (fun kv => elemFields.contains kv.1) = true) :
    isElemDescriptor (.obj (((JsObj.set existingObj "className" a).set "cssPath" b).set
      "name" c)) = true := by
  simp only [isElemDescriptor]
  exact JsObj.all_set _ _ _ _ (JsObj.all_set _ _ _ _ (JsObj.all_set _ _ _ _ h rfl) rfl) rfl

theorem classifyJs_flat (ci : JsObj JsVal) (bem : BemEntityName) (ref : StyleRef)
    (hb : pathNames bem) (h : elementsFlat ci = true) :
    elementsFlat (classifyJs ci bem ref) = true := by
  obtain ⟨block, elem, mod⟩ := bem
  obtain ⟨he, hm⟩ := hb
  simp only at he hm
  unfold classifyJs
  cases ht : !truthy elem <;> cases mod with
  | none =>
    first
    -- an element-root file
    | (cases elem with
       | none => simp [truthy] at ht
       | some e =>
         have hk := he e rfl
         simp only [Option.getD_some, lodashSet, lodashGet, path_elem e hk]
         exact elementsFlat_setAt_elem ci e _
           (isElemDescriptor_merged _ _ _ _ (spread_existing ci e h)) h)
    -- a block-root file
    | (simp only
       exact elementsFlat_set_ne _ _ _ (by decide) (elementsFlat_set_ne _ _ _ (by decide) h))
  | some nv =>
    obtain ⟨n, v⟩ := nv
    obtain ⟨hn, hv⟩ := hm n v rfl
    first
    -- an element-with-modifier file
    | (cases elem with
       | none => simp [truthy] at ht
       | some e =>
         have hk := he e rfl
         simp only [Option.getD_some, lodashSet, lodashGet, path_elem_props e n v hk hn hv,
           path_elem_name e hk, path_elem_className e hk]
         have h1 := elementsFlat_setAt_field ci e "props" [n, v] (componentCssInfo ref)
           (by decide) h
         split <;> split <;>
           first
           | exact h1
           | exact elementsFlat_setAt_field _ e "name" [] _ (by decide) h1
           | exact elementsFlat_setAt_field _ e "className" [] _ (by decide) h1
           | exact elementsFlat_setAt_field _ e "className" [] _ (by decide)
               (elementsFlat_setAt_field _ e "name" [] _ (by decide) h1))
    -- a block-modifier file
    | (simp only [lodashSet, path_props n v hn hv]
       exact elementsFlat_setAt_ne ci "props" [n, v] _ (by decide) h)


theorem classifyJs_dir (ci : JsObj JsVal) (bem : BemEntityName) (ref : StyleRef)
    (hb : pathNames bem) :
    JsObj.get? (classifyJs ci bem ref) "dir" = JsObj.get? ci "dir" := by
  obtain ⟨block, elem, mod⟩ := bem
  obtain ⟨he, hm⟩ := hb
  simp only at he hm
  unfold classifyJs
  cases ht : !truthy elem <;> cases mod with
  | none =>
    first
    | (cases elem with
       | none => simp [truthy] at ht
       | some e =>
         have hk := he e rfl
         simp only [Option.getD_some, lodashSet, lodashGet, path_elem e hk]
         exact get?_setAt_ne "children" [e] _ ci "dir" (by decide))
    | (simp only
       rw [JsObj.get?_set_ne _ "cssPath" "dir" _ (by decide),
         JsObj.get?_set_ne _ "className" "dir" _ (by decide)])
  | some nv =>
    obtain ⟨n, v⟩ := nv
    obtain ⟨hn, hv⟩ := hm n v rfl
    first
    | (cases elem with
       | none => simp [truthy] at ht
       | some e =>
         have hk := he e rfl
         simp only [Option.getD_some, lodashSet, lodashGet, path_elem_props e n v hk hn hv,
           path_elem_name e hk, path_elem_className e hk]
         have h1 := get?_setAt_ne "children" [e, "props", n, v] (componentCssInfo ref) ci
           "dir" (by decide)
         split <;> split <;>
           simp only [get?_setAt_ne "children" _ _ _ "dir" (by decide)])
    | (simp only [lodashSet, path_props n v hn hv]
       exact get?_setAt_ne "props" [n, v] _ ci "dir" (by decide))

theorem processFilesJs_ok (parse : String → Option BemEntityName)
    (dir : String) (files : List String)
    (hparse : ∀ f ∈ files, ∀ b, parse (stripPostCss (basename f)) = some b → pathNames b)
    (hfiles : ∀ f ∈ files, (parse (stripPostCss (basename f))).isSome = true) :
    ∀ ci : JsObj JsVal, JsObj.get? ci "dir" = some (.str dir) → elementsFlat ci = true →
      ∃ ci1, processFilesJs parse ci files = .ok ci1
        ∧ JsObj.get? ci1 "dir" = some (.str dir) ∧ elementsFlat ci1 = true := by
  induction files with
  | nil => exact fun ci hd hf => ⟨ci, rfl, hd, hf⟩
  | cons f files ih =>
    intro ci hd hf
    have hp := hfiles f (List.mem_cons_self _ _)
    obtain ⟨b, hb⟩ := Option.isSome_iff_exists.mp hp
    have hstep : processFileJs parse ci f
        = .ok (classifyJs ci b ⟨stripPostCss (basename f), "./" ++ pathRelative dir f⟩) := by
      simp only [processFileJs, hb, hd]
    have hpn := hparse f (List.mem_cons_self _ _) b hb
    simp only [processFilesJs, hstep]
    exact ih (fun g hg => hparse g (List.mem_cons_of_mem _ hg))
      (fun g hg => hfiles g (List.mem_cons_of_mem _ hg)) _
      ((classifyJs_dir ci b _ hpn).trans hd)
      (classifyJs_flat ci b _ hpn hf)

theorem splitChars_chars (sep : Char) (p : Char → Bool) (w : List Char)
    (h : (splitChars sep w).all (fun s => s.all p) = true) :
    ∀ c ∈ w, p c = true ∨ c = sep := by
  induction w with
  | nil => intro c hc; cases hc
  | cons a w ih =>
    cases hs : splitChars sep w with
    | nil => exact absurd hs (splitChars_ne_nil sep w)
    | cons x xs =>
      rw [splitChars_cons_of sep a w x xs hs] at h
      rw [hs] at ih
      by_cases ha : a = sep
      · subst ha
        simp only [beq_self_eq_true, if_true, List.all_cons, Bool.and_eq_true] at h
        intro c hc
        rcases List.mem_cons.mp hc with rfl | hc
        · exact Or.inr rfl
        · exact ih (by simp only [List.all_cons, Bool.and_eq_true]; exact h.2) c hc
      · have hne : (a == sep) = false := by simpa using ha
        simp only [hne, Bool.false_eq_true, if_false, List.all_cons, Bool.and_eq_true] at h
        intro c hc
        rcases List.mem_cons.mp hc with rfl | hc
        · exact Or.inl h.1.1
        · exact ih (by simp only [List.all_cons, Bool.and_eq_true]; exact ⟨h.1.2, h.2⟩) c hc

theorem isBemWord_chars (w : List Char) (h : isBemWord w = true) :
    ∀ c ∈ w, c.isAlphanum = true ∨ c = '-' := by
  apply splitChars_chars
  unfold isBemWord at h
  rw [List.all_eq_true] at h ⊢
  intro s hs
  have := h s hs
  simp only [isAlnumRun, Bool.and_eq_true] at this
  exact this.2

theorem isBemWord_pathKey (w : List Char) (h : isBemWord w = true) : pathKey (String.mk w) := by
  have hc := isBemWord_chars w h
  refine ⟨fun hm => ?_, fun hm => ?_, fun hm => ?_⟩ <;>
    rcases hc _ hm with h1 | h1 <;> revert h1 <;> decide

theorem pathKey_true : pathKey "true" := by
  unfold pathKey
  decide


theorem bemNamingParse_pathNames (s : String) (b : BemEntityName)
    (h : bemNamingParse s = some b) : pathNames b := by
  unfold bemNamingParse at h
  split at h <;> (try split at h) <;> cases h
  all_goals
    rename_i hw
    try simp only [Bool.and_eq_true] at hw
    refine ⟨fun e he => ?_, fun n v hnv => ?_⟩
  all_goals (try cases he)
  all_goals (try cases hnv)
  all_goals (try (guard_target = _ ∧ _; refine ⟨?_, ?_⟩))
  all_goals
    first
    | exact pathKey_true
    | exact isBemWord_pathKey _ hw
    | exact isBemWord_pathKey _ hw.1
    | exact isBemWord_pathKey _ hw.2
    | exact isBemWord_pathKey _ hw.1.1
    | exact isBemWord_pathKey _ hw.1.2
    | exact isBemWord_pathKey _ hw.1.1.1
    | exact isBemWord_pathKey _ hw.1.1.2


/-- With a dot in an element name the path of `_.set` has further segments:
the element `a` of the file `b__a.children.x` receives a `children` field. -/
theorem classifyJs_dotted_elem :
    elementsFlat (classifyJs [("name", .str "B"), ("dir", .str "/out/B")]
      ⟨"b", some "a.children.x", none⟩ ⟨"b__a.children.x", "./css/b__a.children.x.post.css"⟩)
      = false := by
  decide

/-- C16, for files whose names are own keys: for every sequence of files of
a block that the naming parser accepts, the fold on the untyped descriptor
returns a descriptor in which every value stored under `children` is an
object whose own keys are among `name`, `className`, `cssPath` and `props`,
and which has no `children` of its own. -/
theorem C16_elements_without_children (parse : String → Option BemEntityName)
    (blockName componentPath : String) (files : List String)
    (hown : ∀ b ∈ parsedOf parse files, ownNames b = true)
    (hfiles : ∀ f ∈ files, (parse (stripPostCss (basename f))).isSome = true) :
    ∃ ci, blockInfoJs parse blockName componentPath files = .ok ci
      ∧ ∀ e d, getAt ["children", e] (.obj ci) = some d →
          isElemDescriptor d = true ∧ getAt ["children"] d = none := by
  have hparse : ∀ f ∈ files, ∀ b, parse (stripPostCss (basename f)) = some b →
      pathNames b := by
    intro f hf b hb
    exact ownNames_pathNames b (hown b (List.mem_filterMap.mpr ⟨f, hf, hb⟩))
  obtain ⟨ci1, hok, _, hflat⟩ := processFilesJs_ok parse componentPath files hparse hfiles
    [("name", .str (convertBlockName blockName)), ("dir", .str componentPath)] rfl rfl
  refine ⟨if truthyJs (JsObj.get? ci1 "className") then ci1
    else JsObj.set ci1 "className" (.str blockName), by simp only [blockInfoJs, hok], ?_⟩
  have hfin : elementsFlat
      (if truthyJs (JsObj.get? ci1 "className") then ci1
        else JsObj.set ci1 "className" (.str blockName)) = true := by
    split
    · exact hflat
    · exact elementsFlat_set_ne _ _ _ (by decide) hflat
  exact elementsFlat_read _ hfin

/-- C16 on the four files of the scenario block, with the default parser. -/
theorem C16_elements_without_children_witness :
    ∃ ci, blockInfoJs bemNamingParse "my-block" "/out/MyBlock"
        ["/out/MyBlock/css/my-block.post.css", "/out/MyBlock/css/my-block_theme_red.post.css",
         "/out/MyBlock/css/my-block__icon.post.css",
         "/out/MyBlock/css/my-block__icon_size_big.post.css"] = .ok ci
      ∧ ∀ e d, getAt ["children", e] (.obj ci) = some d →
          isElemDescriptor d = true ∧ getAt ["children"] d = none :=
  C16_elements_without_children bemNamingParse "my-block" "/out/MyBlock"
    ["/out/MyBlock/css/my-block.post.css", "/out/MyBlock/css/my-block_theme_red.post.css",
     "/out/MyBlock/css/my-block__icon.post.css",
     "/out/MyBlock/css/my-block__icon_size_big.post.css"] (by decide) (by decide)


/-- On the files of the scenario block, in the order of the listing and in the
reverse order, the fold on the untyped descriptor and the fold on the typed
one return the same descriptor. -/
theorem scenario_models_agree :
    ((blockInfoJs bemNamingParse "my-block" "/out/MyBlock"
        ["/out/MyBlock/css/my-block.post.css", "/out/MyBlock/css/my-block_theme_red.post.css",
         "/out/MyBlock/css/my-block__icon.post.css",
         "/out/MyBlock/css/my-block__icon_size_big.post.css"]).toOption.map componentInfoOf
      = (blockInfo bemNamingParse "my-block" "/out/MyBlock"
        ["/out/MyBlock/css/my-block.post.css", "/out/MyBlock/css/my-block_theme_red.post.css",
         "/out/MyBlock/css/my-block__icon.post.css",
         "/out/MyBlock/css/my-block__icon_size_big.post.css"]).toOption)
    ∧ ((blockInfoJs bemNamingParse "my-block" "/out/MyBlock"
        ["/out/MyBlock/css/my-block__icon_size_big.post.css",
         "/out/MyBlock/css/my-block__icon.post.css",
         "/out/MyBlock/css/my-block_theme_red.post.css",
         "/out/MyBlock/css/my-block.post.css"]).toOption.map componentInfoOf
      = (blockInfo bemNamingParse "my-block" "/out/MyBlock"
        ["/out/MyBlock/css/my-block__icon_size_big.post.css",
         "/out/MyBlock/css/my-block__icon.post.css",
         "/out/MyBlock/css/my-block_theme_red.post.css",
         "/out/MyBlock/css/my-block.post.css"]).toOption) := by
  constructor <;> decide

end BemCssReact
